import Mathlib

/-!
# CFF common structures (hb-ot-cff-common.hh)

A shallow embedding of the CFF INDEX codec, the offset-width calculator, the
Subrs, Dict, FDMap and FDArray serializers and the FDSelect tables of
`src/hb-ot-cff-common.hh`, with the properties of the specification stated and
settled over it.

Conventions of the embedding.

* Memory is a list of bytes (`List Nat`, every cell read modulo 256); an object is
  named by the position of its first byte. A read outside the list has no defined
  value in C and is `none` here, as is a failed `assert`.
* `unsigned int` is 32 bits wide: every arithmetic result the source keeps in an
  `unsigned int` is reduced modulo `2^32`.
* `COUNT` is the template parameter of `CFFIndex`: `HBUINT16` for CFF1, `HBUINT32`
  for CFF2.
-/

namespace CFF

/-! ## Machine integers and memory -/

/-- Value of an `unsigned int` expression: reduction modulo `2^32`. -/
def u32 (x : Nat) : Nat := x % 4294967296

/-- Unsigned 32-bit subtraction `a - b`, for `a` and `b` below `2^32`. -/
def usub (a b : Nat) : Nat := u32 (a + 4294967296 - b)

/-- One byte of memory at position `p`; `none` outside the memory. -/
def readByte (mem : List Nat) (p : Nat) : Option Nat :=
  (mem.get? p).map (fun b => b % 256)

/-- Modelled from the spec: the read of a big-endian integer field of `w` bytes at
`p` (the `BEInt` conversion behind `HBUINT16` and `HBUINT32`, declared in
hb-open-type.hh, outside this file), accumulated from `acc`. -/
def readBE (mem : List Nat) (p : Nat) : Nat → Nat → Option Nat
  | 0, acc => some acc
  | w + 1, acc =>
    match readByte mem p with
    | none => none
    | some b => readBE mem (p + 1) w (acc * 256 + b)

/-- One byte stored at position `p` of an output buffer of `cap` bytes whose bytes
up to `head` are `mem`. A store between `head` and the end of the buffer lands in
bytes that are not part of the output (`allocate_size` clears the bytes it hands
out), so it is lost; a store past the end of the buffer is `none`. -/
def writeByte (cap : Nat) (mem : List Nat) (p v : Nat) : Option (List Nat) :=
  if p < mem.length then some (mem.set p v) else if p < cap then some mem else none

/-- Modelled from the spec: the store of a big-endian integer field of `w` bytes
that ends just before position `p` (the `BEInt::set` behind `HBUINT16` and
`HBUINT32`, declared in hb-open-type.hh, outside this file): the low byte goes
last. -/
def writeBE (cap : Nat) (mem : List Nat) : Nat → Nat → Nat → Option (List Nat)
  | _, 0, _ => some mem
  | p, w + 1, v =>
    match writeByte cap mem (p - 1) (v &&& 255) with
    | none => none
    | some mem1 => writeBE cap mem1 (p - 1) w (v >>> 8)

/-- Modelled from the spec: the integer types `HBUINT16` and `HBUINT32` (declared
in hb-open-type.hh, outside this file) a `CFFIndex` is instantiated with for its
`count` field, 16 or 32 bits. -/
inductive COUNT where
  | HBUINT16
  | HBUINT32
  deriving DecidableEq, Repr

/-- Size in bytes of the count field (`COUNT::static_size`). -/
def COUNT.static_size : COUNT → Nat
  | .HBUINT16 => 2
  | .HBUINT32 => 4

/-- Modelled from the spec: the byte span `ByteStr` (declared in
hb-cff-interp-common.hh, outside this file), a base pointer and a length. The
pointer `str` is a position in a memory, `none` the null pointer. -/
structure ByteStr where
  str : Option Nat
  len : Nat
  deriving DecidableEq, Repr

/-- Modelled from the spec: `Null(ByteStr)`, the empty span: null pointer, length
zero. -/
def ByteStr.Null : ByteStr := ⟨none, 0⟩

/-- Modelled from the spec: `ByteStr::get_size ()`, the length of the span. -/
def ByteStr.get_size (b : ByteStr) : Nat := b.len

/-- The bytes a span designates in `mem`; `none` when the span is not inside
`mem` (a null span designates bytes only when it is empty). -/
def ByteStr.bytes (mem : List Nat) (b : ByteStr) : Option (List Nat) :=
  match b.str with
  | none => if b.len = 0 then some [] else none
  | some p => if p + b.len ≤ mem.length then some ((mem.drop p).take b.len) else none

/-! ## calcOffSize -/

/-- The loop of `calcOffSize`: while `(offset & ~0xFF) != 0`, count one more byte
and shift `offset` right by 8. For a 32-bit `offset`, `~0xFF` is `0xFFFFFF00`. -/
def calcOffSize.loop (offset size : Nat) : Nat :=
  if h : offset &&& 4294967040 ≠ 0 then
    calcOffSize.loop (offset >>> 8) (size + 1)
  else size
termination_by offset
decreasing_by
  rw [Nat.shiftRight_eq_div_pow]
  have h0 : offset ≠ 0 := by
    intro h0
    apply h
    rw [h0]
    exact Nat.zero_and _
  exact Nat.div_lt_self (Nat.pos_of_ne_zero h0) (by norm_num)

/-- Function `calcOffSize (offset)`: `none` when `assert (size <= 4)` fails. -/
def calcOffSize (offset : Nat) : Option Nat :=
  let size := calcOffSize.loop offset 1
  if size ≤ 4 then some size else none

/-! ## The sanitize context -/

/-- Modelled from the spec: the sanitize context `hb_sanitize_context_t` (declared
in hb-open-type.hh, outside this file), the bounds-checked access primitives the
codec calls into. The blob is `buf`, with `start` at position 0 and `end` at
`buf.length`; `num_glyphs` is what `get_num_glyphs ()` returns. -/
structure hb_sanitize_context_t where
  buf : List Nat
  num_glyphs : Nat

/-- Modelled from the spec: `check_range (base, len)`, true when the `len` bytes
from `base` lie between `start` and `end`. -/
def hb_sanitize_context_t.check_range (c : hb_sanitize_context_t) (base len : Nat) : Bool :=
  decide (base ≤ c.buf.length) && decide (len ≤ c.buf.length - base)

/-- Modelled from the spec: `check_array (base, record_size, len)`, false when
`record_size * len` overflows an `unsigned int`, else the range check. -/
def hb_sanitize_context_t.check_array (c : hb_sanitize_context_t)
    (base record_size len : Nat) : Bool :=
  decide (record_size * len < 4294967296) && c.check_range base (record_size * len)

/-! ## CFFIndex: reading -/

namespace CFFIndex

/-- Constant `min_size` of `DEFINE_SIZE_ARRAY (COUNT::static_size + HBUINT8::static_size, offsets)`. -/
def min_size (C : COUNT) : Nat := C.static_size + 1

/-- Field `count`, read from the object at `this`. -/
def count (C : COUNT) (mem : List Nat) (this : Nat) : Option Nat :=
  readBE mem this C.static_size 0

/-- Field `offSize`, read from the object at `this`. -/
def offSize (C : COUNT) (mem : List Nat) (this : Nat) : Option Nat :=
  readByte mem (this + C.static_size)

/-- Position of the array `offsets`. -/
def offsets (C : COUNT) (this : Nat) : Nat := this + C.static_size + 1

/-- Function `calculate_offset_array_size (offSize, count)`. -/
def calculate_offset_array_size (offSize count : Nat) : Nat :=
  u32 (offSize * u32 (count + 1))

/-- Function `offset_array_size ()`. -/
def offset_array_size (C : COUNT) (mem : List Nat) (this : Nat) : Option Nat :=
  match offSize C mem this, count C mem this with
  | some s, some n => some (calculate_offset_array_size s n)
  | _, _ => none

/-- Function `calculate_serialized_size (offSize, count, dataSize)`. -/
def calculate_serialized_size (C : COUNT) (offSize count dataSize : Nat) : Nat :=
  u32 (min_size C + calculate_offset_array_size offSize count + dataSize)

/-- The loop of `offset_at`: `for (; size; size--) offset = (offset << 8) + *p++`. -/
def offset_at.loop (mem : List Nat) : Nat → Nat → Nat → Option Nat
  | _, 0, offset => some offset
  | p, size + 1, offset =>
    match readByte mem p with
    | none => none
    | some b => offset_at.loop mem (p + 1) size (u32 (u32 (offset <<< 8) + b))

/-- Function `offset_at (index)`; `none` when `assert (index <= count)` fails or a
byte read is outside the memory. -/
def offset_at (C : COUNT) (mem : List Nat) (this index : Nat) : Option Nat :=
  match count C mem this, offSize C mem this with
  | some n, some s =>
    if index ≤ n then offset_at.loop mem (offsets C this + u32 (s * index)) s 0 else none
  | _, _ => none

/-- Function `length_at (index)`. -/
def length_at (C : COUNT) (mem : List Nat) (this index : Nat) : Option Nat :=
  match offset_at C mem this (index + 1), offset_at C mem this index with
  | some o1, some o0 => some (usub o1 o0)
  | _, _ => none

/-- Function `data_base ()`: position of the first data byte. -/
def data_base (C : COUNT) (mem : List Nat) (this : Nat) : Option Nat :=
  match offset_array_size C mem this with
  | some a => some (this + min_size C + a)
  | none => none

/-- Element access, the `operator []` of `CFFIndex`. -/
def get (C : COUNT) (mem : List Nat) (this index : Nat) : Option ByteStr :=
  match count C mem this with
  | none => none
  | some n =>
    if index < n then
      match data_base C mem this, offset_at C mem this index,
          offset_at C mem this (index + 1) with
      | some base, some o0, some o1 => some ⟨some (base + o0 - 1), usub o1 o0⟩
      | _, _, _ => none
    else some ByteStr.Null

/-- The loop of `max_offset`, with `n` iterations left, at index `i`. -/
def max_offset.loop (C : COUNT) (mem : List Nat) (this : Nat) : Nat → Nat → Nat → Option Nat
  | 0, _, max => some max
  | n + 1, i, max =>
    match offset_at C mem this i with
    | none => none
    | some off => max_offset.loop C mem this n (i + 1) (if off > max then off else max)

/-- Function `max_offset ()`: the loop `for (i = 0; i <= count; i++)` runs
`count + 1` times; with `count = 2^32 - 1` its condition never fails, which is
`none` here. -/
def max_offset (C : COUNT) (mem : List Nat) (this : Nat) : Option Nat :=
  match count C mem this with
  | none => none
  | some n => if n + 1 < 4294967296 then max_offset.loop C mem this (n + 1) 0 0 else none

/-- Second disjunct of `sanitize`: the checks of a non-empty INDEX. -/
def sanitize.nonempty (C : COUNT) (c : hb_sanitize_context_t) (this : Nat) : Option Bool :=
  if c.check_range this (min_size C) then
    match offSize C c.buf this, count C c.buf this with
    | some s, some n =>
      if 1 ≤ s ∧ s ≤ 4 then
        if c.check_array (offsets C this) s (u32 (n + 1)) then
          match data_base C c.buf this, max_offset C c.buf this with
          | some base, some m => some (c.check_array base 1 (usub m 1))
          | _, _ => none
        else some false
      else some false
    | _, _ => none
  else some false

/-- Function `sanitize (c)`:
`(count.sanitize (c) && count == 0) || (check_struct && offSize in 1..4 &&
check_array (offsets, offSize, count + 1) && check_array (data_base (), 1, max_offset () - 1))`. -/
def sanitize (C : COUNT) (c : hb_sanitize_context_t) (this : Nat) : Option Bool :=
  if c.check_range this C.static_size then
    match count C c.buf this with
    | none => none
    | some n => if n = 0 then some true else sanitize.nonempty C c this
  else sanitize.nonempty C c this

end CFFIndex

/-! ## CFFIndexOf: reading -/

namespace CFFIndexOf

/-- Element access, the `operator []` of `CFFIndexOf`, which takes the length
from `length_at`. -/
def get (C : COUNT) (mem : List Nat) (this index : Nat) : Option ByteStr :=
  match CFFIndex.count C mem this with
  | none => none
  | some n =>
    if index < n then
      match CFFIndex.data_base C mem this, CFFIndex.offset_at C mem this index,
          CFFIndex.length_at C mem this index with
      | some base, some o0, some l => some ⟨some (base + o0 - 1), l⟩
      | _, _, _ => none
    else some ByteStr.Null

end CFFIndexOf

/-! ## The serialize context -/

/-- Modelled from the spec: the serialize context `hb_serialize_context_t`
(declared in hb-open-type.hh, outside this file), an append-only output buffer.
The bytes between `start` and `head` are `data`; `size` is `end - start`, which the
constructor takes as an `unsigned int`. -/
structure hb_serialize_context_t where
  data : List Nat
  size : Nat
  deriving DecidableEq, Repr

/-- Modelled from the spec: `allocate_size (size)` appends `n` zero bytes at
`head`, and fails (`none`) when they do not fit before `end`. -/
def hb_serialize_context_t.allocate_size (c : hb_serialize_context_t) (n : Nat) :
    Option hb_serialize_context_t :=
  if c.data.length + n ≤ c.size then some { c with data := c.data ++ List.replicate n 0 }
  else none

/-- Modelled from the spec: `ByteStr::serialize (c, src)` (hb-cff-interp-common.hh),
a direct copy: it allocates `src.len` bytes and copies the bytes of `src`, read
from the memory `mem` the span points into. -/
def ByteStr.serialize (c : hb_serialize_context_t) (mem : List Nat) (src : ByteStr) :
    Option hb_serialize_context_t :=
  match c.allocate_size src.len, src.bytes mem with
  | some c1, some bs => some { c1 with data := c.data ++ bs }
  | _, _ => none

/-! ## CFFIndex: writing -/

namespace CFFIndex

/-- The loop of `set_offset_at`: `for (; size; size--) { --p; p->set (offset & 0xFF);
offset >>= 8; }`, in an output buffer of `cap` bytes. -/
def set_offset_at.loop (cap : Nat) (mem : List Nat) : Nat → Nat → Nat → Option (List Nat)
  | _, 0, _ => some mem
  | p, size + 1, offset =>
    match writeByte cap mem (p - 1) (offset &&& 255) with
    | none => none
    | some mem1 => set_offset_at.loop cap mem1 (p - 1) size (offset >>> 8)

/-- Function `set_offset_at (index, offset)` on the object at `this`; it takes the
width from the stored field `offSize`. -/
def set_offset_at (C : COUNT) (cap : Nat) (mem : List Nat) (this index offset : Nat) :
    Option (List Nat) :=
  match offSize C mem this with
  | none => none
  | some s => set_offset_at.loop cap mem (offsets C this + u32 (s * index) + s) s offset

/-- The loop "serialize indices" of `serialize` and the store of the last offset
after it. -/
def serialize.indices (C : COUNT) (cap this : Nat) :
    List ByteStr → Nat → Nat → List Nat → Option (List Nat)
  | [], i, offset, mem => set_offset_at C cap mem this i offset
  | b :: rest, i, offset, mem =>
    match set_offset_at C cap mem this i offset with
    | none => none
    | some mem1 => serialize.indices C cap this rest (i + 1) (u32 (offset + b.get_size)) mem1

/-- The loop "serialize data" of `serialize`. -/
def serialize.data (mem : List Nat) :
    List ByteStr → hb_serialize_context_t → Option hb_serialize_context_t
  | [], c => some c
  | b :: rest, c =>
    match ByteStr.serialize c mem b with
    | none => none
    | some c1 => serialize.data mem rest c1

/-- Function `serialize (c, offSize_, byteArray)`, called on the object that starts
at `head`; the spans of `byteArray` point into `mem`. The result is `none` when
the call returns false, or stores past the end of the output buffer or copies
from outside `mem`, which is not defined behaviour. -/
def serialize (C : COUNT) (c : hb_serialize_context_t) (offSize_ : Nat) (mem : List Nat)
    (byteArray : List ByteStr) : Option hb_serialize_context_t := do
  let this := c.data.length
  let c1 ← c.allocate_size (min_size C)
  let d1 ← writeBE c.size c1.data (this + C.static_size) C.static_size byteArray.length
  let d2 ← writeByte c.size d1 (this + C.static_size) (offSize_ &&& 255)
  let c2 ← hb_serialize_context_t.allocate_size { c1 with data := d2 }
    (u32 (offSize_ * u32 (byteArray.length + 1)))
  let d3 ← serialize.indices C c.size this byteArray 0 1 c2.data
  serialize.data mem byteArray { c2 with data := d3 }

end CFFIndex

/-! ## FDSelect format 3 -/

namespace FDSelect3_Range

/-- Size of a range record (`GID_TYPE::static_size + FD_TYPE::static_size`). -/
def static_size : Nat := 3

/-- Field `first` of the range at position `r`. -/
def first (mem : List Nat) (r : Nat) : Option Nat := readBE mem r 2 0

/-- Field `fd` of the range at position `r`. -/
def fd (mem : List Nat) (r : Nat) : Option Nat := readByte mem (r + 2)

/-- Function `sanitize (c, fdcount)` of a range:
`check_struct (this) && first < c->get_num_glyphs () && fd < fdcount`. -/
def sanitize (c : hb_sanitize_context_t) (r fdcount : Nat) : Option Bool :=
  if c.check_range r static_size then
    match first c.buf r, fd c.buf r with
    | some f, some d => some (decide (f < c.num_glyphs) && decide (d < fdcount))
    | _, _ => none
  else some false

end FDSelect3_Range

namespace FDSelect3

/-- Constant `min_size` of `DEFINE_SIZE_ARRAY (GID_TYPE::static_size * 2, ranges)`. -/
def min_size : Nat := 4

/-- Field `nRanges`. -/
def nRanges (mem : List Nat) (this : Nat) : Option Nat := readBE mem this 2 0

/-- Position of `ranges[i]`. -/
def ranges (this i : Nat) : Nat := this + 2 + FDSelect3_Range.static_size * i

/-- Function `get_size ()`. -/
def get_size (mem : List Nat) (this : Nat) : Option Nat :=
  match nRanges mem this with
  | none => none
  | some n => some (u32 (2 * 2 + FDSelect3_Range.static_size * n))

/-- Position of `sentinel ()`, the `GID_TYPE` after `ranges[nRanges - 1]`. -/
def sentinel (mem : List Nat) (this : Nat) : Option Nat :=
  match nRanges mem this with
  | none => none
  | some n => some (this + 2 + FDSelect3_Range.static_size * n)

/-- The `for` loop of `sanitize`, with `n` iterations left, at index `i`. -/
def sanitize.loop (c : hb_sanitize_context_t) (this fdcount : Nat) : Nat → Nat → Option Bool
  | 0, _ => some true
  | n + 1, i =>
    match FDSelect3_Range.sanitize c (ranges this i) fdcount with
    | none => none
    | some false => some false
    | some true =>
      if 0 < i then
        match FDSelect3_Range.first c.buf (ranges this (i - 1)),
            FDSelect3_Range.first c.buf (ranges this i) with
        | some a, some b => if a ≥ b then some false else sanitize.loop c this fdcount n (i + 1)
        | _, _ => none
      else sanitize.loop c this fdcount n (i + 1)

/-- Function `sanitize (c, fdcount)`. -/
def sanitize (c : hb_sanitize_context_t) (this fdcount : Nat) : Option Bool :=
  if c.check_range this min_size then
    match nRanges c.buf this with
    | none => none
    | some n =>
      if 0 < n then
        match FDSelect3_Range.first c.buf (ranges this 0) with
        | none => none
        | some f0 =>
          if f0 = 0 then
            match sanitize.loop c this fdcount n 0 with
            | none => none
            | some false => some false
            | some true =>
              -- sentinel ().sanitize (c)
              if c.check_range (this + 2 + FDSelect3_Range.static_size * n) 2 then
                -- the value of sentinel ()
                match readBE c.buf (this + 2 + FDSelect3_Range.static_size * n) 2 0 with
                | none => none
                | some s => some (decide (s = c.num_glyphs))
              else some false
          else some false
      else some false
  else some false

/-- The `for` loop of `get_fd`, with `n` iterations left, at index `i`; falling
out of the loop reaches `assert (false)`, which is `none`. -/
def get_fd.loop (mem : List Nat) (this glyph : Nat) : Nat → Nat → Option Nat
  | 0, _ => none
  | n + 1, i =>
    match FDSelect3_Range.first mem (ranges this i) with
    | none => none
    | some f =>
      if glyph < f then FDSelect3_Range.fd mem (ranges this (i - 1))
      else get_fd.loop mem this glyph n (i + 1)

/-- Function `get_fd (glyph)`: the loop runs for `i = 1 .. nRanges - 1`. -/
def get_fd (mem : List Nat) (this glyph : Nat) : Option Nat :=
  match nRanges mem this with
  | none => none
  | some n => get_fd.loop mem this glyph (n - 1) 1

end FDSelect3

/-! ## Object references and the null object -/

/-- A reference to an object: the shared null object `Null(Type)`, or the object
at a position of the memory. -/
inductive ObjRef where
  | null
  | addr (p : Nat)
  deriving DecidableEq, Repr

namespace CFFIndex

/-- Function `get_size ()`: 0 for the null object, the count field alone for an
empty INDEX, else `min_size + offset_array_size () + (offset_at (count) - 1)`. -/
def get_size (C : COUNT) (mem : List Nat) : ObjRef → Option Nat
  | .null => some 0
  | .addr this =>
    match count C mem this with
    | none => none
    | some n =>
      if n > 0 then
        match offset_array_size C mem this, offset_at C mem this n with
        | some a, some o => some (u32 (u32 (min_size C + a) + usub o 1))
        | _, _ => none
      else some C.static_size

/-- Function `serialize (c, src)`, the copy of a whole INDEX: it allocates
`src.get_size ()` bytes and copies them from `src`, which lies in `mem`. -/
def serialize_copy (C : COUNT) (c : hb_serialize_context_t) (mem : List Nat) (src : ObjRef) :
    Option hb_serialize_context_t :=
  match get_size C mem src with
  | none => none
  | some size =>
    match c.allocate_size size with
    | none => none
    | some c1 =>
      match src with
      | .null => if size = 0 then some { c1 with data := c.data } else none
      | .addr p =>
        if p + size ≤ mem.length then
          some { c1 with data := c.data ++ (mem.drop p).take size }
        else none

end CFFIndex

/-! ## Subrs -/

/-- Modelled from the spec: `hb_set_has (set, i)` of the set type `hb_set_t`
(declared in hb-set.h, outside this file), the set of referenced subroutine
numbers. -/
def hb_set_has (set : Finset Nat) (i : Nat) : Bool := decide (i ∈ set)

/-- Modelled from the spec: `hb_set_is_empty (set)`. -/
def hb_set_is_empty (set : Finset Nat) : Bool := decide (set = ∅)

/-- Modelled from the spec: `hb_set_get_population (set)`, the number of members. -/
def hb_set_get_population (set : Finset Nat) : Nat := set.card

namespace Subrs

/-- The loop of `serialize` that fills `bytesArray`, with `r` entries left, at
index `i`: `bytesArray[i] = hb_set_has (set, i) ? subrs[i] : nullStr`. -/
def serialize.fill (C : COUNT) (mem : List Nat) (subrs : Nat) (set : Finset Nat)
    (nullStr : ByteStr) : Nat → Nat → Option (List ByteStr)
  | 0, _ => some []
  | r + 1, i =>
    match (if hb_set_has set i then CFFIndex.get C mem subrs i else some nullStr),
        serialize.fill C mem subrs set nullStr r (i + 1) with
    | some b, some rest => some (b :: rest)
    | _, _ => none

/-- The branch of `serialize` taken when
`(subrs.count == 0) || (set == nullptr) || (hb_set_is_empty (set))`: it allocates
`COUNT::static_size` bytes and sets `count` to 0. -/
def serialize.empty (C : COUNT) (c : hb_serialize_context_t) : Option hb_serialize_context_t :=
  match c.allocate_size C.static_size with
  | none => none
  | some c1 =>
    match writeBE c.size c1.data (c.data.length + C.static_size) C.static_size 0 with
    | none => none
    | some d => some { c1 with data := d }

/-- Function `serialize (c, subrs, offSize, set, nullStr)`, called on the object
that starts at `head`; `subrs` and the span `nullStr` lie in `mem`, and a null
`set` pointer is `none`. The growth of `bytesArray` is taken to succeed. -/
def serialize (C : COUNT) (c : hb_serialize_context_t) (mem : List Nat) (subrs : ObjRef)
    (offSize : Nat) (set : Option (Finset Nat)) (nullStr : ByteStr) :
    Option hb_serialize_context_t :=
  match subrs with
  | .null => some c
  | .addr p =>
    match CFFIndex.count C mem p with
    | none => none
    | some n =>
      match set with
      | none => serialize.empty C c
      | some s =>
        if n = 0 ∨ hb_set_is_empty s = true then serialize.empty C c
        else
          match serialize.fill C mem p s nullStr n 0 with
          | none => none
          | some bytesArray => CFFIndex.serialize C c offSize mem bytesArray

/-- The loop of `calculate_serialized_size`, with `r` entries left, at index `i`:
`dataSize += hb_set_has (set, i) ? (*this)[i].len : nullStrSize`. -/
def calculate_serialized_size.loop (C : COUNT) (mem : List Nat) (this : Nat) (set : Finset Nat)
    (nullStrSize : Nat) : Nat → Nat → Nat → Option Nat
  | 0, _, dataSize => some dataSize
  | r + 1, i, dataSize =>
    if hb_set_has set i then
      match CFFIndex.get C mem this i with
      | none => none
      | some e =>
        calculate_serialized_size.loop C mem this set nullStrSize r (i + 1) (u32 (dataSize + e.len))
    else
      calculate_serialized_size.loop C mem this set nullStrSize r (i + 1)
        (u32 (dataSize + nullStrSize))

/-- Function `calculate_serialized_size (offSize, set, nullStrSize)`: the pair of
the value returned and of the value the reference parameter `offSize` holds after
the call, `offSize` being its value before. With a null `set` pointer (`none`)
and `count != 0` the call reads through the null pointer, which is `none`. -/
def calculate_serialized_size (C : COUNT) (mem : List Nat) (this : ObjRef) (offSize : Nat)
    (set : Option (Finset Nat)) (nullStrSize : Nat) : Option (Nat × Nat) :=
  match this with
  | .null => some (0, offSize)
  | .addr p =>
    match CFFIndex.count C mem p with
    | none => none
    | some count_ =>
      if count_ = 0 then some (C.static_size, 0)
      else
        match set with
        | none => none
        | some s =>
          if hb_set_get_population s = 0 then some (C.static_size, 0)
          else
            match calculate_serialized_size.loop C mem p s nullStrSize count_ 0 0 with
            | none => none
            | some dataSize =>
              match calcOffSize dataSize with
              | none => none
              | some w => some (CFFIndex.calculate_serialized_size C w count_ dataSize, w)

end Subrs

/-! ## Dict -/

/-- Modelled from the spec: the operator serializer `OP_SERIALIZER`, a template
parameter of `Dict` supplied by the callers (outside this file): how one value of
a dictionary is serialized with a context parameter, and how many bytes that
takes. -/
structure OP_SERIALIZER (V PARAM : Type) where
  serialize : hb_serialize_context_t → V → PARAM → Option hb_serialize_context_t
  calculate_serialized_size : V → Nat

/-- Modelled from the spec: `OpCode_escape`, the escape prefix byte `0x0C` of a
two-byte operator (hb-cff-interp-common.hh, outside this file). -/
def OpCode_escape : Nat := 12

/-- Modelled from the spec: `OpCode_shortint`, the operator byte that introduces a
2-byte integer operand. -/
def OpCode_shortint : Nat := 28

/-- Modelled from the spec: `OpCode_longintdict`, the operator byte that
introduces a 4-byte integer operand. -/
def OpCode_longintdict : Nat := 29

/-- Modelled from the spec: `Is_OpCode_ESC (op)`, whether `op` is a two-byte
operator; these are the codes from `OpCode_ESC_Base` = 256 on. -/
def Is_OpCode_ESC (op : Nat) : Bool := decide (256 ≤ op)

/-- Modelled from the spec: `Unmake_OpCode_ESC (op)`, the second byte of a
two-byte operator. -/
def Unmake_OpCode_ESC (op : Nat) : Nat := usub op 256

/-- Modelled from the spec: `OpCode_Size (op)`, 2 for a two-byte operator, else 1. -/
def OpCode_Size (op : Nat) : Nat := if Is_OpCode_ESC op then 2 else 1

/-- Modelled from the spec: `UnsizedByteStr::serialize_int<INTTYPE, minVal, maxVal>
(c, intOp, value)` (hb-cff-interp-common.hh, outside this file), the integer
operand: it fails on a value outside `minVal .. maxVal`, else appends the byte
`intOp` and the value as a big-endian integer of `w` = `INTTYPE::static_size`
bytes. -/
def UnsizedByteStr.serialize_int (w : Nat) (minVal maxVal : Int) (c : hb_serialize_context_t)
    (intOp : Nat) (value : Int) : Option hb_serialize_context_t :=
  if minVal ≤ value ∧ value ≤ maxVal then
    match c.allocate_size 1 with
    | none => none
    | some c1 =>
      match writeByte c.size c1.data c.data.length (intOp &&& 255) with
      | none => none
      | some d1 =>
        match hb_serialize_context_t.allocate_size { c1 with data := d1 } w with
        | none => none
        | some c2 =>
          match writeBE c.size c2.data (c.data.length + 1 + w) w (value % 4294967296).toNat with
          | none => none
          | some d2 => some { c2 with data := d2 }
  else none

namespace Dict

/-- Function `serialize (c, dictval, opszr, param)`: the values of `dictval`, in
order, each through `opszr.serialize`. -/
def serialize {V PARAM : Type} (c : hb_serialize_context_t) (dictval : List V)
    (opszr : OP_SERIALIZER V PARAM) (param : PARAM) : Option hb_serialize_context_t :=
  match dictval with
  | [] => some c
  | v :: rest =>
    match opszr.serialize c v param with
    | none => none
    | some c1 => serialize c1 rest opszr param

/-- The loop of `calculate_serialized_size`, from the running `size`. -/
def calculate_serialized_size.loop {V PARAM : Type} (opszr : OP_SERIALIZER V PARAM) :
    List V → Nat → Nat
  | [], size => size
  | v :: rest, size =>
    calculate_serialized_size.loop opszr rest (u32 (size + opszr.calculate_serialized_size v))

/-- Function `calculate_serialized_size (dictval, opszr)`. -/
def calculate_serialized_size {V PARAM : Type} (dictval : List V)
    (opszr : OP_SERIALIZER V PARAM) : Nat :=
  calculate_serialized_size.loop opszr dictval 0

/-- Function `serialize_offset_op<INTTYPE, minVal, maxVal> (c, op, value, intOp)`,
with `w` = `INTTYPE::static_size`. -/
def serialize_offset_op (w : Nat) (minVal maxVal : Int) (c : hb_serialize_context_t)
    (op : Nat) (value : Int) (intOp : Nat) : Option hb_serialize_context_t :=
  if value = 0 then some c
  else
    match UnsizedByteStr.serialize_int w minVal maxVal c intOp value with
    | none => none
    | some c1 =>
      -- serialize the opcode
      match c1.allocate_size (OpCode_Size op) with
      | none => none
      | some c2 =>
        if Is_OpCode_ESC op then
          match writeByte c2.size c2.data c1.data.length (OpCode_escape &&& 255) with
          | none => none
          | some d =>
            match writeByte c2.size d (c1.data.length + 1) (Unmake_OpCode_ESC op &&& 255) with
            | none => none
            | some d1 => some { c2 with data := d1 }
        else
          match writeByte c2.size c2.data c1.data.length (op &&& 255) with
          | none => none
          | some d => some { c2 with data := d }

/-- Function `serialize_offset4_op (c, op, value)`. -/
def serialize_offset4_op (c : hb_serialize_context_t) (op : Nat) (value : Int) :
    Option hb_serialize_context_t :=
  serialize_offset_op 4 0 2147483647 c op value OpCode_longintdict

/-- Function `serialize_offset2_op (c, op, value)`. -/
def serialize_offset2_op (c : hb_serialize_context_t) (op : Nat) (value : Int) :
    Option hb_serialize_context_t :=
  serialize_offset_op 2 0 32767 c op value OpCode_shortint

end Dict

/-- The struct `TableInfo`. -/
structure TableInfo where
  offset : Nat
  size : Nat
  offSize : Nat
  deriving DecidableEq, Repr

/-- The null object of `TableInfo`, all fields zero. -/
def TableInfo.Null : TableInfo := ⟨0, 0, 0⟩

/-! ## FDMap -/

/-- Modelled from the spec: `HB_SET_VALUE_INVALID` (hb-set.h, outside this file),
the marker of an excluded font dict, the largest `hb_codepoint_t`. -/
def HB_SET_VALUE_INVALID : Nat := 4294967295

namespace FDMap

/-- The loop of `fullset` over the entries of the vector. -/
def fullset.loop : List Nat → Bool
  | [] => true
  | e :: rest => if e = HB_SET_VALUE_INVALID then false else fullset.loop rest

/-- Function `fullset ()` of an `FDMap`, a vector of `hb_codepoint_t`. -/
def fullset (fdmap : List Nat) : Bool := fullset.loop fdmap

/-- The read-only `operator [] (i)`: `i` when `fullset ()`, else the entry of the
vector, whose read-only indexing gives the null value 0 past its length. -/
def get (fdmap : List Nat) (i : Nat) : Nat :=
  if fullset fdmap then i else fdmap.getD i 0

/-- Function `excludes (fd)`: `(fd < len) && ((*this)[fd] == HB_SET_VALUE_INVALID)`. -/
def excludes (fdmap : List Nat) (fd : Nat) : Bool :=
  decide (fd < fdmap.length) && decide (get fdmap fd = HB_SET_VALUE_INVALID)

end FDMap

/-! ## FDArray -/

namespace FDArray

/-- The loop "serialize font dict offsets" of `serialize` and the store of the
last offset after it, at font dict `i`, with `fid` offsets stored. -/
def serialize.offsets {V PARAM : Type} (C : COUNT) (cap this : Nat) (fdmap : List Nat)
    (opszr : OP_SERIALIZER V PARAM) : List (List V) → Nat → Nat → Nat → List Nat →
    Option (List Nat)
  | [], _, fid, offset, mem => CFFIndex.set_offset_at C cap mem this fid offset
  | d :: rest, i, fid, offset, mem =>
    if FDMap.excludes fdmap i then serialize.offsets C cap this fdmap opszr rest (i + 1) fid offset mem
    else
      match CFFIndex.set_offset_at C cap mem this fid offset with
      | none => none
      | some mem1 =>
        serialize.offsets C cap this fdmap opszr rest (i + 1) (u32 (fid + 1))
          (u32 (offset + Dict.calculate_serialized_size d opszr)) mem1

/-- The loop "serialize font dicts" of `serialize`, at font dict `i`. -/
def serialize.dicts {V : Type} (fdmap : List Nat) (opszr : OP_SERIALIZER V TableInfo)
    (privateInfos : List TableInfo) : List (List V) → Nat → hb_serialize_context_t →
    Option hb_serialize_context_t
  | [], _, c => some c
  | d :: rest, i, c =>
    if FDMap.excludes fdmap i then serialize.dicts fdmap opszr privateInfos rest (i + 1) c
    else
      match Dict.serialize c d opszr (privateInfos.getD (FDMap.get fdmap i) TableInfo.Null) with
      | none => none
      | some c1 => serialize.dicts fdmap opszr privateInfos rest (i + 1) c1

/-- Function `serialize (c, offSize_, fontDicts, fdCount, fdmap, opszr,
privateInfos)`, called on the object that starts at `head`. -/
def serialize {V : Type} (C : COUNT) (c : hb_serialize_context_t) (offSize_ : Nat)
    (fontDicts : List (List V)) (fdCount : Nat) (fdmap : List Nat)
    (opszr : OP_SERIALIZER V TableInfo) (privateInfos : List TableInfo) :
    Option hb_serialize_context_t := do
  let this := c.data.length
  let c1 ← c.allocate_size (CFFIndex.min_size C)
  let d1 ← writeBE c.size c1.data (this + C.static_size) C.static_size fdCount
  let d2 ← writeByte c.size d1 (this + C.static_size) (offSize_ &&& 255)
  let c2 ← hb_serialize_context_t.allocate_size { c1 with data := d2 }
    (u32 (offSize_ * u32 (fdCount + 1)))
  -- serialize font dict offsets
  let d3 ← serialize.offsets C c.size this fdmap opszr fontDicts 0 0 1 c2.data
  -- serialize font dicts
  serialize.dicts fdmap opszr privateInfos fontDicts 0 { c2 with data := d3 }

/-- The loop of `calculate_serialized_size`, at font dict `i`, from the running
`dictsSize`. -/
def calculate_serialized_size.loop {V PARAM : Type} (fdmap : List Nat)
    (opszr : OP_SERIALIZER V PARAM) : List (List V) → Nat → Nat → Nat
  | [], _, dictsSize => dictsSize
  | d :: rest, i, dictsSize =>
    if FDMap.excludes fdmap i then calculate_serialized_size.loop fdmap opszr rest (i + 1) dictsSize
    else
      calculate_serialized_size.loop fdmap opszr rest (i + 1)
        (u32 (dictsSize + Dict.calculate_serialized_size d opszr))

/-- Function `calculate_serialized_size (offSize_, fontDicts, fdCount, fdmap,
opszr)`: the pair of the value returned and of the value stored in the reference
parameter `offSize_`; `none` when the assertion of `calcOffSize` fails. -/
def calculate_serialized_size {V PARAM : Type} (C : COUNT) (fontDicts : List (List V))
    (fdCount : Nat) (fdmap : List Nat) (opszr : OP_SERIALIZER V PARAM) : Option (Nat × Nat) :=
  let dictsSize := calculate_serialized_size.loop fdmap opszr fontDicts 0 0
  match calcOffSize (u32 (dictsSize + 1)) with
  | none => none
  | some offSize_ => some (CFFIndex.calculate_serialized_size C offSize_ fdCount dictsSize, offSize_)

end FDArray

/-! ## FDSelect format 0 and the format union -/

namespace FDSelect0

/-- Constant `min_size` of `DEFINE_SIZE_MIN (1)`. -/
def min_size : Nat := 1

/-- Position of `fds[i]`, an array of `HBUINT8`. -/
def fds (this i : Nat) : Nat := this + i

/-- The `for` loop of `sanitize`, with `n` iterations left, at index `i`:
`fds[i].sanitize (c)` is the `check_struct` of the one byte of an `HBUINT8`. -/
def sanitize.loop (c : hb_sanitize_context_t) (this : Nat) : Nat → Nat → Bool
  | 0, _ => true
  | n + 1, i =>
    if c.check_range (fds this i) 1 then sanitize.loop c this n (i + 1) else false

/-- Function `sanitize (c, fdcount)`; `fdcount` is not used by the body. -/
def sanitize (c : hb_sanitize_context_t) (this _fdcount : Nat) : Bool :=
  if c.check_range this min_size then sanitize.loop c this c.num_glyphs 0 else false

end FDSelect0

namespace FDSelect

/-- Constant `min_size` of `DEFINE_SIZE_MIN (1)`. -/
def min_size : Nat := 1

/-- Field `format`, an `HBUINT8`. -/
def format (mem : List Nat) (this : Nat) : Option Nat := readByte mem this

/-- Position of the union `u`, which follows the `format` byte. -/
def u (this : Nat) : Nat := this + 1

/-- The condition of the conditional expression in `sanitize`. In C++ `&&` binds
tighter than `?:`, so the condition is
`c->check_struct (this) && (format == 0 || format == 3) && (format == 0)`;
`format` is read only when `check_struct` held. -/
def sanitize.cond (c : hb_sanitize_context_t) (this : Nat) : Option Bool :=
  if c.check_range this min_size then
    match format c.buf this with
    | none => none
    | some f => some ((decide (f = 0) || decide (f = 3)) && decide (f = 0))
  else some false

/-- Function `sanitize (c, fdcount)`:
`cond ? u.format0.sanitize (c, fdcount) : u.format3.sanitize (c, fdcount)`. -/
def sanitize (c : hb_sanitize_context_t) (this fdcount : Nat) : Option Bool :=
  match sanitize.cond c this with
  | none => none
  | some true => some (FDSelect0.sanitize c (u this) fdcount)
  | some false => FDSelect3.sanitize c (u this) fdcount

end FDSelect

/-! ## Byte strings and their big-endian value -/

/-- The `n` bytes of `mem` from position `p`. -/
def slice (mem : List Nat) (p n : Nat) : List Nat := (mem.drop p).take n

/-- Big-endian value of a byte string: the first byte is the most significant. -/
def bigEndianValue : List Nat → Nat
  | [] => 0
  | b :: bs => b * 256 ^ bs.length + bigEndianValue bs

/-- Big-endian bytes of `v` on `w` bytes (the low `w` bytes of `v`). -/
def beBytes : Nat → Nat → List Nat
  | 0, _ => []
  | w + 1, v => beBytes w (v / 256) ++ [v % 256]

/-- The bytes of the offset array the serializer writes for the byte strings
`bs`, on `s` bytes each, from the running offset `off`. -/
def encOffsets (s : Nat) : Nat → List ByteStr → List Nat
  | off, [] => beBytes s off
  | off, b :: rest => beBytes s off ++ encOffsets s (u32 (off + b.get_size)) rest

/-- Sum of the lengths of a list of byte strings. -/
def sumLen (bs : List ByteStr) : Nat := (bs.map ByteStr.len).sum

/-- The bytes of the data region the serializer writes for the byte strings `bs`
(spans into `mem`), one after the other; `none` when a span is not inside `mem`. -/
def joinBytes (mem : List Nat) : List ByteStr → Option (List Nat)
  | [] => some []
  | b :: rest =>
    match b.bytes mem, joinBytes mem rest with
    | some x, some y => some (x ++ y)
    | _, _ => none

/-- The running offset the serializer holds when it stores offset `k`, starting
from `off`. -/
def runOff : Nat → List ByteStr → Nat → Nat
  | off, _, 0 => off
  | off, [], _ + 1 => off
  | off, b :: rest, k + 1 => runOff (u32 (off + b.get_size)) rest k

/-! ## Concrete inputs -/

/-- A memory holding the five bytes of two byte strings. -/
def exMem : List Nat := [1, 2, 3, 4, 5]

/-- Two byte strings in `exMem`, of lengths 3 and 2. -/
def exStrings : List ByteStr := [⟨some 0, 3⟩, ⟨some 3, 2⟩]

/-- The INDEX of the specification's scenario: 2 elements, `offSize` 1, offsets
`[1, 4, 6]`, 5 data bytes, with a 16-bit count. -/
def exIndex : List Nat := [0, 2, 1, 1, 4, 6, 10, 11, 12, 13, 14]

/-- An INDEX with 1 element, `offSize` 1 and the decreasing offsets `[2, 1]`,
followed by 1 data byte, with a 16-bit count. -/
def exDecreasing : List Nat := [0, 1, 1, 2, 1, 99]

/-- The format-3 FDSelect table of the specification's scenario: ranges
`[(0, fd 0), (10, fd 1)]`, sentinel 20. -/
def exFDSelect3 : List Nat := [0, 2, 0, 0, 0, 0, 10, 1, 0, 20]

/-- A format-3 FDSelect table with ranges `[(0, fd 0), (30, fd 1)]` and
sentinel 20. -/
def exFDSelect3Late : List Nat := [0, 2, 0, 0, 0, 0, 30, 1, 0, 20]

/-- An FDSelect table whose format byte is 5, followed by the bytes of
`exFDSelect3`. -/
def exFDSelect5 : List Nat := 5 :: exFDSelect3

/-- An FDSelect table of format 3: the format byte and the bytes of
`exFDSelect3`. -/
def exFDSelectF3 : List Nat := 3 :: exFDSelect3

/-- An FDSelect table of format 0 for 4 glyphs, with font dicts 0, 1, 1, 0. -/
def exFDSelectF0 : List Nat := [0, 0, 1, 1, 0]

/-- Entry `k` of the offset array as the specification words it: the big-endian
value of the `s` bytes at position `k` of the array that follows the header of the
INDEX at `this`. -/
def specOffset (C : COUNT) (mem : List Nat) (this s k : Nat) : Nat :=
  bigEndianValue ((slice mem (this + C.static_size + 1 + s * k) s).map (fun b => b % 256))

/-- The `first` fields of the two ranges of `exFDSelect3`. -/
def exFirst (i : Nat) : Nat := if i = 0 then 0 else 10

/-- The `fd` fields of the two ranges of `exFDSelect3`. -/
def exFd (i : Nat) : Nat := if i = 0 then 0 else 1

/-- The bytes of an operator code: the escape prefix byte and the second byte for
a two-byte operator, else the one byte of the operator. -/
def opBytes (op : Nat) : List Nat :=
  if Is_OpCode_ESC op then [OpCode_escape, Unmake_OpCode_ESC op % 256] else [op % 256]

/-- The font dicts that an `FDMap` does not exclude, each with its original index,
in ascending order of index; the indices of `fontDicts` count from `i`. -/
def retained {V : Type} (fdmap : List Nat) (fontDicts : List (List V)) (i : Nat) :
    List (Nat × List V) :=
  (fontDicts.enumFrom i).filter (fun x => !FDMap.excludes fdmap x.1)

/-- Sum of the sizes that `Dict.calculate_serialized_size` gives the retained font
dicts. -/
def retainedSize {V PARAM : Type} (fdmap : List Nat) (opszr : OP_SERIALIZER V PARAM)
    (fontDicts : List (List V)) (i : Nat) : Nat :=
  ((retained fdmap fontDicts i).map (fun x => Dict.calculate_serialized_size x.2 opszr)).sum

/-- A Subrs INDEX with 5 subroutines of lengths 1, 2, 1, 3, 1: 16-bit count,
`offSize` 1, offsets `[1, 2, 4, 5, 8, 9]`, 8 data bytes. -/
def exSubrs : List Nat := [0, 5, 1, 1, 2, 4, 5, 8, 9, 21, 22, 23, 24, 25, 26, 27, 28]

/-- A Subrs INDEX with 1 subroutine of 255 bytes: 16-bit count, `offSize` 2,
offsets `[1, 256]`, 255 data bytes. -/
def exSubrs255 : List Nat := [0, 1, 2, 0, 1, 1, 0] ++ List.replicate 255 7

/-- The length of element `i` of a subsetted Subrs INDEX: that of the element of
the INDEX at `p` when `i` is in the set, else that of the placeholder. -/
def subsetLen (C : COUNT) (mem : List Nat) (p : Nat) (set : Finset Nat) (nullStr : ByteStr)
    (i : Nat) : Nat :=
  if i ∈ set then ((CFFIndex.get C mem p i).map ByteStr.len).getD 0 else nullStr.len

/-- The bytes a dictionary serializes to when its operator serializer appends
`opB v p` for the value `v` with the context `p`. -/
def dictBytes {V PARAM : Type} (opB : V → PARAM → List Nat) (d : List V) (p : PARAM) :
    List Nat :=
  (d.map (fun v => opB v p)).flatten

/-- The spans, by length, of the retained font dicts: what the offsets of a
serialized FDArray are computed from. -/
def retainedSpans {V PARAM : Type} (fdmap : List Nat) (opszr : OP_SERIALIZER V PARAM)
    (fontDicts : List (List V)) (i : Nat) : List ByteStr :=
  (retained fdmap fontDicts i).map
    (fun x => (⟨none, Dict.calculate_serialized_size x.2 opszr⟩ : ByteStr))

/-- The bytes of the retained font dicts, each serialized with the context
`privateInfos[fdmap[i]]` of its original index `i`. -/
def retainedBytes {V : Type} (opB : V → TableInfo → List Nat) (fdmap : List Nat)
    (privateInfos : List TableInfo) (fontDicts : List (List V)) (i : Nat) : List (List Nat) :=
  (retained fdmap fontDicts i).map
    (fun x => dictBytes opB x.2 (privateInfos.getD (FDMap.get fdmap x.1) TableInfo.Null))

/-- An operator serializer over values that are numbers: the value `v` is
serialized as `v` bytes that each hold the low byte of the `offset` of the
context. -/
def exOpszr : OP_SERIALIZER Nat TableInfo where
  serialize c v p :=
    if c.data.length + (List.replicate v (p.offset % 256)).length ≤ c.size then
      some ⟨c.data ++ List.replicate v (p.offset % 256), c.size⟩
    else none
  calculate_serialized_size v := v

/-- The bytes `exOpszr` appends for a value. -/
def exOpBytes (v : Nat) (p : TableInfo) : List Nat := List.replicate v (p.offset % 256)

/-- Three font dicts, of sizes 3, 3 and 4. -/
def exFontDicts : List (List Nat) := [[1, 2], [3], [4]]

/-- An `FDMap` that excludes font dict 1 and maps font dicts 0 and 2 to 0 and 1. -/
def exFDMap : List Nat := [0, HB_SET_VALUE_INVALID, 1]

/-- The private-dict records of the two retained font dicts. -/
def exPrivateInfos : List TableInfo := [⟨10, 0, 0⟩, ⟨20, 0, 0⟩]

/-! # Lemmas -/

/-! ## Machine integers, slices and big-endian values -/

theorem u32_of_lt {x : Nat} (h : x < 4294967296) : u32 x = x := Nat.mod_eq_of_lt h

theorem u32_lt (x : Nat) : u32 x < 4294967296 := Nat.mod_lt _ (by norm_num)

theorem readByte_eq_some {mem : List Nat} {p : Nat} (h : p < mem.length) :
    readByte mem p = some (mem[p] % 256) := by
  simp [readByte, List.getElem?_eq_getElem h]

theorem slice_succ {mem : List Nat} {p n : Nat} (h : p < mem.length) :
    slice mem p (n + 1) = mem[p] :: slice mem (p + 1) n := by
  unfold slice
  rw [List.drop_eq_getElem_cons h, List.take_succ_cons]

theorem slice_length {mem : List Nat} {p n : Nat} (h : p + n ≤ mem.length) :
    (slice mem p n).length = n := by
  unfold slice
  rw [List.length_take, List.length_drop]
  omega

theorem slice_append_mid (A X B : List Nat) :
    slice (A ++ X ++ B) A.length X.length = X := by
  unfold slice
  rw [List.append_assoc, List.drop_left, List.take_left]

theorem slice_drop_left (P D : List Nat) (p n : Nat) :
    slice (P ++ D) (P.length + p) n = slice D p n := by
  unfold slice
  rw [← List.drop_drop, List.drop_left]

theorem bigEndianValue_lt (bs : List Nat) (h : ∀ b ∈ bs, b < 256) :
    bigEndianValue bs < 256 ^ bs.length := by
  induction bs with
  | nil => simp [bigEndianValue]
  | cons b bs ih =>
    have hb : b < 256 := h b (List.mem_cons_self _ _)
    have ih' := ih (fun x hx => h x (List.mem_cons_of_mem _ hx))
    simp only [bigEndianValue, List.length_cons, pow_succ]
    nlinarith

theorem bigEndianValue_append (xs ys : List Nat) :
    bigEndianValue (xs ++ ys) = bigEndianValue xs * 256 ^ ys.length + bigEndianValue ys := by
  induction xs with
  | nil => simp [bigEndianValue]
  | cons x xs ih =>
    rw [List.cons_append, bigEndianValue, bigEndianValue, ih, List.length_append, pow_add]
    ring

theorem beBytes_length (w v : Nat) : (beBytes w v).length = w := by
  induction w generalizing v with
  | zero => rfl
  | succ w ih => simp [beBytes, ih]

theorem beBytes_lt (w v : Nat) : ∀ b ∈ beBytes w v, b < 256 := by
  induction w generalizing v with
  | zero => simp [beBytes]
  | succ w ih =>
    intro b hb
    simp only [beBytes, List.mem_append, List.mem_singleton] at hb
    rcases hb with hb | rfl
    · exact ih _ b hb
    · exact Nat.mod_lt _ (by norm_num)

theorem bigEndianValue_beBytes (w v : Nat) : bigEndianValue (beBytes w v) = v % 256 ^ w := by
  induction w generalizing v with
  | zero => simp [beBytes, bigEndianValue, Nat.mod_one]
  | succ w ih =>
    simp only [beBytes, bigEndianValue_append, ih, List.length_singleton, bigEndianValue,
      List.length_nil, pow_zero, mul_one, add_zero, pow_one]
    rw [pow_succ, mul_comm (256 ^ w) 256, Nat.mod_mul]
    ring

theorem map_mod_of_lt (bs : List Nat) (h : ∀ b ∈ bs, b < 256) :
    bs.map (fun b => b % 256) = bs := by
  induction bs with
  | nil => rfl
  | cons b bs ih =>
    simp only [List.map_cons]
    rw [Nat.mod_eq_of_lt (h b (List.mem_cons_self _ _)),
      ih (fun x hx => h x (List.mem_cons_of_mem _ hx))]

theorem u32_step (acc b k v : Nat) :
    u32 (u32 (u32 (acc <<< 8) + b) * k + v) = u32 ((acc * 256 + b) * k + v) := by
  simp [u32, Nat.shiftLeft_eq, Nat.add_mod, Nat.mul_mod]

theorem pow_offSize_le {s : Nat} (h : s ≤ 4) : 256 ^ s ≤ 4294967296 := by
  have : 256 ^ s ≤ 256 ^ 4 := Nat.pow_le_pow_right (by norm_num) h
  norm_num at this
  exact this

theorem list_snoc_of_length {Z : List Nat} {s : Nat} (h : Z.length = s + 1) :
    ∃ Z' z, Z = Z' ++ [z] ∧ Z'.length = s := by
  have hne : Z ≠ [] := by
    intro h0; rw [h0] at h; simp at h
  refine ⟨Z.dropLast, Z.getLast hne, (List.dropLast_append_getLast hne).symm, ?_⟩
  rw [List.length_dropLast, h]; rfl

theorem list_split_of_length {Z : List Nat} {a b : Nat} (h : Z.length = a + b) :
    ∃ Z1 Z2, Z = Z1 ++ Z2 ∧ Z1.length = a ∧ Z2.length = b := by
  refine ⟨Z.take a, Z.drop a, (List.take_append_drop a Z).symm, ?_, ?_⟩
  · rw [List.length_take]; omega
  · rw [List.length_drop]; omega

/-! ## Reading: big-endian fields and offsets -/

/-- The read loop of `offset_at` returns the big-endian value of the bytes it
walks over, reduced to 32 bits. -/
theorem offset_at_loop_eq (mem : List Nat) (s p acc : Nat) (h : p + s ≤ mem.length)
    (hacc : acc < 4294967296) :
    CFFIndex.offset_at.loop mem p s acc =
      some (u32 (acc * 256 ^ s + bigEndianValue ((slice mem p s).map (fun b => b % 256)))) := by
  induction s generalizing p acc with
  | zero =>
    simp [CFFIndex.offset_at.loop, slice, bigEndianValue, u32_of_lt hacc]
  | succ s ih =>
    have hp : p < mem.length := by omega
    rw [CFFIndex.offset_at.loop, readByte_eq_some hp]
    simp only
    rw [ih (p + 1) _ (by omega) (u32_lt _), slice_succ hp]
    simp only [List.map_cons, bigEndianValue, List.length_map]
    rw [slice_length (by omega), u32_step]
    congr 2
    ring

/-- The read of a big-endian integer field returns the big-endian value of its
bytes. -/
theorem readBE_eq (mem : List Nat) (w p acc : Nat) (h : p + w ≤ mem.length) :
    readBE mem p w acc =
      some (acc * 256 ^ w + bigEndianValue ((slice mem p w).map (fun b => b % 256))) := by
  induction w generalizing p acc with
  | zero =>
    simp [readBE, slice, bigEndianValue]
  | succ w ih =>
    have hp : p < mem.length := by omega
    rw [readBE, readByte_eq_some hp]
    simp only
    rw [ih (p + 1) _ (by omega), slice_succ hp]
    simp only [List.map_cons, bigEndianValue, List.length_map]
    rw [slice_length (by omega)]
    congr 1
    ring

theorem read_beBytes (A R : List Nat) (s v : Nat) :
    CFFIndex.offset_at.loop (A ++ beBytes s v ++ R) A.length s 0 = some (u32 (v % 256 ^ s)) := by
  have hlen : A.length + s ≤ (A ++ beBytes s v ++ R).length := by
    simp [beBytes_length]
  rw [offset_at_loop_eq _ _ _ _ hlen (by norm_num)]
  have hs := slice_append_mid A (beBytes s v) R
  rw [beBytes_length] at hs
  rw [hs, map_mod_of_lt _ (beBytes_lt s v), bigEndianValue_beBytes]
  simp

theorem offset_at_loop_lt {mem : List Nat} {p s acc o : Nat}
    (h : CFFIndex.offset_at.loop mem p s acc = some o) (hacc : acc < 4294967296) :
    o < 4294967296 := by
  induction s generalizing p acc with
  | zero =>
    simp [CFFIndex.offset_at.loop] at h
    omega
  | succ s ih =>
    rw [CFFIndex.offset_at.loop] at h
    cases hb : readByte mem p with
    | none => rw [hb] at h; cases h
    | some b =>
      rw [hb] at h
      exact ih h (u32_lt _)

theorem offset_at_lt {C : COUNT} {mem : List Nat} {this k o : Nat}
    (h : CFFIndex.offset_at C mem this k = some o) : o < 4294967296 := by
  unfold CFFIndex.offset_at at h
  split at h
  · split at h
    · exact offset_at_loop_lt h (by norm_num)
    · cases h
  · cases h

theorem count_lt (C : COUNT) (mem : List Nat) (this n : Nat)
    (hfit : this + C.static_size ≤ mem.length) (hc : CFFIndex.count C mem this = some n) :
    n < 4294967296 := by
  unfold CFFIndex.count at hc
  rw [readBE_eq _ _ _ _ hfit] at hc
  simp only [Nat.zero_mul, Nat.zero_add, Option.some.injEq] at hc
  have h1 := bigEndianValue_lt ((slice mem this C.static_size).map (fun b => b % 256))
    (by
      intro b hb
      simp only [List.mem_map] at hb
      obtain ⟨a, _, rfl⟩ := hb
      exact Nat.mod_lt _ (by norm_num))
  rw [List.length_map, slice_length hfit, hc] at h1
  have h2 : 256 ^ C.static_size ≤ 4294967296 := by
    cases C <;> simp [COUNT.static_size]
  omega

theorem specOffset_lt (C : COUNT) (mem : List Nat) (this s k : Nat) (hs4 : s ≤ 4) :
    specOffset C mem this s k < 4294967296 := by
  unfold specOffset
  have h1 := bigEndianValue_lt
    ((slice mem (this + C.static_size + 1 + s * k) s).map (fun b => b % 256))
    (by
      intro b hb
      simp only [List.mem_map] at hb
      obtain ⟨a, _, rfl⟩ := hb
      exact Nat.mod_lt _ (by norm_num))
  have h2 : ((slice mem (this + C.static_size + 1 + s * k) s).map
      (fun b => b % 256)).length ≤ s := by
    simp only [List.length_map, slice, List.length_take]
    exact Nat.min_le_left _ _
  have h3 : 256 ^ ((slice mem (this + C.static_size + 1 + s * k) s).map
      (fun b => b % 256)).length ≤ 256 ^ s := Nat.pow_le_pow_right (by norm_num) h2
  have h4 := pow_offSize_le hs4
  omega

/-- On an INDEX whose offset array lies in memory, `offset_at (k)` is the
big-endian value of the `offSize` bytes at position `k` of the offset array. -/
theorem offset_at_eq_specOffset (C : COUNT) (mem : List Nat) (this n s k : Nat)
    (hc : CFFIndex.count C mem this = some n) (hs : CFFIndex.offSize C mem this = some s)
    (hs4 : s ≤ 4) (hfit : this + C.static_size + 1 + s * (n + 1) ≤ mem.length)
    (hlen : mem.length < 4294967296) (hk : k ≤ n) :
    CFFIndex.offset_at C mem this k = some (specOffset C mem this s k) := by
  have hsk : s * k + s ≤ s * (n + 1) := by
    have : s * (k + 1) ≤ s * (n + 1) := Nat.mul_le_mul_left _ (by omega)
    rw [Nat.mul_add, Nat.mul_one] at this
    exact this
  unfold CFFIndex.offset_at
  rw [hc, hs]
  simp only [if_pos hk]
  rw [u32_of_lt (by omega), offset_at_loop_eq _ _ _ _
    (by simp only [CFFIndex.offsets]; omega) (by norm_num)]
  have hp : CFFIndex.offsets C this + s * k = this + C.static_size + 1 + s * k := rfl
  rw [hp, Nat.zero_mul, Nat.zero_add]
  exact congrArg some (u32_of_lt (specOffset_lt C mem this s k hs4))

theorem data_base_eq (C : COUNT) (mem : List Nat) (this n s : Nat)
    (hc : CFFIndex.count C mem this = some n) (hs : CFFIndex.offSize C mem this = some s)
    (hprod : s * (n + 1) < 4294967296) :
    CFFIndex.data_base C mem this = some (this + C.static_size + 1 + s * (n + 1)) := by
  unfold CFFIndex.data_base CFFIndex.offset_array_size
  rw [hc, hs]
  simp only [CFFIndex.calculate_offset_array_size, CFFIndex.min_size]
  rcases Nat.eq_zero_or_pos s with h0 | h0
  · subst h0
    simp only [Nat.zero_mul, u32, Nat.zero_mod, Nat.add_zero]
    exact congrArg some (by omega)
  · have hle : n + 1 ≤ s * (n + 1) := Nat.le_mul_of_pos_left _ h0
    rw [u32_of_lt (show n + 1 < 4294967296 by omega), u32_of_lt hprod]
    exact congrArg some (by omega)

/-! ## The offset-width calculator -/

theorem land_mask_eq_zero_iff (x : Nat) (h : x < 4294967296) :
    x &&& 4294967040 = 0 ↔ x < 256 := by
  have hlow : x &&& 255 = x % 256 := Nat.and_pow_two_sub_one_eq_mod x 8
  have hall : x &&& 4294967295 = x := by
    have := Nat.and_pow_two_sub_one_eq_mod x 32
    simp at this
    rw [this]; exact Nat.mod_eq_of_lt h
  constructor
  · intro h0
    have hsplit : x &&& (255 ||| 4294967040) = (x &&& 255) ||| (x &&& 4294967040) :=
      Nat.and_or_distrib_left x 255 4294967040
    have hm : (255 ||| 4294967040 : Nat) = 4294967295 := by decide
    rw [hm, hall, h0, hlow, Nat.or_zero] at hsplit
    have := Nat.mod_lt x (show 256 > 0 by norm_num)
    omega
  · intro hx
    have hx' : x = x &&& 255 := by rw [hlow, Nat.mod_eq_of_lt hx]
    rw [hx', Nat.and_assoc]
    have hm : (255 &&& 4294967040 : Nat) = 0 := by decide
    rw [hm]; exact Nat.and_zero _

theorem calcOffSize.loop_small (x s : Nat) (h : x < 256) : calcOffSize.loop x s = s := by
  have h0 : x &&& 4294967040 = 0 := (land_mask_eq_zero_iff x (by omega)).2 h
  rw [calcOffSize.loop]; simp [h0]

theorem calcOffSize.loop_big (x s : Nat) (h : x < 4294967296) (h' : 256 ≤ x) :
    calcOffSize.loop x s = calcOffSize.loop (x / 256) (s + 1) := by
  have h0 : x &&& 4294967040 ≠ 0 := by
    intro h0
    have := (land_mask_eq_zero_iff x h).1 h0
    omega
  rw [calcOffSize.loop]; simp [h0, Nat.shiftRight_eq_div_pow]

theorem calcOffSize_eq (x : Nat) (h : x < 4294967296) :
    calcOffSize x = some (if x < 256 then 1 else if x < 65536 then 2
      else if x < 16777216 then 3 else 4) := by
  unfold calcOffSize
  by_cases h1 : x < 256
  · simp [calcOffSize.loop_small x 1 h1, h1]
  · rw [calcOffSize.loop_big x 1 h (by omega)]
    by_cases h2 : x < 65536
    · rw [calcOffSize.loop_small _ _ (by omega)]; simp [h1, h2]
    · rw [calcOffSize.loop_big _ _ (by omega) (by omega)]
      by_cases h3 : x < 16777216
      · rw [calcOffSize.loop_small _ _ (by omega)]; simp [h1, h2, h3]
      · rw [calcOffSize.loop_big _ _ (by omega) (by omega)]
        rw [calcOffSize.loop_small _ _ (by omega)]; simp [h1, h2, h3]

/-- For a 32-bit offset, `calcOffSize` returns the least width in 1..4 that holds
it. -/
theorem calcOffSize_least (maxOffset : Nat) (h : maxOffset < 4294967296) :
    ∃ w, calcOffSize maxOffset = some w ∧ 1 ≤ w ∧ w ≤ 4 ∧ maxOffset < 256 ^ w ∧
      ∀ v, 1 ≤ v → v ≤ 4 → maxOffset < 256 ^ v → w ≤ v := by
  rw [calcOffSize_eq maxOffset h]
  refine ⟨_, rfl, ?_⟩
  have key : ∀ v, 1 ≤ v → v ≤ 4 → (v = 1 ∨ v = 2 ∨ v = 3 ∨ v = 4) := by
    intro v h1 h4; omega
  by_cases h1 : maxOffset < 256
  · simp only [h1, if_true]
    refine ⟨le_refl _, by norm_num, by norm_num; exact h1, fun v hv _ _ => hv⟩
  · by_cases h2 : maxOffset < 65536
    · simp only [h1, h2, if_true, if_false]
      refine ⟨by norm_num, by norm_num, by norm_num; exact h2, ?_⟩
      intro v hv1 hv4 hlt
      rcases key v hv1 hv4 with rfl | rfl | rfl | rfl <;> (norm_num at hlt; omega)
    · by_cases h3 : maxOffset < 16777216
      · simp only [h1, h2, h3, if_true, if_false]
        refine ⟨by norm_num, by norm_num, by norm_num; exact h3, ?_⟩
        intro v hv1 hv4 hlt
        rcases key v hv1 hv4 with rfl | rfl | rfl | rfl <;> (norm_num at hlt; omega)
      · simp only [h1, h2, h3, if_false]
        refine ⟨by norm_num, by norm_num, by norm_num; exact h, ?_⟩
        intro v hv1 hv4 hlt
        rcases key v hv1 hv4 with rfl | rfl | rfl | rfl <;> (norm_num at hlt; omega)

/-! ## The sanitize context and max_offset -/

theorem check_range_iff (c : hb_sanitize_context_t) (base len : Nat) :
    c.check_range base len = true ↔ base + len ≤ c.buf.length := by
  simp only [hb_sanitize_context_t.check_range, Bool.and_eq_true, decide_eq_true_eq]
  omega

theorem check_array_iff (c : hb_sanitize_context_t) (base rs len : Nat)
    (hbuf : c.buf.length < 4294967296) :
    c.check_array base rs len = true ↔ base + rs * len ≤ c.buf.length := by
  simp only [hb_sanitize_context_t.check_array, Bool.and_eq_true, decide_eq_true_eq,
    check_range_iff]
  omega

/-- What the loop of `max_offset` returns is at least the running maximum and
every offset it walked over, and is one of them. -/
theorem max_offset_loop_spec {C : COUNT} {mem : List Nat} {this : Nat} (r i mx m : Nat)
    (h : CFFIndex.max_offset.loop C mem this r i mx = some m) :
    mx ≤ m ∧
    (∀ k, i ≤ k → k < i + r → ∃ o, CFFIndex.offset_at C mem this k = some o ∧ o ≤ m) ∧
    (m = mx ∨ ∃ k, i ≤ k ∧ k < i + r ∧ CFFIndex.offset_at C mem this k = some m) := by
  induction r generalizing i mx with
  | zero =>
    simp [CFFIndex.max_offset.loop] at h
    subst h
    exact ⟨le_refl _, fun k h1 h2 => by omega, Or.inl rfl⟩
  | succ r ih =>
    rw [CFFIndex.max_offset.loop] at h
    cases ho : CFFIndex.offset_at C mem this i with
    | none => rw [ho] at h; cases h
    | some off =>
      rw [ho] at h
      obtain ⟨h1, h2, h3⟩ := ih (i + 1) _ h
      have hmx : mx ≤ m ∧ off ≤ m := by
        split at h1 <;> omega
      refine ⟨hmx.1, ?_, ?_⟩
      · intro k hk1 hk2
        rcases Nat.eq_or_lt_of_le hk1 with rfl | hlt
        · exact ⟨off, ho, hmx.2⟩
        · exact h2 k hlt (by omega)
      · rcases h3 with h3 | ⟨k, hk1, hk2, hk3⟩
        · by_cases hgt : off > mx
          · rw [if_pos hgt] at h3
            exact Or.inr ⟨i, le_refl _, by omega, by rw [h3]; exact ho⟩
          · rw [if_neg hgt] at h3
            exact Or.inl h3
        · exact Or.inr ⟨k, by omega, by omega, hk3⟩

theorem max_offset_loop_isSome {C : COUNT} {mem : List Nat} {this : Nat} (r i mx : Nat)
    (h : ∀ k, i ≤ k → k < i + r → (CFFIndex.offset_at C mem this k).isSome) :
    ∃ m, CFFIndex.max_offset.loop C mem this r i mx = some m := by
  induction r generalizing i mx with
  | zero => exact ⟨mx, rfl⟩
  | succ r ih =>
    obtain ⟨off, ho⟩ := Option.isSome_iff_exists.mp (h i (le_refl _) (by omega))
    rw [CFFIndex.max_offset.loop, ho]
    exact ih (i + 1) _ (fun k hk1 hk2 => h k (by omega) (by omega))

/-- The function `max_offset` returns `m` exactly when `m` is the largest of the
`count + 1` offsets. -/
theorem max_offset_eq_iff (C : COUNT) (mem : List Nat) (this n m : Nat)
    (hc : CFFIndex.count C mem this = some n) (hn : n + 1 < 4294967296) :
    CFFIndex.max_offset C mem this = some m ↔
      (∀ k, k ≤ n → ∃ o, CFFIndex.offset_at C mem this k = some o ∧ o ≤ m) ∧
      (∃ k, k ≤ n ∧ CFFIndex.offset_at C mem this k = some m) := by
  unfold CFFIndex.max_offset
  rw [hc]
  simp only [if_pos hn]
  constructor
  · intro h
    obtain ⟨_, h2, h3⟩ := max_offset_loop_spec (n + 1) 0 0 m h
    refine ⟨fun k hk => h2 k (Nat.zero_le _) (by omega), ?_⟩
    rcases h3 with h3 | ⟨k, _, hk2, hk3⟩
    · obtain ⟨o, ho1, ho2⟩ := h2 0 (le_refl _) (by omega)
      refine ⟨0, Nat.zero_le _, ?_⟩
      rw [ho1]
      exact congrArg some (by omega)
    · exact ⟨k, by omega, hk3⟩
  · rintro ⟨hall, k, hk, hkm⟩
    obtain ⟨m', hm'⟩ := @max_offset_loop_isSome C mem this (n + 1) 0 0
      (fun j _ hj => by
        obtain ⟨o, ho, _⟩ := hall j (by omega)
        rw [ho]; rfl)
    obtain ⟨_, h2, h3⟩ := max_offset_loop_spec (n + 1) 0 0 m' hm'
    have hle1 : m ≤ m' := by
      obtain ⟨o, ho1, ho2⟩ := h2 k (Nat.zero_le _) (by omega)
      rw [hkm] at ho1
      cases ho1
      exact ho2
    have hle2 : m' ≤ m := by
      rcases h3 with h3 | ⟨j, _, hj2, hj3⟩
      · omega
      · obtain ⟨o, ho1, ho2⟩ := hall j (by omega)
        rw [hj3] at ho1
        cases ho1
        exact ho2
    rw [hm']
    exact congrArg some (by omega)

/-! ## Writing: stores and the layout of a serialized INDEX -/

theorem writeByte_append (cap : Nat) (A B : List Nat) (z v : Nat) :
    writeByte cap (A ++ z :: B) A.length v = some (A ++ v :: B) := by
  simp [writeByte]

theorem writeByte_length {cap : Nat} {mem m : List Nat} {p v : Nat}
    (h : writeByte cap mem p v = some m) : m.length = mem.length := by
  unfold writeByte at h
  split at h
  · cases h; simp
  · split at h
    · cases h; rfl
    · cases h

/-- The store loop of `set_offset_at` over `s` allocated bytes leaves the
big-endian bytes of the offset there and changes nothing else. -/
theorem set_offset_at_loop_append (cap s : Nat) (A Z B : List Nat) (v : Nat)
    (h : Z.length = s) :
    CFFIndex.set_offset_at.loop cap (A ++ Z ++ B) (A.length + s) s v =
      some (A ++ beBytes s v ++ B) := by
  induction s generalizing Z B v with
  | zero =>
    have : Z = [] := List.length_eq_zero.mp h
    simp [CFFIndex.set_offset_at.loop, this, beBytes]
  | succ s ih =>
    obtain ⟨Z', z, rfl, hZ'⟩ := list_snoc_of_length h
    rw [CFFIndex.set_offset_at.loop]
    have hw : writeByte cap (A ++ (Z' ++ [z]) ++ B) (A.length + (s + 1) - 1) (v &&& 255) =
        some (A ++ Z' ++ (v % 256) :: B) := by
      have h1 : A ++ (Z' ++ [z]) ++ B = (A ++ Z') ++ z :: B := by simp
      have h2 : A.length + (s + 1) - 1 = (A ++ Z').length := by simp [hZ']
      have h3 : v &&& 255 = v % 256 := Nat.and_pow_two_sub_one_eq_mod v 8
      rw [h1, h2, h3, writeByte_append]
    rw [hw]
    simp only
    have h2 : A.length + (s + 1) - 1 = A.length + s := by omega
    rw [h2, ih Z' ((v % 256) :: B) (v >>> 8) hZ', Nat.shiftRight_eq_div_pow]
    simp [beBytes]

theorem writeBE_eq_loop (cap : Nat) (mem : List Nat) (p w v : Nat) :
    writeBE cap mem p w v = CFFIndex.set_offset_at.loop cap mem p w v := by
  induction w generalizing mem p v with
  | zero => rfl
  | succ w ih =>
    rw [writeBE, CFFIndex.set_offset_at.loop]
    cases writeByte cap mem (p - 1) (v &&& 255) with
    | none => rfl
    | some m => exact ih m (p - 1) (v >>> 8)

theorem set_offset_at_loop_length {cap : Nat} {mem m : List Nat} {p s v : Nat}
    (h : CFFIndex.set_offset_at.loop cap mem p s v = some m) : m.length = mem.length := by
  induction s generalizing mem p v with
  | zero =>
    simp [CFFIndex.set_offset_at.loop] at h
    rw [h]
  | succ s ih =>
    rw [CFFIndex.set_offset_at.loop] at h
    cases hw : writeByte cap mem (p - 1) (v &&& 255) with
    | none => rw [hw] at h; cases h
    | some m1 =>
      rw [hw] at h
      rw [ih h, writeByte_length hw]

theorem offSize_layout (C : COUNT) (pre hdr : List Nat) (sz : Nat) (R : List Nat)
    (hh : hdr.length = C.static_size) (hsz : sz < 256) :
    CFFIndex.offSize C (pre ++ hdr ++ [sz] ++ R) pre.length = some sz := by
  unfold CFFIndex.offSize
  have hp : pre.length + C.static_size < (pre ++ hdr ++ [sz] ++ R).length := by
    simp [hh]
  rw [readByte_eq_some hp]
  have : (pre ++ hdr ++ [sz] ++ R)[pre.length + C.static_size] = sz := by
    have h1 : pre ++ hdr ++ [sz] ++ R = (pre ++ hdr) ++ sz :: R := by simp
    simp only [h1]
    rw [List.getElem_append_right (by simp [hh])]
    simp [hh]
  rw [this, Nat.mod_eq_of_lt hsz]

theorem set_offset_at_layout (C : COUNT) (cap : Nat) (pre hdr : List Nat) (sz i off : Nat)
    (Odone Z1 R : List Nat) (hh : hdr.length = C.static_size) (hsz : sz < 256)
    (hO : Odone.length = sz * i) (hZ : Z1.length = sz) (hov : sz * i < 4294967296) :
    CFFIndex.set_offset_at C cap (pre ++ hdr ++ [sz] ++ Odone ++ Z1 ++ R) pre.length i off =
      some (pre ++ hdr ++ [sz] ++ Odone ++ beBytes sz off ++ R) := by
  unfold CFFIndex.set_offset_at
  have h1 : pre ++ hdr ++ [sz] ++ Odone ++ Z1 ++ R = pre ++ hdr ++ [sz] ++ (Odone ++ Z1 ++ R) := by
    simp
  rw [h1, offSize_layout C pre hdr sz _ hh hsz, ← h1]
  simp only
  have hp : CFFIndex.offsets C pre.length + u32 (sz * i) + sz =
      (pre ++ hdr ++ [sz] ++ Odone).length + sz := by
    simp only [CFFIndex.offsets, List.length_append, hh, hO, u32_of_lt hov, List.length_singleton]
  rw [hp]
  exact set_offset_at_loop_append cap sz _ Z1 R off hZ

theorem encOffsets_length (s off : Nat) (bs : List ByteStr) :
    (encOffsets s off bs).length = s * (bs.length + 1) := by
  induction bs generalizing off with
  | nil => simp [encOffsets, beBytes_length]
  | cons b rest ih =>
    simp only [encOffsets, List.length_append, beBytes_length, ih, List.length_cons]
    ring

theorem encOffsets_head (s off : Nat) (bs : List ByteStr) :
    ∃ tl, encOffsets s off bs = beBytes s off ++ tl := by
  cases bs with
  | nil => exact ⟨[], by simp [encOffsets]⟩
  | cons b rest => exact ⟨_, rfl⟩

/-- The loop "serialize indices" fills the allocated offset array with the
big-endian bytes of the running offsets. -/
theorem serialize_indices_layout (C : COUNT) (cap : Nat) (pre hdr : List Nat) (sz : Nat)
    (bs : List ByteStr) (i off : Nat) (Odone Z T : List Nat)
    (hh : hdr.length = C.static_size) (hsz : sz < 256)
    (hO : Odone.length = sz * i) (hZ : Z.length = sz * (bs.length + 1))
    (hov : sz * (i + bs.length + 1) < 4294967296) :
    CFFIndex.serialize.indices C cap pre.length bs i off
        (pre ++ hdr ++ [sz] ++ Odone ++ Z ++ T) =
      some (pre ++ hdr ++ [sz] ++ Odone ++ encOffsets sz off bs ++ T) := by
  induction bs generalizing i off Odone Z with
  | nil =>
    simp only [CFFIndex.serialize.indices, encOffsets]
    have hov' : sz * i < 4294967296 := by
      have : sz * i ≤ sz * (i + 0 + 1) := Nat.mul_le_mul_left _ (by omega)
      simp only [List.length_nil] at hov
      omega
    exact set_offset_at_layout C cap pre hdr sz i off Odone Z T hh hsz hO (by simpa using hZ)
      hov'
  | cons b rest ih =>
    simp only [List.length_cons] at hZ hov
    have hZ' : Z.length = sz + sz * (rest.length + 1) := by rw [hZ]; ring
    obtain ⟨Z1, Z2, rfl, hZ1, hZ2⟩ := list_split_of_length hZ'
    have hov' : sz * i < 4294967296 := by
      have : sz * i ≤ sz * (i + (rest.length + 1) + 1) := Nat.mul_le_mul_left _ (by omega)
      omega
    rw [CFFIndex.serialize.indices]
    have h1 : pre ++ hdr ++ [sz] ++ Odone ++ (Z1 ++ Z2) ++ T =
        pre ++ hdr ++ [sz] ++ Odone ++ Z1 ++ (Z2 ++ T) := by simp
    rw [h1, set_offset_at_layout C cap pre hdr sz i off Odone Z1 (Z2 ++ T) hh hsz hO hZ1 hov']
    simp only
    have h2 : pre ++ hdr ++ [sz] ++ Odone ++ beBytes sz off ++ (Z2 ++ T) =
        pre ++ hdr ++ [sz] ++ (Odone ++ beBytes sz off) ++ Z2 ++ T := by simp
    rw [h2, ih (i + 1) (u32 (off + b.get_size)) (Odone ++ beBytes sz off) Z2
      (by rw [List.length_append, hO, beBytes_length]; ring) hZ2
      (by have : i + 1 + rest.length + 1 = i + (rest.length + 1) + 1 := by omega
          rw [this]; exact hov)]
    simp [encOffsets]

theorem ByteStr.bytes_length {mem : List Nat} {b : ByteStr} {x : List Nat}
    (h : b.bytes mem = some x) : x.length = b.len := by
  unfold ByteStr.bytes at h
  split at h
  · split at h
    · cases h; simp [*]
    · cases h
  · split at h
    · cases h
      rw [List.length_take, List.length_drop]
      omega
    · cases h

theorem sumLen_cons (b : ByteStr) (bs : List ByteStr) : sumLen (b :: bs) = b.len + sumLen bs := by
  simp [sumLen]

theorem sumLen_take_le (bs : List ByteStr) (k : Nat) : sumLen (bs.take k) ≤ sumLen bs := by
  induction bs generalizing k with
  | nil => simp [sumLen]
  | cons b rest ih =>
    cases k with
    | zero => simp [sumLen]
    | succ k =>
      rw [List.take_succ_cons, sumLen_cons, sumLen_cons]
      have := ih k
      omega

theorem sumLen_take_succ (bs : List ByteStr) (i : Nat) (hi : i < bs.length) :
    sumLen (bs.take (i + 1)) = sumLen (bs.take i) + bs[i].len := by
  induction bs generalizing i with
  | nil => simp at hi
  | cons b rest ih =>
    cases i with
    | zero => simp [sumLen]
    | succ i =>
      simp only [List.take_succ_cons, sumLen_cons, List.getElem_cons_succ]
      rw [ih i (by simpa using hi)]
      omega

theorem joinBytes_isSome (mem : List Nat) (bs : List ByteStr)
    (hmem : ∀ b ∈ bs, (b.bytes mem).isSome) :
    ∃ D, joinBytes mem bs = some D ∧ D.length = sumLen bs := by
  induction bs with
  | nil => exact ⟨[], rfl, rfl⟩
  | cons b rest ih =>
    obtain ⟨D, hD, hlen⟩ := ih (fun x hx => hmem x (List.mem_cons_of_mem _ hx))
    obtain ⟨x, hx⟩ := Option.isSome_iff_exists.mp (hmem b (List.mem_cons_self _ _))
    refine ⟨x ++ D, by simp [joinBytes, hx, hD], ?_⟩
    simp [sumLen, ByteStr.bytes_length hx, hlen] 

/-- The loop "serialize data" appends the bytes of the byte strings in order. -/
theorem serialize_data_layout (mem : List Nat) (bs : List ByteStr) (c : hb_serialize_context_t)
    (D : List Nat) (hD : joinBytes mem bs = some D) (hroom : c.data.length + D.length ≤ c.size) :
    CFFIndex.serialize.data mem bs c = some { c with data := c.data ++ D } := by
  induction bs generalizing c D with
  | nil =>
    simp [joinBytes] at hD
    subst hD
    simp [CFFIndex.serialize.data]
  | cons b rest ih =>
    unfold joinBytes at hD
    cases hx : b.bytes mem with
    | none => rw [hx] at hD; simp at hD
    | some x =>
      cases hy : joinBytes mem rest with
      | none => rw [hx, hy] at hD; simp at hD
      | some y =>
        rw [hx, hy] at hD
        simp only [Option.some.injEq] at hD
        subst hD
        have hxl := ByteStr.bytes_length hx
        simp only [List.length_append] at hroom
        have ha : c.allocate_size b.len = some { c with data := c.data ++ List.replicate b.len 0 } := by
          unfold hb_serialize_context_t.allocate_size
          rw [if_pos (by omega)]
        rw [CFFIndex.serialize.data]
        unfold ByteStr.serialize
        rw [ha, hx]
        simp only
        rw [ih { c with data := c.data ++ x } y hy (by simp only [List.length_append]; omega)]
        simp

/-- The bytes `serialize` appends when the output has room: the count, the width,
the offset array and the data. -/
theorem serialize_layout (C : COUNT) (c : hb_serialize_context_t) (offSize_ : Nat)
    (mem : List Nat) (bs : List ByteStr) (D : List Nat)
    (hs1 : 1 ≤ offSize_) (hs : offSize_ < 256)
    (hD : joinBytes mem bs = some D)
    (hsize : c.size < 4294967296)
    (hroom : c.data.length + (CFFIndex.min_size C + offSize_ * (bs.length + 1) + D.length)
      ≤ c.size) :
    CFFIndex.serialize C c offSize_ mem bs =
      some ⟨c.data ++ beBytes C.static_size bs.length ++ [offSize_] ++
        encOffsets offSize_ 1 bs ++ D, c.size⟩ := by
  have hprod : offSize_ * (bs.length + 1) < 4294967296 := by omega
  have hn1 : bs.length + 1 < 4294967296 := by
    have : bs.length + 1 ≤ offSize_ * (bs.length + 1) := Nat.le_mul_of_pos_left _ hs1
    omega
  unfold CFFIndex.serialize
  have ha : c.allocate_size (CFFIndex.min_size C) =
      some ⟨c.data ++ List.replicate C.static_size 0 ++ [0], c.size⟩ := by
    unfold hb_serialize_context_t.allocate_size
    rw [if_pos (by omega)]
    simp [CFFIndex.min_size, List.replicate_succ', List.append_assoc]
  have hw : writeBE c.size (c.data ++ List.replicate C.static_size 0 ++ [0])
      (c.data.length + C.static_size) C.static_size bs.length =
      some (c.data ++ beBytes C.static_size bs.length ++ [0]) := by
    rw [writeBE_eq_loop]
    exact set_offset_at_loop_append _ _ _ _ _ _ (by simp)
  have hb : writeByte c.size (c.data ++ beBytes C.static_size bs.length ++ [0])
      (c.data.length + C.static_size) (offSize_ &&& 255) =
      some (c.data ++ beBytes C.static_size bs.length ++ [offSize_]) := by
    have h3 : offSize_ &&& 255 = offSize_ := by
      rw [Nat.and_pow_two_sub_one_eq_mod offSize_ 8]; exact Nat.mod_eq_of_lt hs
    have h2 : c.data.length + C.static_size =
        (c.data ++ beBytes C.static_size bs.length).length := by
      simp [beBytes_length]
    rw [h3, h2]
    exact writeByte_append _ _ [] 0 offSize_
  have ha2 : hb_serialize_context_t.allocate_size
      ⟨c.data ++ beBytes C.static_size bs.length ++ [offSize_], c.size⟩
      (u32 (offSize_ * u32 (bs.length + 1))) =
      some ⟨c.data ++ beBytes C.static_size bs.length ++ [offSize_] ++ [] ++
        List.replicate (offSize_ * (bs.length + 1)) 0 ++ [], c.size⟩ := by
    unfold hb_serialize_context_t.allocate_size
    rw [u32_of_lt hn1, u32_of_lt hprod]
    rw [if_pos (by
      simp only [List.length_append, beBytes_length, List.length_singleton, CFFIndex.min_size]
        at hroom ⊢
      omega)]
    simp
  have hi := serialize_indices_layout C c.size c.data (beBytes C.static_size bs.length)
    offSize_ bs 0 1
    [] (List.replicate (offSize_ * (bs.length + 1)) 0) [] (beBytes_length _ _) hs (by simp)
    (by simp) (by simpa using hprod)
  simp only [Option.bind_eq_bind, ha, Option.some_bind, hw, hb, ha2, hi]
  rw [serialize_data_layout mem bs _ D hD (by
    simp only [List.length_append, beBytes_length, List.length_singleton, CFFIndex.min_size,
      encOffsets_length, List.length_nil] at hroom ⊢
    omega)]
  simp

/-- Reading entry `k` of the offset array the serializer wrote gives the running
offset at `k`, cut to the offset width. -/
theorem read_encOffsets (A T : List Nat) (s off : Nat) (bs : List ByteStr) (k : Nat)
    (hk : k ≤ bs.length) :
    CFFIndex.offset_at.loop (A ++ encOffsets s off bs ++ T) (A.length + s * k) s 0 =
      some (u32 (runOff off bs k % 256 ^ s)) := by
  induction bs generalizing A off k with
  | nil =>
    have : k = 0 := by simpa using hk
    subst this
    simp only [encOffsets, Nat.mul_zero, Nat.add_zero, runOff]
    exact read_beBytes A T s off
  | cons b rest ih =>
    cases k with
    | zero =>
      simp only [encOffsets, Nat.mul_zero, Nat.add_zero, runOff]
      have h1 : A ++ (beBytes s off ++ encOffsets s (u32 (off + b.get_size)) rest) ++ T =
          A ++ beBytes s off ++ (encOffsets s (u32 (off + b.get_size)) rest ++ T) := by simp
      rw [h1]
      exact read_beBytes A _ s off
    | succ k =>
      simp only [encOffsets, runOff]
      have h1 : A ++ (beBytes s off ++ encOffsets s (u32 (off + b.get_size)) rest) ++ T =
          (A ++ beBytes s off) ++ encOffsets s (u32 (off + b.get_size)) rest ++ T := by simp
      have h2 : A.length + s * (k + 1) = (A ++ beBytes s off).length + s * k := by
        rw [List.length_append, beBytes_length]; ring
      rw [h1, h2]
      exact ih (A ++ beBytes s off) (u32 (off + b.get_size)) k (by simpa using hk)

theorem runOff_eq (off : Nat) (bs : List ByteStr) (k : Nat)
    (h : off + sumLen bs < 4294967296) (hk : k ≤ bs.length) :
    runOff off bs k = off + sumLen (bs.take k) := by
  induction bs generalizing off k with
  | nil =>
    cases k with
    | zero => simp [runOff, sumLen]
    | succ k => simp at hk
  | cons b rest ih =>
    cases k with
    | zero => simp [runOff, sumLen]
    | succ k =>
      rw [sumLen_cons] at h
      rw [runOff, List.take_succ_cons, sumLen_cons, ByteStr.get_size, u32_of_lt (by omega),
        ih _ k (by omega) (by simpa using hk)]
      omega

/-- Element `i` of the joined data region is the byte string `i`. -/
theorem joinBytes_slice (mem : List Nat) (bs : List ByteStr) (D : List Nat)
    (hD : joinBytes mem bs = some D) (i : Nat) (hi : i < bs.length) :
    bs[i].bytes mem = some (slice D (sumLen (bs.take i)) bs[i].len) := by
  induction bs generalizing D i with
  | nil => simp at hi
  | cons b rest ih =>
    unfold joinBytes at hD
    cases hx : b.bytes mem with
    | none => rw [hx] at hD; simp at hD
    | some x =>
      cases hy : joinBytes mem rest with
      | none => rw [hx, hy] at hD; simp at hD
      | some y =>
        rw [hx, hy] at hD
        simp only [Option.some.injEq] at hD
        subst hD
        have hxl := ByteStr.bytes_length hx
        cases i with
        | zero =>
          simp only [List.getElem_cons_zero, List.take_zero, hx]
          simp [sumLen, slice, ← hxl]
        | succ i =>
          simp only [List.getElem_cons_succ, List.take_succ_cons, sumLen_cons]
          rw [ih y hy i (by simpa using hi), ← hxl, slice_drop_left]

theorem count_layout (C : COUNT) (pre R : List Nat) (n : Nat) (hn : n < 256 ^ C.static_size) :
    CFFIndex.count C (pre ++ beBytes C.static_size n ++ R) pre.length = some n := by
  unfold CFFIndex.count
  rw [readBE_eq _ _ _ _ (by simp [beBytes_length])]
  have hs := slice_append_mid pre (beBytes C.static_size n) R
  rw [beBytes_length] at hs
  rw [hs, map_mod_of_lt _ (beBytes_lt _ _), bigEndianValue_beBytes, Nat.mod_eq_of_lt hn]
  simp

/-- In the bytes the serializer wrote, `offset_at (k)` is the true running offset. -/
theorem offset_at_layout (C : COUNT) (pre D : List Nat) (s : Nat) (bs : List ByteStr) (k : Nat)
    (hs1 : 1 ≤ s) (hs4 : s ≤ 4) (hn : bs.length < 256 ^ C.static_size)
    (hsum : 1 + sumLen bs < 256 ^ s) (hprod : s * (bs.length + 1) < 4294967296)
    (hk : k ≤ bs.length) :
    CFFIndex.offset_at C (pre ++ beBytes C.static_size bs.length ++ [s] ++
      encOffsets s 1 bs ++ D) pre.length k = some (1 + sumLen (bs.take k)) := by
  unfold CFFIndex.offset_at
  have h1 : pre ++ beBytes C.static_size bs.length ++ [s] ++ encOffsets s 1 bs ++ D =
      pre ++ beBytes C.static_size bs.length ++ ([s] ++ encOffsets s 1 bs ++ D) := by simp
  have h2 : pre ++ beBytes C.static_size bs.length ++ [s] ++ encOffsets s 1 bs ++ D =
      pre ++ beBytes C.static_size bs.length ++ [s] ++ (encOffsets s 1 bs ++ D) := by simp
  have hc := count_layout C pre ([s] ++ encOffsets s 1 bs ++ D) bs.length hn
  have ho := offSize_layout C pre (beBytes C.static_size bs.length) s (encOffsets s 1 bs ++ D)
    (beBytes_length _ _) (by omega)
  rw [← h1] at hc
  rw [← h2] at ho
  rw [hc, ho]
  simp only
  rw [if_pos hk]
  have hsk : s * k < 4294967296 := by
    have : s * k ≤ s * (bs.length + 1) := Nat.mul_le_mul_left _ (by omega)
    omega
  have hp : CFFIndex.offsets C pre.length + u32 (s * k) =
      (pre ++ beBytes C.static_size bs.length ++ [s]).length + s * k := by
    simp only [CFFIndex.offsets, List.length_append, beBytes_length, u32_of_lt hsk,
      List.length_singleton]
  have hpow := pow_offSize_le hs4
  rw [hp, read_encOffsets _ D s 1 bs k hk, runOff_eq 1 bs k (by omega) hk]
  have hle := sumLen_take_le bs k
  rw [Nat.mod_eq_of_lt (by omega), u32_of_lt (by omega)]

/-- The bytes a serialized INDEX reads back as: the count, the width and every
element, byte for byte. -/
theorem serialize_readback (C : COUNT) (c : hb_serialize_context_t) (offSize_ : Nat)
    (mem : List Nat) (byteArray : List ByteStr)
    (hs1 : 1 ≤ offSize_) (hs4 : offSize_ ≤ 4)
    (hn : byteArray.length < 256 ^ C.static_size)
    (hsum : 1 + sumLen byteArray < 256 ^ offSize_)
    (hmem : ∀ b ∈ byteArray, (b.bytes mem).isSome)
    (hsize : c.size < 4294967296)
    (hroom : c.data.length +
      (CFFIndex.min_size C + offSize_ * (byteArray.length + 1) + sumLen byteArray) ≤ c.size) :
    ∃ c', CFFIndex.serialize C c offSize_ mem byteArray = some c' ∧
      CFFIndex.count C c'.data c.data.length = some byteArray.length ∧
      CFFIndex.offSize C c'.data c.data.length = some offSize_ ∧
      ∀ i (hi : i < byteArray.length), ∃ e,
        CFFIndex.get C c'.data c.data.length i = some e ∧
        e.len = byteArray[i].len ∧ e.bytes c'.data = byteArray[i].bytes mem := by
  obtain ⟨D, hD, hDlen⟩ := joinBytes_isSome mem byteArray hmem
  have hlay := serialize_layout C c offSize_ mem byteArray D hs1 (by omega) hD hsize
    (by rw [hDlen]; exact hroom)
  have hprod : offSize_ * (byteArray.length + 1) < 4294967296 := by omega
  have hn1 : byteArray.length + 1 < 4294967296 := by
    have : byteArray.length + 1 ≤ offSize_ * (byteArray.length + 1) :=
      Nat.le_mul_of_pos_left _ hs1
    omega
  refine ⟨_, hlay, ?_, ?_, ?_⟩
  · have hc := count_layout C c.data ([offSize_] ++ encOffsets offSize_ 1 byteArray ++ D)
      byteArray.length hn
    simpa using hc
  · have ho := offSize_layout C c.data (beBytes C.static_size byteArray.length) offSize_
      (encOffsets offSize_ 1 byteArray ++ D) (beBytes_length _ _) (by omega)
    simpa using ho
  · intro i hi
    have hc := count_layout C c.data ([offSize_] ++ encOffsets offSize_ 1 byteArray ++ D)
      byteArray.length hn
    have ho := offSize_layout C c.data (beBytes C.static_size byteArray.length) offSize_
      (encOffsets offSize_ 1 byteArray ++ D) (beBytes_length _ _) (by omega)
    have h1 : c.data ++ beBytes C.static_size byteArray.length ++
        ([offSize_] ++ encOffsets offSize_ 1 byteArray ++ D) =
        c.data ++ beBytes C.static_size byteArray.length ++ [offSize_] ++
          encOffsets offSize_ 1 byteArray ++ D := by simp
    have h2 : c.data ++ beBytes C.static_size byteArray.length ++ [offSize_] ++
        (encOffsets offSize_ 1 byteArray ++ D) =
        c.data ++ beBytes C.static_size byteArray.length ++ [offSize_] ++
          encOffsets offSize_ 1 byteArray ++ D := by simp
    rw [h1] at hc
    rw [h2] at ho
    have hoi := offset_at_layout C c.data D offSize_ byteArray i hs1 hs4 hn hsum hprod
      (Nat.le_of_lt hi)
    have hoi1 := offset_at_layout C c.data D offSize_ byteArray (i + 1) hs1 hs4 hn hsum hprod hi
    have hbase : CFFIndex.data_base C (c.data ++ beBytes C.static_size byteArray.length ++
        [offSize_] ++ encOffsets offSize_ 1 byteArray ++ D) c.data.length =
        some ((c.data ++ beBytes C.static_size byteArray.length ++ [offSize_] ++
          encOffsets offSize_ 1 byteArray).length) := by
      unfold CFFIndex.data_base CFFIndex.offset_array_size
      rw [hc, ho]
      simp only [CFFIndex.calculate_offset_array_size, u32_of_lt hn1, u32_of_lt hprod,
        List.length_append, beBytes_length, encOffsets_length, List.length_singleton,
        CFFIndex.min_size]
      exact congrArg some (by omega)
    have hpow := pow_offSize_le hs4
    have hle := sumLen_take_le byteArray (i + 1)
    have hsucc := sumLen_take_succ byteArray i hi
    have hget : CFFIndex.get C (c.data ++ beBytes C.static_size byteArray.length ++
        [offSize_] ++ encOffsets offSize_ 1 byteArray ++ D) c.data.length i =
        some ⟨some ((c.data ++ beBytes C.static_size byteArray.length ++ [offSize_] ++
          encOffsets offSize_ 1 byteArray).length + (1 + sumLen (List.take i byteArray)) - 1),
          usub (1 + sumLen (List.take (i + 1) byteArray))
            (1 + sumLen (List.take i byteArray))⟩ := by
      unfold CFFIndex.get
      simp only [hc, hbase, hoi, hoi1, if_pos hi]
    refine ⟨_, hget, ?_, ?_⟩
    · simp only [usub, hsucc]
      rw [u32]
      omega
    · have hlen : usub (1 + sumLen (List.take (i + 1) byteArray))
          (1 + sumLen (List.take i byteArray)) = byteArray[i].len := by
        simp only [usub, hsucc]
        rw [u32]
        omega
      rw [joinBytes_slice mem byteArray D hD i hi]
      simp only [ByteStr.bytes, hlen]
      have hfit : (c.data ++ beBytes C.static_size byteArray.length ++ [offSize_] ++
          encOffsets offSize_ 1 byteArray).length + (1 + sumLen (List.take i byteArray)) - 1 +
          byteArray[i].len ≤ (c.data ++ beBytes C.static_size byteArray.length ++
          [offSize_] ++ encOffsets offSize_ 1 byteArray ++ D).length := by
        rw [List.length_append _ D, hDlen]
        omega
      rw [if_pos hfit]
      have hpos : (c.data ++ beBytes C.static_size byteArray.length ++ [offSize_] ++
          encOffsets offSize_ 1 byteArray).length + (1 + sumLen (List.take i byteArray)) - 1 =
          (c.data ++ beBytes C.static_size byteArray.length ++ [offSize_] ++
          encOffsets offSize_ 1 byteArray).length + sumLen (List.take i byteArray) := by omega
      rw [hpos]
      exact congrArg some (slice_drop_left _ D _ _)

/-! ## Writing: the number of bytes appended -/

theorem allocate_size_some {c c1 : hb_serialize_context_t} {n : Nat}
    (h : c.allocate_size n = some c1) :
    c1.data.length = c.data.length + n ∧ c1.size = c.size ∧ c.data.length + n ≤ c.size := by
  unfold hb_serialize_context_t.allocate_size at h
  split at h
  · cases h
    simp
    assumption
  · cases h

theorem set_offset_at_length {C : COUNT} {cap : Nat} {mem m : List Nat} {this i off : Nat}
    (h : CFFIndex.set_offset_at C cap mem this i off = some m) : m.length = mem.length := by
  unfold CFFIndex.set_offset_at at h
  split at h
  · cases h
  · exact set_offset_at_loop_length h

theorem serialize_indices_length {C : COUNT} {cap this : Nat} {bs : List ByteStr}
    {i off : Nat} {mem m : List Nat}
    (h : CFFIndex.serialize.indices C cap this bs i off mem = some m) :
    m.length = mem.length := by
  induction bs generalizing i off mem with
  | nil => exact set_offset_at_length h
  | cons b rest ih =>
    rw [CFFIndex.serialize.indices] at h
    cases hs : CFFIndex.set_offset_at C cap mem this i off with
    | none => rw [hs] at h; cases h
    | some m1 =>
      rw [hs] at h
      rw [ih h, set_offset_at_length hs]

theorem ByteStr.serialize_some {c c1 : hb_serialize_context_t} {mem : List Nat} {b : ByteStr}
    (h : ByteStr.serialize c mem b = some c1) :
    c1.data.length = c.data.length + b.len ∧ c1.size = c.size ∧
      c.data.length + b.len ≤ c.size := by
  unfold ByteStr.serialize at h
  cases ha : c.allocate_size b.len with
  | none => rw [ha] at h; simp at h
  | some c2 =>
    cases hx : b.bytes mem with
    | none => rw [ha, hx] at h; simp at h
    | some x =>
      rw [ha, hx] at h
      simp only [Option.some.injEq] at h
      obtain ⟨h1, h2, h3⟩ := allocate_size_some ha
      subst h
      simp [ByteStr.bytes_length hx, h2, h3]

theorem serialize_data_some {mem : List Nat} {bs : List ByteStr}
    {c c1 : hb_serialize_context_t} (h : CFFIndex.serialize.data mem bs c = some c1) :
    c1.data.length = c.data.length + sumLen bs ∧ c1.size = c.size ∧
      (c.data.length ≤ c.size → c1.data.length ≤ c1.size) := by
  induction bs generalizing c with
  | nil =>
    simp [CFFIndex.serialize.data] at h
    subst h
    simp [sumLen]
  | cons b rest ih =>
    rw [CFFIndex.serialize.data] at h
    cases hs : ByteStr.serialize c mem b with
    | none => rw [hs] at h; cases h
    | some c2 =>
      rw [hs] at h
      obtain ⟨h1, h2, h3⟩ := ByteStr.serialize_some hs
      obtain ⟨k1, k2, k3⟩ := ih h
      rw [sumLen_cons]
      refine ⟨by omega, by rw [k2, h2], fun _ => k3 (by omega)⟩

/-- The number of bytes a successful `serialize` appends. -/
theorem serialize_length {C : COUNT} {c c' : hb_serialize_context_t} {offSize_ : Nat}
    {mem : List Nat} {bs : List ByteStr}
    (h : CFFIndex.serialize C c offSize_ mem bs = some c') :
    c'.data.length = c.data.length +
      (CFFIndex.min_size C + u32 (offSize_ * u32 (bs.length + 1)) + sumLen bs) ∧
    c'.data.length ≤ c.size := by
  simp only [CFFIndex.serialize, Option.bind_eq_bind, Option.bind_eq_some] at h
  obtain ⟨c1, h1, d1, h2, d2, h3, c2, h4, d3, h5, h6⟩ := h
  obtain ⟨a1, a2, a3⟩ := allocate_size_some h1
  rw [writeBE_eq_loop] at h2
  have l2 := set_offset_at_loop_length h2
  have l3 := writeByte_length h3
  obtain ⟨b1, b2, b3⟩ := allocate_size_some h4
  have l5 := serialize_indices_length h5
  obtain ⟨e1, e2, e3⟩ := serialize_data_some h6
  simp only at b1 b2 b3 e1 e2 e3
  refine ⟨by omega, ?_⟩
  have := e3 (by omega)
  omega

/-! ## FDSelect format 3 -/

/-- The `for` loop of `FDSelect3.sanitize` returns true exactly when every range
it walks over has `first` below the glyph count, `fd` below the font-dict count
and, after the first range, a `first` above the previous one. -/
theorem FDSelect3_sanitize_loop_iff (c : hb_sanitize_context_t) (this fdcount n : Nat)
    (first fd : Nat → Nat)
    (hfit : this + 2 + 3 * n + 2 ≤ c.buf.length)
    (hfirst : ∀ i, i < n → FDSelect3_Range.first c.buf (FDSelect3.ranges this i) = some (first i))
    (hfd : ∀ i, i < n → FDSelect3_Range.fd c.buf (FDSelect3.ranges this i) = some (fd i))
    (r i : Nat) (hr : i + r ≤ n) :
    FDSelect3.sanitize.loop c this fdcount r i = some true ↔
      ∀ j, i ≤ j → j < i + r →
        (first j < c.num_glyphs ∧ fd j < fdcount ∧ (0 < j → first (j - 1) < first j)) := by
  induction r generalizing i with
  | zero =>
    simp only [FDSelect3.sanitize.loop, true_iff]
    intro j h1 h2
    omega
  | succ r ih =>
    have hi : i < n := by omega
    have hrange : c.check_range (FDSelect3.ranges this i) FDSelect3_Range.static_size = true := by
      rw [check_range_iff]
      simp only [FDSelect3.ranges, FDSelect3_Range.static_size]
      omega
    have hsan : FDSelect3_Range.sanitize c (FDSelect3.ranges this i) fdcount =
        some (decide (first i < c.num_glyphs) && decide (fd i < fdcount)) := by
      unfold FDSelect3_Range.sanitize
      rw [hrange, hfirst i hi, hfd i hi]
      simp only [if_true]
    have hstep : ∀ P : Nat → Prop, (∀ j, i ≤ j → j < i + (r + 1) → P j) ↔
        (P i ∧ ∀ j, i + 1 ≤ j → j < i + 1 + r → P j) := by
      intro P
      constructor
      · intro h
        exact ⟨h i (le_refl _) (by omega), fun j h1 h2 => h j (by omega) (by omega)⟩
      · rintro ⟨h0, h⟩ j h1 h2
        rcases Nat.eq_or_lt_of_le h1 with rfl | hlt
        · exact h0
        · exact h j hlt (by omega)
    rw [hstep, ← ih (i + 1) (by omega), FDSelect3.sanitize.loop, hsan]
    by_cases h1 : first i < c.num_glyphs
    swap
    · simp [h1]
    by_cases h2 : fd i < fdcount
    swap
    · simp [h2]
    simp only [h1, h2, decide_True, Bool.and_self, true_and]
    by_cases h0 : 0 < i
    · rw [if_pos h0, hfirst (i - 1) (by omega), hfirst i hi]
      simp only [h0, true_implies]
      by_cases h3 : first (i - 1) < first i
      · rw [if_neg (by omega)]
        simp [h3]
      · rw [if_pos (by omega)]
        simp [h3]
    · rw [if_neg h0]
      simp [h0]

/-! ## Subrs, Dict, FDMap and FDArray -/

theorem fullset_loop_of_no_marker (fdmap : List Nat)
    (h : ∀ e ∈ fdmap, e ≠ HB_SET_VALUE_INVALID) : FDMap.fullset.loop fdmap = true := by
  induction fdmap with
  | nil => rfl
  | cons e rest ih =>
    rw [FDMap.fullset.loop, if_neg (h e (List.mem_cons_self _ _))]
    exact ih (fun x hx => h x (List.mem_cons_of_mem _ hx))

theorem first_strictMono (first : Nat → Nat) (n : Nat)
    (hinc : ∀ i, i + 1 < n → first i < first (i + 1)) (i j : Nat) (hij : i < j) (hj : j < n) :
    first i < first j := by
  induction j with
  | zero => omega
  | succ j ih =>
    rcases Nat.eq_or_lt_of_le (Nat.lt_succ_iff.mp hij) with rfl | hlt
    · exact hinc i hj
    · exact Nat.lt_trans (ih hlt (by omega)) (hinc j hj)

/-- The `for` loop of `get_fd`, entered at `i` with `ranges[i - 1].first <= glyph`,
returns the `fd` of the range before the first one that starts past `glyph`. -/
theorem get_fd_loop_spec (mem : List Nat) (this g n : Nat) (first fd : Nat → Nat)
    (hfirst : ∀ i, i < n → FDSelect3_Range.first mem (FDSelect3.ranges this i) = some (first i))
    (hfd : ∀ i, i < n → FDSelect3_Range.fd mem (FDSelect3.ranges this i) = some (fd i))
    (hlast : g < first (n - 1)) (r i : Nat) (hi : 1 ≤ i) (hr : i + r = n)
    (hprev : first (i - 1) ≤ g) :
    ∃ k, k + 1 < n ∧ first k ≤ g ∧ g < first (k + 1) ∧
      FDSelect3.get_fd.loop mem this g r i = some (fd k) := by
  induction r generalizing i with
  | zero =>
    have : i = n := by omega
    subst this
    omega
  | succ r ih =>
    rw [FDSelect3.get_fd.loop, hfirst i (by omega)]
    simp only
    by_cases hg : g < first i
    · rw [if_pos hg, hfd (i - 1) (by omega)]
      refine ⟨i - 1, by omega, hprev, ?_, rfl⟩
      rw [Nat.sub_add_cancel hi]
      exact hg
    · rw [if_neg hg]
      exact ih (i + 1) (by omega) (by omega) (by simpa using Nat.le_of_not_lt hg)

theorem allocate_size_zero (c : hb_serialize_context_t) (h : c.data.length ≤ c.size) :
    c.allocate_size 0 = some c := by
  unfold hb_serialize_context_t.allocate_size
  rw [if_pos (by omega)]
  simp

theorem allocate_size_eq (c : hb_serialize_context_t) (n : Nat) (h : c.data.length + n ≤ c.size) :
    c.allocate_size n = some ⟨c.data ++ List.replicate n 0, c.size⟩ := by
  unfold hb_serialize_context_t.allocate_size
  rw [if_pos h]

theorem beBytes_zero (w : Nat) : beBytes w 0 = List.replicate w 0 := by
  induction w with
  | zero => rfl
  | succ w ih => simp [beBytes, ih, List.replicate_succ']

/-- The count-only branch of `Subrs.serialize` appends the count field holding 0. -/
theorem Subrs_serialize_empty_eq (C : COUNT) (c : hb_serialize_context_t)
    (hroom : c.data.length + C.static_size ≤ c.size) :
    Subrs.serialize.empty C c = some ⟨c.data ++ List.replicate C.static_size 0, c.size⟩ := by
  unfold Subrs.serialize.empty
  rw [allocate_size_eq c _ hroom]
  simp only
  have hw := set_offset_at_loop_append c.size C.static_size c.data
    (List.replicate C.static_size 0) [] 0 (by simp)
  rw [List.append_nil] at hw
  rw [writeBE_eq_loop, hw, beBytes_zero]
  simp

theorem land_255 (x : Nat) : x &&& 255 = x % 256 := Nat.and_pow_two_sub_one_eq_mod x 8

/-- The modelled `serialize_int` appends the operator byte of the integer and its
`w` big-endian bytes when the value is in range and the output has room. -/
theorem serialize_int_eq (w : Nat) (minVal maxVal : Int) (c : hb_serialize_context_t)
    (intOp : Nat) (value : Int) (hmin : minVal ≤ value) (hmax : value ≤ maxVal)
    (hroom : c.data.length + 1 + w ≤ c.size) :
    UnsizedByteStr.serialize_int w minVal maxVal c intOp value =
      some ⟨c.data ++ [intOp % 256] ++ beBytes w (value % 4294967296).toNat, c.size⟩ := by
  unfold UnsizedByteStr.serialize_int
  rw [if_pos ⟨hmin, hmax⟩, allocate_size_eq c 1 (by omega)]
  simp only [List.replicate_one]
  rw [land_255, writeByte_append c.size c.data [] 0 (intOp % 256)]
  simp only
  rw [allocate_size_eq _ w (by simp only [List.length_append, List.length_singleton]; omega)]
  simp only
  have hw := set_offset_at_loop_append c.size w (c.data ++ [intOp % 256])
    (List.replicate w 0) [] (value % 4294967296).toNat (by simp)
  rw [List.append_nil, List.append_nil] at hw
  have hp : c.data.length + 1 + w = (c.data ++ [intOp % 256]).length + w := by simp
  rw [writeBE_eq_loop, hp, hw]

/-- After the integer operand, `serialize_offset_op` appends the bytes of the
operator. -/
theorem serialize_offset_op_after_int (w : Nat) (minVal maxVal : Int)
    (c c1 : hb_serialize_context_t) (op : Nat) (value : Int) (intOp : Nat) (hv : value ≠ 0)
    (hint : UnsizedByteStr.serialize_int w minVal maxVal c intOp value = some c1)
    (hroom : c1.data.length + OpCode_Size op ≤ c1.size) :
    Dict.serialize_offset_op w minVal maxVal c op value intOp =
      some ⟨c1.data ++ opBytes op, c1.size⟩ := by
  unfold Dict.serialize_offset_op
  rw [if_neg hv, hint]
  simp only
  rw [allocate_size_eq c1 _ hroom]
  simp only
  unfold opBytes
  by_cases hesc : Is_OpCode_ESC op = true
  · have hsz : OpCode_Size op = 2 := by simp [OpCode_Size, hesc]
    rw [if_pos hesc, if_pos hesc, hsz]
    have h2 : c1.data ++ List.replicate 2 0 = c1.data ++ 0 :: [0] := rfl
    rw [h2, writeByte_append c1.size c1.data [0] 0 (OpCode_escape &&& 255)]
    simp only
    have h3 : c1.data ++ (OpCode_escape &&& 255) :: [0] =
        (c1.data ++ [OpCode_escape &&& 255]) ++ 0 :: [] := by simp
    have h4 : c1.data.length + 1 = (c1.data ++ [OpCode_escape &&& 255]).length := by simp
    rw [h3, h4, writeByte_append]
    simp only
    rw [land_255, land_255]
    have h5 : OpCode_escape % 256 = OpCode_escape := by decide
    rw [h5]
    simp
  · have hsz : OpCode_Size op = 1 := by simp [OpCode_Size, hesc]
    rw [if_neg hesc, if_neg hesc, hsz]
    have h2 : c1.data ++ List.replicate 1 0 = c1.data ++ 0 :: [] := rfl
    rw [h2, writeByte_append c1.size c1.data [] 0 (op &&& 255)]
    simp only
    rw [land_255]

theorem opBytes_length (op : Nat) : (opBytes op).length = OpCode_Size op := by
  unfold opBytes OpCode_Size
  split <;> rfl

theorem OpCode_Size_pos (op : Nat) : 1 ≤ OpCode_Size op := by
  unfold OpCode_Size
  split <;> omega

theorem retained_nil {V : Type} (fdmap : List Nat) (i : Nat) :
    retained fdmap ([] : List (List V)) i = [] := rfl

theorem retained_cons {V : Type} (fdmap : List Nat) (d : List V) (rest : List (List V))
    (i : Nat) :
    retained fdmap (d :: rest) i =
      if FDMap.excludes fdmap i then retained fdmap rest (i + 1)
      else (i, d) :: retained fdmap rest (i + 1) := by
  unfold retained
  rw [List.enumFrom_cons, List.filter_cons]
  cases h : FDMap.excludes fdmap i <;> simp

theorem retainedSize_cons {V PARAM : Type} (fdmap : List Nat) (opszr : OP_SERIALIZER V PARAM)
    (d : List V) (rest : List (List V)) (i : Nat) :
    retainedSize fdmap opszr (d :: rest) i =
      if FDMap.excludes fdmap i then retainedSize fdmap opszr rest (i + 1)
      else Dict.calculate_serialized_size d opszr + retainedSize fdmap opszr rest (i + 1) := by
  unfold retainedSize
  rw [retained_cons]
  cases h : FDMap.excludes fdmap i <;> simp

theorem u32_add_u32 (a b : Nat) : u32 (u32 a + b) = u32 (a + b) := by
  simp [u32, Nat.add_mod]

/-- The loop of `FDArray.calculate_serialized_size` adds up the sizes of the
retained font dicts, in 32 bits. -/
theorem FDArray_size_loop_eq {V PARAM : Type} (fdmap : List Nat)
    (opszr : OP_SERIALIZER V PARAM) (fontDicts : List (List V)) (i acc : Nat)
    (hacc : acc < 4294967296) :
    FDArray.calculate_serialized_size.loop fdmap opszr fontDicts i acc =
      u32 (acc + retainedSize fdmap opszr fontDicts i) := by
  induction fontDicts generalizing i acc with
  | nil =>
    simp [FDArray.calculate_serialized_size.loop, retainedSize, retained_nil, u32_of_lt hacc]
  | cons d rest ih =>
    rw [FDArray.calculate_serialized_size.loop, retainedSize_cons]
    cases h : FDMap.excludes fdmap i
    · simp only [Bool.false_eq_true, if_false]
      rw [ih (i + 1) _ (u32_lt _), u32_add_u32, Nat.add_assoc]
    · simp only [if_true]
      exact ih (i + 1) acc hacc

set_option maxRecDepth 100000 in
theorem exSubrs255_calculate :
    Subrs.calculate_serialized_size .HBUINT16 exSubrs255 (.addr 0) 0 (some {0}) 0 =
      some (260, 1) := by
  have hcount : CFFIndex.count .HBUINT16 exSubrs255 0 = some 1 := by decide
  have hpop : ¬ hb_set_get_population ({0} : Finset Nat) = 0 := by decide
  have hloop : Subrs.calculate_serialized_size.loop .HBUINT16 exSubrs255 0 {0} 0 1 0 0 =
      some 255 := by decide
  have hw : calcOffSize 255 = some 1 := by rw [calcOffSize_eq 255 (by norm_num)]; rfl
  simp only [Subrs.calculate_serialized_size, hcount, if_neg hpop, hloop, hw]
  decide

theorem readBE_bound {mem : List Nat} {p w acc v : Nat} (h : readBE mem p w acc = some v)
    (hw : 0 < w) : p + w ≤ mem.length := by
  induction w generalizing p acc with
  | zero => omega
  | succ w ih =>
    rw [readBE] at h
    cases hb : readByte mem p with
    | none => rw [hb] at h; cases h
    | some b =>
      rw [hb] at h
      have hp : p < mem.length := by
        unfold readByte at hb
        cases hg : mem.get? p with
        | none => rw [hg] at hb; cases hb
        | some x => exact List.get?_eq_some.mp hg |>.1
      rcases Nat.eq_zero_or_pos w with h0 | h0
      · omega
      · have := ih h h0
        omega

theorem count_lt_pow (C : COUNT) (mem : List Nat) (p n : Nat)
    (hc : CFFIndex.count C mem p = some n) : n < 256 ^ C.static_size := by
  have hpos : 0 < C.static_size := by cases C <;> decide
  have hfit := readBE_bound hc hpos
  unfold CFFIndex.count at hc
  rw [readBE_eq _ _ _ _ hfit] at hc
  simp only [Nat.zero_mul, Nat.zero_add, Option.some.injEq] at hc
  have h1 := bigEndianValue_lt ((slice mem p C.static_size).map (fun b => b % 256))
    (by
      intro b hb
      simp only [List.mem_map] at hb
      obtain ⟨a, _, rfl⟩ := hb
      exact Nat.mod_lt _ (by norm_num))
  rw [List.length_map, slice_length hfit, hc] at h1
  exact h1

/-- The byte strings `Subrs.serialize` puts in `bytesArray`: entry `k` is element
`i + k` of the source INDEX when `i + k` is in the set, else the placeholder. -/
theorem Subrs_fill_spec (C : COUNT) (mem : List Nat) (p : Nat) (set : Finset Nat)
    (nullStr : ByteStr) (hnull : (nullStr.bytes mem).isSome) (r i : Nat)
    (helems : ∀ j, i ≤ j → j < i + r → j ∈ set →
      ∃ e, CFFIndex.get C mem p j = some e ∧ (e.bytes mem).isSome) :
    ∃ bs, Subrs.serialize.fill C mem p set nullStr r i = some bs ∧ bs.length = r ∧
      (∀ b ∈ bs, (b.bytes mem).isSome) ∧
      sumLen bs = ((List.range' i r).map (subsetLen C mem p set nullStr)).sum ∧
      ∀ k (hk : k < bs.length),
        (i + k ∈ set → CFFIndex.get C mem p (i + k) = some bs[k]) ∧
        (i + k ∉ set → bs[k] = nullStr) := by
  induction r generalizing i with
  | zero =>
    refine ⟨[], rfl, rfl, by simp, by simp [sumLen], ?_⟩
    intro k hk
    simp at hk
  | succ r ih =>
    obtain ⟨rest, hrest, hlen, hmem, hsum, hget⟩ :=
      ih (i + 1) (fun j h1 h2 hj => helems j (by omega) (by omega) hj)
    by_cases hi : i ∈ set
    · obtain ⟨e, he, heb⟩ := helems i (le_refl _) (by omega) hi
      refine ⟨e :: rest, ?_, by simp [hlen], ?_, ?_, ?_⟩
      · rw [Subrs.serialize.fill, hrest]
        simp [hb_set_has, hi, he]
      · intro b hb
        rcases List.mem_cons.mp hb with rfl | hb
        · exact heb
        · exact hmem b hb
      · rw [sumLen_cons, hsum, List.range'_succ, List.map_cons, List.sum_cons]
        simp [subsetLen, hi, he]
      · intro k hk
        cases k with
        | zero => exact ⟨fun _ => by simpa using he, fun h => absurd hi h⟩
        | succ k =>
          have hk' : k < rest.length := by simpa using hk
          have := hget k hk'
          simp only [List.getElem_cons_succ]
          have e1 : i + (k + 1) = i + 1 + k := by omega
          rw [e1]
          exact this
    · refine ⟨nullStr :: rest, ?_, by simp [hlen], ?_, ?_, ?_⟩
      · rw [Subrs.serialize.fill, hrest]
        simp [hb_set_has, hi]
      · intro b hb
        rcases List.mem_cons.mp hb with rfl | hb
        · exact hnull
        · exact hmem b hb
      · rw [sumLen_cons, hsum, List.range'_succ, List.map_cons, List.sum_cons]
        simp [subsetLen, hi]
      · intro k hk
        cases k with
        | zero => exact ⟨fun h => absurd h hi, fun _ => rfl⟩
        | succ k =>
          have hk' : k < rest.length := by simpa using hk
          have := hget k hk'
          simp only [List.getElem_cons_succ]
          have e1 : i + (k + 1) = i + 1 + k := by omega
          rw [e1]
          exact this

/-- With an append-only operator serializer, `Dict.serialize` appends the bytes of
the values in order. -/
theorem Dict_serialize_eq {V PARAM : Type} (opszr : OP_SERIALIZER V PARAM)
    (opB : V → PARAM → List Nat)
    (hop : ∀ (c : hb_serialize_context_t) v p, opszr.serialize c v p =
      if c.data.length + (opB v p).length ≤ c.size then some ⟨c.data ++ opB v p, c.size⟩
      else none)
    (d : List V) (p : PARAM) (c : hb_serialize_context_t)
    (hroom : c.data.length + (dictBytes opB d p).length ≤ c.size) :
    Dict.serialize c d opszr p = some ⟨c.data ++ dictBytes opB d p, c.size⟩ := by
  induction d generalizing c with
  | nil => simp [Dict.serialize, dictBytes]
  | cons v rest ih =>
    have hj : dictBytes opB (v :: rest) p = opB v p ++ dictBytes opB rest p := by
      simp [dictBytes]
    rw [hj, List.length_append] at hroom
    rw [Dict.serialize, hop, if_pos (by omega)]
    simp only
    rw [ih ⟨c.data ++ opB v p, c.size⟩ (by simp only [List.length_append]; omega), hj]
    simp

/-- The size `Dict.calculate_serialized_size` reports is, in 32 bits, the number
of bytes the dictionary serializes to. -/
theorem Dict_size_loop_eq {V PARAM : Type} (opszr : OP_SERIALIZER V PARAM)
    (opB : V → PARAM → List Nat)
    (hopsize : ∀ v p, (opB v p).length = opszr.calculate_serialized_size v)
    (d : List V) (p : PARAM) (acc : Nat) (hacc : acc < 4294967296) :
    Dict.calculate_serialized_size.loop opszr d acc =
      u32 (acc + (dictBytes opB d p).length) := by
  induction d generalizing acc with
  | nil => simp [Dict.calculate_serialized_size.loop, dictBytes, u32_of_lt hacc]
  | cons v rest ih =>
    have hj : dictBytes opB (v :: rest) p = opB v p ++ dictBytes opB rest p := by
      simp [dictBytes]
    rw [Dict.calculate_serialized_size.loop, ih _ (u32_lt _), u32_add_u32, hj,
      List.length_append, hopsize, Nat.add_assoc]

theorem Dict_size_eq {V PARAM : Type} (opszr : OP_SERIALIZER V PARAM)
    (opB : V → PARAM → List Nat)
    (hopsize : ∀ v p, (opB v p).length = opszr.calculate_serialized_size v)
    (d : List V) (p : PARAM) (hlt : (dictBytes opB d p).length < 4294967296) :
    Dict.calculate_serialized_size d opszr = (dictBytes opB d p).length := by
  unfold Dict.calculate_serialized_size
  rw [Dict_size_loop_eq opszr opB hopsize d p 0 (by norm_num), Nat.zero_add, u32_of_lt hlt]

theorem retainedSpans_cons {V PARAM : Type} (fdmap : List Nat) (opszr : OP_SERIALIZER V PARAM)
    (d : List V) (rest : List (List V)) (i : Nat) :
    retainedSpans fdmap opszr (d :: rest) i =
      if FDMap.excludes fdmap i then retainedSpans fdmap opszr rest (i + 1)
      else ⟨none, Dict.calculate_serialized_size d opszr⟩ ::
        retainedSpans fdmap opszr rest (i + 1) := by
  unfold retainedSpans
  rw [retained_cons]
  cases h : FDMap.excludes fdmap i <;> simp

theorem retainedBytes_cons {V : Type} (opB : V → TableInfo → List Nat) (fdmap : List Nat)
    (privateInfos : List TableInfo) (d : List V) (rest : List (List V)) (i : Nat) :
    retainedBytes opB fdmap privateInfos (d :: rest) i =
      if FDMap.excludes fdmap i then retainedBytes opB fdmap privateInfos rest (i + 1)
      else dictBytes opB d (privateInfos.getD (FDMap.get fdmap i) TableInfo.Null) ::
        retainedBytes opB fdmap privateInfos rest (i + 1) := by
  unfold retainedBytes
  rw [retained_cons]
  cases h : FDMap.excludes fdmap i <;> simp

/-- The loop "serialize font dict offsets" stores the offsets of the retained
font dicts as the INDEX serializer stores those of byte strings of their sizes. -/
theorem FDArray_offsets_eq {V PARAM : Type} (C : COUNT) (cap this : Nat) (fdmap : List Nat)
    (opszr : OP_SERIALIZER V PARAM) (ds : List (List V)) (i fid off : Nat) (mem : List Nat)
    (hfid : fid + (retainedSpans fdmap opszr ds i).length < 4294967296) :
    FDArray.serialize.offsets C cap this fdmap opszr ds i fid off mem =
      CFFIndex.serialize.indices C cap this (retainedSpans fdmap opszr ds i) fid off mem := by
  induction ds generalizing i fid off mem with
  | nil => rfl
  | cons d rest ih =>
    rw [FDArray.serialize.offsets, retainedSpans_cons]
    rw [retainedSpans_cons] at hfid
    cases h : FDMap.excludes fdmap i
    · rw [h] at hfid
      simp only [Bool.false_eq_true, if_false, List.length_cons] at hfid ⊢
      rw [CFFIndex.serialize.indices]
      cases hs : CFFIndex.set_offset_at C cap mem this fid off with
      | none => rfl
      | some mem1 =>
        simp only
        rw [u32_of_lt (by omega), ih (i + 1) (fid + 1) _ mem1 (by omega)]
        rfl
    · rw [h] at hfid
      simp only [if_true] at hfid ⊢
      exact ih (i + 1) fid off mem hfid

/-- The loop "serialize font dicts" appends the bytes of the retained font dicts
in order. -/
theorem FDArray_dicts_eq {V : Type} (fdmap : List Nat) (opszr : OP_SERIALIZER V TableInfo)
    (opB : V → TableInfo → List Nat)
    (hop : ∀ (c : hb_serialize_context_t) v p, opszr.serialize c v p =
      if c.data.length + (opB v p).length ≤ c.size then some ⟨c.data ++ opB v p, c.size⟩
      else none)
    (privateInfos : List TableInfo) (ds : List (List V)) (i : Nat) (c : hb_serialize_context_t)
    (hroom : c.data.length + (retainedBytes opB fdmap privateInfos ds i).flatten.length ≤ c.size) :
    FDArray.serialize.dicts fdmap opszr privateInfos ds i c =
      some ⟨c.data ++ (retainedBytes opB fdmap privateInfos ds i).flatten, c.size⟩ := by
  induction ds generalizing i c with
  | nil => simp [FDArray.serialize.dicts, retainedBytes, retained_nil]
  | cons d rest ih =>
    rw [FDArray.serialize.dicts, retainedBytes_cons]
    rw [retainedBytes_cons] at hroom
    cases h : FDMap.excludes fdmap i
    · rw [h] at hroom
      simp only [Bool.false_eq_true, if_false, List.flatten_cons, List.length_append] at hroom ⊢
      rw [Dict_serialize_eq opszr opB hop d _ c (by omega)]
      simp only
      rw [ih (i + 1) _ (by simp only [List.length_append]; omega)]
      simp
    · rw [h] at hroom
      simp only [if_true] at hroom ⊢
      exact ih (i + 1) c hroom

/-- The bytes `FDArray.serialize` appends when the output has room: the count, the
width, the offsets of the retained font dicts and their bytes. -/
theorem FDArray_serialize_layout {V : Type} (C : COUNT) (c : hb_serialize_context_t)
    (offSize_ : Nat) (fontDicts : List (List V)) (fdCount : Nat) (fdmap : List Nat)
    (opszr : OP_SERIALIZER V TableInfo) (privateInfos : List TableInfo)
    (opB : V → TableInfo → List Nat)
    (hop : ∀ (c : hb_serialize_context_t) v p, opszr.serialize c v p =
      if c.data.length + (opB v p).length ≤ c.size then some ⟨c.data ++ opB v p, c.size⟩
      else none)
    (hs1 : 1 ≤ offSize_) (hs : offSize_ < 256)
    (hcount : fdCount = (retainedSpans fdmap opszr fontDicts 0).length)
    (hsize : c.size < 4294967296)
    (hroom : c.data.length + (CFFIndex.min_size C + offSize_ * (fdCount + 1) +
      (retainedBytes opB fdmap privateInfos fontDicts 0).flatten.length) ≤ c.size) :
    FDArray.serialize C c offSize_ fontDicts fdCount fdmap opszr privateInfos =
      some ⟨c.data ++ beBytes C.static_size fdCount ++ [offSize_] ++
        encOffsets offSize_ 1 (retainedSpans fdmap opszr fontDicts 0) ++
        (retainedBytes opB fdmap privateInfos fontDicts 0).flatten, c.size⟩ := by
  have hprod : offSize_ * (fdCount + 1) < 4294967296 := by omega
  have hn1 : fdCount + 1 < 4294967296 := by
    have : fdCount + 1 ≤ offSize_ * (fdCount + 1) := Nat.le_mul_of_pos_left _ hs1
    omega
  unfold FDArray.serialize
  have ha : c.allocate_size (CFFIndex.min_size C) =
      some ⟨c.data ++ List.replicate C.static_size 0 ++ [0], c.size⟩ := by
    unfold hb_serialize_context_t.allocate_size
    rw [if_pos (by omega)]
    simp [CFFIndex.min_size, List.replicate_succ', List.append_assoc]
  have hw : writeBE c.size (c.data ++ List.replicate C.static_size 0 ++ [0])
      (c.data.length + C.static_size) C.static_size fdCount =
      some (c.data ++ beBytes C.static_size fdCount ++ [0]) := by
    rw [writeBE_eq_loop]
    exact set_offset_at_loop_append _ _ _ _ _ _ (by simp)
  have hb : writeByte c.size (c.data ++ beBytes C.static_size fdCount ++ [0])
      (c.data.length + C.static_size) (offSize_ &&& 255) =
      some (c.data ++ beBytes C.static_size fdCount ++ [offSize_]) := by
    have h3 : offSize_ &&& 255 = offSize_ := by
      rw [Nat.and_pow_two_sub_one_eq_mod offSize_ 8]; exact Nat.mod_eq_of_lt hs
    have h2 : c.data.length + C.static_size =
        (c.data ++ beBytes C.static_size fdCount).length := by
      simp [beBytes_length]
    rw [h3, h2]
    exact writeByte_append _ _ [] 0 offSize_
  have ha2 : hb_serialize_context_t.allocate_size
      ⟨c.data ++ beBytes C.static_size fdCount ++ [offSize_], c.size⟩
      (u32 (offSize_ * u32 (fdCount + 1))) =
      some ⟨c.data ++ beBytes C.static_size fdCount ++ [offSize_] ++ [] ++
        List.replicate (offSize_ * (fdCount + 1)) 0 ++ [], c.size⟩ := by
    unfold hb_serialize_context_t.allocate_size
    rw [u32_of_lt hn1, u32_of_lt hprod]
    rw [if_pos (by
      simp only [List.length_append, beBytes_length, List.length_singleton, CFFIndex.min_size]
        at hroom ⊢
      omega)]
    simp
  have hi := serialize_indices_layout C c.size c.data (beBytes C.static_size fdCount)
    offSize_ (retainedSpans fdmap opszr fontDicts 0) 0 1
    [] (List.replicate (offSize_ * (fdCount + 1)) 0) [] (beBytes_length _ _) hs (by simp)
    (by simp [hcount]) (by rw [← hcount]; simpa using hprod)
  have ho := FDArray_offsets_eq C c.size c.data.length fdmap opszr fontDicts 0 0 1
    (c.data ++ beBytes C.static_size fdCount ++ [offSize_] ++ [] ++
        List.replicate (offSize_ * (fdCount + 1)) 0 ++ []) (by rw [← hcount]; omega)
  simp only [Option.bind_eq_bind, ha, Option.some_bind, hw, hb, ha2, ho, hi]
  rw [FDArray_dicts_eq fdmap opszr opB hop privateInfos fontDicts 0 _ (by
    simp only [List.length_append, beBytes_length, List.length_singleton, CFFIndex.min_size,
      encOffsets_length, List.length_nil, ← hcount] at hroom ⊢
    omega)]
  simp

theorem flatten_slice (L : List (List Nat)) (k : Nat) (hk : k < L.length) :
    slice L.flatten ((L.take k).map List.length).sum L[k].length = L[k] := by
  induction L generalizing k with
  | nil => simp at hk
  | cons l rest ih =>
    cases k with
    | zero => simp [slice]
    | succ k =>
      simp only [List.take_succ_cons, List.map_cons, List.sum_cons, List.flatten_cons,
        List.getElem_cons_succ]
      rw [slice_drop_left]
      exact ih k (by simpa using hk)

theorem length_le_flatten (L : List (List Nat)) (l : List Nat) (h : l ∈ L) :
    l.length ≤ L.flatten.length := by
  induction L with
  | nil => simp at h
  | cons x rest ih =>
    rw [List.flatten_cons, List.length_append]
    rcases List.mem_cons.mp h with rfl | h
    · omega
    · have := ih h
      omega

/-- In the bytes of a serialized INDEX, element `k` is the span of its length
that starts after the elements before it, for both `operator []`. -/
theorem layout_get (C : COUNT) (pre D : List Nat) (s : Nat) (bs : List ByteStr) (k : Nat)
    (hs1 : 1 ≤ s) (hs4 : s ≤ 4) (hn : bs.length < 256 ^ C.static_size)
    (hsum : 1 + sumLen bs < 256 ^ s) (hprod : s * (bs.length + 1) < 4294967296)
    (hk : k < bs.length) (hD : D.length = sumLen bs) :
    CFFIndex.get C (pre ++ beBytes C.static_size bs.length ++ [s] ++ encOffsets s 1 bs ++ D)
        pre.length k =
      some ⟨some ((pre ++ beBytes C.static_size bs.length ++ [s] ++
        encOffsets s 1 bs).length + sumLen (bs.take k)), bs[k].len⟩ ∧
    CFFIndexOf.get C (pre ++ beBytes C.static_size bs.length ++ [s] ++ encOffsets s 1 bs ++ D)
        pre.length k =
      some ⟨some ((pre ++ beBytes C.static_size bs.length ++ [s] ++
        encOffsets s 1 bs).length + sumLen (bs.take k)), bs[k].len⟩ ∧
    ByteStr.bytes (pre ++ beBytes C.static_size bs.length ++ [s] ++ encOffsets s 1 bs ++ D)
        ⟨some ((pre ++ beBytes C.static_size bs.length ++ [s] ++
          encOffsets s 1 bs).length + sumLen (bs.take k)), bs[k].len⟩ =
      some (slice D (sumLen (bs.take k)) bs[k].len) := by
  have hn1 : bs.length + 1 < 4294967296 := by
    have : bs.length + 1 ≤ s * (bs.length + 1) := Nat.le_mul_of_pos_left _ hs1
    omega
  have hc := count_layout C pre ([s] ++ encOffsets s 1 bs ++ D) bs.length hn
  have ho := offSize_layout C pre (beBytes C.static_size bs.length) s
    (encOffsets s 1 bs ++ D) (beBytes_length _ _) (by omega)
  have h1 : pre ++ beBytes C.static_size bs.length ++ ([s] ++ encOffsets s 1 bs ++ D) =
      pre ++ beBytes C.static_size bs.length ++ [s] ++ encOffsets s 1 bs ++ D := by simp
  have h2 : pre ++ beBytes C.static_size bs.length ++ [s] ++ (encOffsets s 1 bs ++ D) =
      pre ++ beBytes C.static_size bs.length ++ [s] ++ encOffsets s 1 bs ++ D := by simp
  rw [h1] at hc
  rw [h2] at ho
  have hok := offset_at_layout C pre D s bs k hs1 hs4 hn hsum hprod (Nat.le_of_lt hk)
  have hok1 := offset_at_layout C pre D s bs (k + 1) hs1 hs4 hn hsum hprod hk
  have hbase : CFFIndex.data_base C (pre ++ beBytes C.static_size bs.length ++
      [s] ++ encOffsets s 1 bs ++ D) pre.length =
      some ((pre ++ beBytes C.static_size bs.length ++ [s] ++ encOffsets s 1 bs).length) := by
    unfold CFFIndex.data_base CFFIndex.offset_array_size
    rw [hc, ho]
    simp only [CFFIndex.calculate_offset_array_size, u32_of_lt hn1, u32_of_lt hprod,
      List.length_append, beBytes_length, encOffsets_length, List.length_singleton,
      CFFIndex.min_size]
    exact congrArg some (by omega)
  have hpow := pow_offSize_le hs4
  have hle := sumLen_take_le bs (k + 1)
  have hsucc := sumLen_take_succ bs k hk
  have hlen : usub (1 + sumLen (List.take (k + 1) bs)) (1 + sumLen (List.take k bs)) =
      bs[k].len := by
    simp only [usub, hsucc]
    rw [u32]
    omega
  have hpos : (pre ++ beBytes C.static_size bs.length ++ [s] ++ encOffsets s 1 bs).length +
      (1 + sumLen (List.take k bs)) - 1 =
      (pre ++ beBytes C.static_size bs.length ++ [s] ++ encOffsets s 1 bs).length +
        sumLen (List.take k bs) := by omega
  refine ⟨?_, ?_, ?_⟩
  · unfold CFFIndex.get
    simp only [hc, hbase, hok, hok1, if_pos hk, hlen, hpos]
  · unfold CFFIndexOf.get CFFIndex.length_at
    simp only [hc, hbase, hok, hok1, if_pos hk, hlen, hpos]
  · simp only [ByteStr.bytes]
    rw [if_pos (by rw [List.length_append _ D, hD]; omega)]
    exact congrArg some (slice_drop_left _ D _ _)

theorem retainedSpans_len_eq {V : Type} (fdmap : List Nat) (opszr : OP_SERIALIZER V TableInfo)
    (opB : V → TableInfo → List Nat)
    (hopsize : ∀ v p, (opB v p).length = opszr.calculate_serialized_size v)
    (privateInfos : List TableInfo) (fontDicts : List (List V)) (i : Nat)
    (hlt : (retainedBytes opB fdmap privateInfos fontDicts i).flatten.length < 4294967296) :
    (retainedSpans fdmap opszr fontDicts i).map ByteStr.len =
      (retainedBytes opB fdmap privateInfos fontDicts i).map List.length := by
  unfold retainedSpans
  have hmem : ∀ x ∈ retained fdmap fontDicts i,
      (dictBytes opB x.2 (privateInfos.getD (FDMap.get fdmap x.1) TableInfo.Null)).length
        < 4294967296 := by
    intro x hx
    have := length_le_flatten (retainedBytes opB fdmap privateInfos fontDicts i)
      (dictBytes opB x.2 (privateInfos.getD (FDMap.get fdmap x.1) TableInfo.Null))
      (by unfold retainedBytes; exact List.mem_map.mpr ⟨x, hx, rfl⟩)
    omega
  unfold retainedBytes
  rw [List.map_map, List.map_map]
  apply List.map_congr_left
  intro x hx
  simp only [Function.comp]
  exact Dict_size_eq opszr opB hopsize x.2 _ (hmem x hx)

/-! ## What sanitize checks of a non-empty INDEX -/

/-- What `sanitize` checks of a non-empty INDEX whose header lies in the buffer:
it accepts exactly when `offSize` is in 1..4, the `count + 1` offsets fit in the
buffer, and the largest offset `m` is at least 1 with the `m - 1` bytes after the
offset array inside the buffer. Neighbouring offsets are never compared. -/
theorem sanitize_accepts_iff (C : COUNT) (c : hb_sanitize_context_t) (this n s : Nat)
    (hbuf : c.buf.length < 4294967296)
    (hhdr : this + CFFIndex.min_size C ≤ c.buf.length)
    (hc : CFFIndex.count C c.buf this = some n)
    (hs : CFFIndex.offSize C c.buf this = some s)
    (hn : 0 < n) :
    CFFIndex.sanitize C c this = some true ↔
      1 ≤ s ∧ s ≤ 4 ∧ CFFIndex.offsets C this + s * (n + 1) ≤ c.buf.length ∧
      ∃ m, ((∀ k, k ≤ n → ∃ o, CFFIndex.offset_at C c.buf this k = some o ∧ o ≤ m) ∧
          (∃ k, k ≤ n ∧ CFFIndex.offset_at C c.buf this k = some m)) ∧
        1 ≤ m ∧ CFFIndex.offsets C this + s * (n + 1) + (m - 1) ≤ c.buf.length := by
  have hmin : CFFIndex.min_size C = C.static_size + 1 := rfl
  have hoff : CFFIndex.offsets C this = this + C.static_size + 1 := rfl
  have hnlt := count_lt C c.buf this n (by omega) hc
  have hr1 : c.check_range this C.static_size = true := (check_range_iff _ _ _).2 (by omega)
  have hr2 : c.check_range this (CFFIndex.min_size C) = true := (check_range_iff _ _ _).2 hhdr
  have hn0 : n ≠ 0 := by omega
  unfold CFFIndex.sanitize
  rw [hr1, hc]
  simp only [if_true, if_neg hn0]
  unfold CFFIndex.sanitize.nonempty
  rw [hr2, hs, hc]
  simp only [if_true]
  by_cases hs14 : 1 ≤ s ∧ s ≤ 4
  swap
  · rw [if_neg hs14]
    constructor
    · intro h; cases h
    · rintro ⟨h1, h2, _⟩; exact absurd ⟨h1, h2⟩ hs14
  rw [if_pos hs14]
  by_cases hn1 : n + 1 < 4294967296
  swap
  · -- count is 2^32 - 1: the loop of max_offset has no end
    have hmax : CFFIndex.max_offset C c.buf this = none := by
      unfold CFFIndex.max_offset
      rw [hc]
      simp only [if_neg hn1]
    have hrhs : ¬ (CFFIndex.offsets C this + s * (n + 1) ≤ c.buf.length) := by
      have : n + 1 ≤ s * (n + 1) := Nat.le_mul_of_pos_left _ hs14.1
      omega
    constructor
    · intro h
      split at h
      · rw [hmax] at h
        split at h
        · rename_i heq; simp at heq
        · cases h
      · cases h
    · rintro ⟨_, _, h3, _⟩; exact absurd h3 hrhs
  rw [u32_of_lt hn1]
  by_cases hfit : CFFIndex.offsets C this + s * (n + 1) ≤ c.buf.length
  swap
  · have hca : ¬ (c.check_array (CFFIndex.offsets C this) s (n + 1) = true) :=
      fun h => hfit ((check_array_iff c _ _ _ hbuf).1 h)
    rw [if_neg hca]
    constructor
    · intro h; cases h
    · rintro ⟨_, _, h3, _⟩; exact absurd h3 hfit
  rw [if_pos ((check_array_iff c _ _ _ hbuf).2 hfit)]
  have hbase := data_base_eq C c.buf this n s hc hs (by omega)
  rw [hbase]
  constructor
  · intro h
    cases hm : CFFIndex.max_offset C c.buf this with
    | none => rw [hm] at h; simp at h
    | some m =>
      rw [hm] at h
      simp only [Option.some.injEq] at h
      rw [check_array_iff c _ _ _ hbuf] at h
      have hspec := (max_offset_eq_iff C c.buf this n m hc hn1).1 hm
      obtain ⟨k, hk, hkm⟩ := hspec.2
      have hmlt := offset_at_lt hkm
      refine ⟨hs14.1, hs14.2, hfit, m, hspec, ?_⟩
      simp only [usub, u32] at h
      rw [hoff]
      omega
  · rintro ⟨_, _, _, m, hspec, hm1, hmfit⟩
    have hm := (max_offset_eq_iff C c.buf this n m hc hn1).2 hspec
    rw [hm]
    simp only [Option.some.injEq]
    rw [check_array_iff c _ _ _ hbuf]
    obtain ⟨k, hk, hkm⟩ := hspec.2
    have hmlt := offset_at_lt hkm
    simp only [usub, u32]
    rw [hoff] at hmfit
    omega

/-- The statement of `sanitize_accepts_iff` at the INDEX `exDecreasing`. -/
theorem sanitize_accepts_iff_witness :
    (exDecreasing.length < 4294967296 ∧
      0 + CFFIndex.min_size .HBUINT16 ≤ exDecreasing.length ∧
      CFFIndex.count .HBUINT16 exDecreasing 0 = some 1 ∧
      CFFIndex.offSize .HBUINT16 exDecreasing 0 = some 1 ∧ 0 < 1) ∧
    (CFFIndex.sanitize .HBUINT16 ⟨exDecreasing, 0⟩ 0 = some true ↔
      1 ≤ 1 ∧ 1 ≤ 4 ∧ CFFIndex.offsets .HBUINT16 0 + 1 * (1 + 1) ≤ exDecreasing.length ∧
      ∃ m, ((∀ k, k ≤ 1 → ∃ o, CFFIndex.offset_at .HBUINT16 exDecreasing 0 k = some o ∧ o ≤ m) ∧
          (∃ k, k ≤ 1 ∧ CFFIndex.offset_at .HBUINT16 exDecreasing 0 k = some m)) ∧
        1 ≤ m ∧ CFFIndex.offsets .HBUINT16 0 + 1 * (1 + 1) + (m - 1) ≤ exDecreasing.length) :=
  ⟨by decide, sanitize_accepts_iff .HBUINT16 ⟨exDecreasing, 0⟩ 0 1 1 (by decide) (by decide)
    (by decide) (by decide) (by decide)⟩
/-! # The claims -/

/-! ## C1: elements of a sanitized INDEX -/

/-- C1 (evaluation at the failing input): `sanitize` accepts the INDEX
`exDecreasing`, whose element 0 is then the span of `2^32 - 1` bytes from position
6, the end of the 6-byte buffer. -/
theorem sanitize_accepts_span_outside_buffer :
    CFFIndex.sanitize .HBUINT16 ⟨exDecreasing, 0⟩ 0 = some true ∧
    CFFIndex.count .HBUINT16 exDecreasing 0 = some 1 ∧
    CFFIndex.get .HBUINT16 exDecreasing 0 0 = some ⟨some 6, 4294967295⟩ ∧
    exDecreasing.length = 6 ∧ ¬ (6 + 4294967295 ≤ exDecreasing.length) := by
  decide

/-! ## C2: INDEX round trip -/

/-- C2: INDEX round trip. The bytes written by `serialize (c, offSize_, byteArray)`
for `n` byte strings, with `n` representable in the count field, `offSize_` in 1..4
and `1 + (sum of the lengths) < 256^offSize_`, read back as a `CFFIndex` have
`count == n`, the given `offSize`, and every element equal byte for byte to the
input string of the same index. -/
theorem serialize_roundtrip (C : COUNT) (c : hb_serialize_context_t) (offSize_ : Nat)
    (mem : List Nat) (byteArray : List ByteStr)
    (hs1 : 1 ≤ offSize_) (hs4 : offSize_ ≤ 4)
    (hn : byteArray.length < 256 ^ C.static_size)
    (hsum : 1 + sumLen byteArray < 256 ^ offSize_)
    (hmem : ∀ b ∈ byteArray, (b.bytes mem).isSome)
    (hsize : c.size < 4294967296)
    (hroom : c.data.length +
      (CFFIndex.min_size C + offSize_ * (byteArray.length + 1) + sumLen byteArray) ≤ c.size) :
    ∃ c', CFFIndex.serialize C c offSize_ mem byteArray = some c' ∧
      CFFIndex.count C c'.data c.data.length = some byteArray.length ∧
      CFFIndex.offSize C c'.data c.data.length = some offSize_ ∧
      ∀ i (hi : i < byteArray.length), ∃ e,
        CFFIndex.get C c'.data c.data.length i = some e ∧
        e.len = byteArray[i].len ∧ e.bytes c'.data = byteArray[i].bytes mem :=
  serialize_readback C c offSize_ mem byteArray hs1 hs4 hn hsum hmem hsize hroom

/-- The statement of `serialize_roundtrip` for the two byte strings `exStrings`
written with a 16-bit count and width 1 into an empty output of 16 bytes. -/
theorem serialize_roundtrip_witness :
    (1 ≤ 1 ∧ 1 ≤ 4 ∧ exStrings.length < 256 ^ COUNT.HBUINT16.static_size ∧
      1 + sumLen exStrings < 256 ^ 1 ∧
      (∀ b ∈ exStrings, (b.bytes exMem).isSome) ∧
      (16 : Nat) < 4294967296 ∧
      ([] : List Nat).length +
        (CFFIndex.min_size .HBUINT16 + 1 * (exStrings.length + 1) + sumLen exStrings) ≤ 16) ∧
    ∃ c', CFFIndex.serialize .HBUINT16 ⟨[], 16⟩ 1 exMem exStrings = some c' ∧
      CFFIndex.count .HBUINT16 c'.data 0 = some exStrings.length ∧
      CFFIndex.offSize .HBUINT16 c'.data 0 = some 1 ∧
      ∀ i (hi : i < exStrings.length), ∃ e,
        CFFIndex.get .HBUINT16 c'.data 0 i = some e ∧
        e.len = exStrings[i].len ∧ e.bytes c'.data = exStrings[i].bytes exMem :=
  ⟨by decide,
    serialize_roundtrip .HBUINT16 ⟨[], 16⟩ 1 exMem exStrings (by decide) (by decide)
      (by decide) (by decide) (by decide) (by decide) (by decide)⟩

/-! ## C3: calcOffSize -/

/-- C3: `calcOffSize` returns the smallest width in 1..4 that holds a 32-bit
maximum offset, its assertion never fails, and `calcOffSize (0)` is 1. -/
theorem calcOffSize_minimal (maxOffset : Nat) (h : maxOffset < 4294967296) :
    (∃ w, calcOffSize maxOffset = some w ∧ 1 ≤ w ∧ w ≤ 4 ∧ maxOffset < 256 ^ w ∧
      ∀ v, 1 ≤ v → v ≤ 4 → maxOffset < 256 ^ v → w ≤ v) ∧
    calcOffSize 0 = some 1 :=
  ⟨calcOffSize_least maxOffset h, by rw [calcOffSize_eq 0 (by norm_num)]; simp⟩

/-- The statement of `calcOffSize_minimal` at the maximum offset 70000. -/
theorem calcOffSize_minimal_witness :
    70000 < 4294967296 ∧
    ((∃ w, calcOffSize 70000 = some w ∧ 1 ≤ w ∧ w ≤ 4 ∧ 70000 < 256 ^ w ∧
      ∀ v, 1 ≤ v → v ≤ 4 → 70000 < 256 ^ v → w ≤ v) ∧
    calcOffSize 0 = some 1) :=
  ⟨by decide, calcOffSize_minimal 70000 (by decide)⟩

/-! ## C4: offsets that decrease -/

/-- C4 (evaluation at the failing input): the INDEX `exDecreasing` has `count` 1
and `offset[0] = 2 > offset[1] = 1`; its header, its offset array and the data
region implied by the largest offset, 2, all lie inside the 6-byte buffer.
`sanitize` accepts it, and `operator[] (0)`, which takes
`offset[1] - offset[0]` for the length, then gives a span of `2^32 - 1` bytes. -/
theorem sanitize_accepts_decreasing_offsets :
    CFFIndex.count .HBUINT16 exDecreasing 0 = some 1 ∧
    CFFIndex.offSize .HBUINT16 exDecreasing 0 = some 1 ∧
    CFFIndex.offset_at .HBUINT16 exDecreasing 0 0 = some 2 ∧
    CFFIndex.offset_at .HBUINT16 exDecreasing 0 1 = some 1 ∧
    CFFIndex.max_offset .HBUINT16 exDecreasing 0 = some 2 ∧
    CFFIndex.offsets .HBUINT16 0 + 1 * (1 + 1) + (2 - 1) ≤ exDecreasing.length ∧
    CFFIndex.sanitize .HBUINT16 ⟨exDecreasing, 0⟩ 0 = some true ∧
    CFFIndex.get .HBUINT16 exDecreasing 0 0 = some ⟨some 6, 4294967295⟩ := by
  decide

/-! ## C5: serializing an empty list -/

/-- C5 (evaluation at the failing input): `serialize` of an empty list with
`offSize_` 1 and a 16-bit count appends 4 bytes, the count 0, the width byte and
one offset, where the count field is 2 bytes; the size pre-pass reports 4 as well. -/
theorem serialize_empty_appends_header_and_offset :
    CFFIndex.serialize .HBUINT16 ⟨[], 16⟩ 1 [] [] = some ⟨[0, 0, 1, 1], 16⟩ ∧
    CFFIndex.calculate_serialized_size .HBUINT16 1 0 0 = 4 ∧
    COUNT.HBUINT16.static_size = 2 := by
  decide

/-! ## C6: the span of an element -/

/-- C6: on an INDEX whose header and offset array lie in memory, with `offSize`
at most 4, `operator []` at `i < count` is the span that starts at
`dataBase + offset[i] - 1`, where `dataBase` is the first byte after the offset
array and `offset[k]` the big-endian value of the `offSize` bytes at position `k`
of the offset array, and whose length is `offset[i+1] - offset[i]` (the 32-bit
unsigned difference, the plain difference when `offset[i] <= offset[i+1]`). For
the INDEX with 2 elements, `offSize` 1 and offsets `[1, 4, 6]`, element 0 has
length 3 and element 1 has length 2. -/
theorem get_eq_span (C : COUNT) (mem : List Nat) (this n s i : Nat)
    (hc : CFFIndex.count C mem this = some n) (hs : CFFIndex.offSize C mem this = some s)
    (hs4 : s ≤ 4) (hfit : this + C.static_size + 1 + s * (n + 1) ≤ mem.length)
    (hlen : mem.length < 4294967296) (hi : i < n) :
    (∃ e, CFFIndex.get C mem this i = some e ∧
      e.str = some (this + C.static_size + 1 + s * (n + 1) + specOffset C mem this s i - 1) ∧
      e.len = usub (specOffset C mem this s (i + 1)) (specOffset C mem this s i) ∧
      (specOffset C mem this s i ≤ specOffset C mem this s (i + 1) →
        e.len = specOffset C mem this s (i + 1) - specOffset C mem this s i)) ∧
    (CFFIndex.get .HBUINT16 exIndex 0 0).map ByteStr.len = some 3 ∧
    (CFFIndex.get .HBUINT16 exIndex 0 1).map ByteStr.len = some 2 := by
  refine ⟨?_, by decide, by decide⟩
  have h0 := offset_at_eq_specOffset C mem this n s i hc hs hs4 hfit hlen (Nat.le_of_lt hi)
  have h1 := offset_at_eq_specOffset C mem this n s (i + 1) hc hs hs4 hfit hlen hi
  have hb := data_base_eq C mem this n s hc hs (by omega)
  refine ⟨⟨some (this + C.static_size + 1 + s * (n + 1) + specOffset C mem this s i - 1),
    usub (specOffset C mem this s (i + 1)) (specOffset C mem this s i)⟩, ?_, rfl, rfl, ?_⟩
  · unfold CFFIndex.get
    rw [hc]
    simp only [if_pos hi, hb, h0, h1]
  · intro hle
    have hlt := specOffset_lt C mem this s (i + 1) hs4
    simp only [usub, u32]
    omega

/-- The statement of `get_eq_span` at element 1 of the INDEX `exIndex`. -/
theorem get_eq_span_witness :
    (CFFIndex.count .HBUINT16 exIndex 0 = some 2 ∧ CFFIndex.offSize .HBUINT16 exIndex 0 = some 1 ∧
      1 ≤ 4 ∧ 0 + COUNT.HBUINT16.static_size + 1 + 1 * (2 + 1) ≤ exIndex.length ∧
      exIndex.length < 4294967296 ∧ 1 < 2) ∧
    ((∃ e, CFFIndex.get .HBUINT16 exIndex 0 1 = some e ∧
      e.str = some (0 + COUNT.HBUINT16.static_size + 1 + 1 * (2 + 1) +
        specOffset .HBUINT16 exIndex 0 1 1 - 1) ∧
      e.len = usub (specOffset .HBUINT16 exIndex 0 1 (1 + 1)) (specOffset .HBUINT16 exIndex 0 1 1) ∧
      (specOffset .HBUINT16 exIndex 0 1 1 ≤ specOffset .HBUINT16 exIndex 0 1 (1 + 1) →
        e.len = specOffset .HBUINT16 exIndex 0 1 (1 + 1) - specOffset .HBUINT16 exIndex 0 1 1)) ∧
    (CFFIndex.get .HBUINT16 exIndex 0 0).map ByteStr.len = some 3 ∧
    (CFFIndex.get .HBUINT16 exIndex 0 1).map ByteStr.len = some 2) :=
  ⟨by decide, get_eq_span .HBUINT16 exIndex 0 2 1 1 (by decide) (by decide) (by decide)
    (by decide) (by decide) (by decide)⟩

/-! ## C7: index out of range -/

/-- C7: for an index `i` at or past `count`, `operator []` of `CFFIndex` and of
`CFFIndexOf` return the null (empty) span; no offset is read, so this holds in
every memory in which the count can be read. -/
theorem get_out_of_range (C : COUNT) (mem : List Nat) (this n i : Nat)
    (hc : CFFIndex.count C mem this = some n) (hi : n ≤ i) :
    CFFIndex.get C mem this i = some ByteStr.Null ∧
    CFFIndexOf.get C mem this i = some ByteStr.Null ∧
    ByteStr.Null.len = 0 := by
  have hlt : ¬ i < n := by omega
  refine ⟨?_, ?_, rfl⟩
  · unfold CFFIndex.get
    rw [hc]
    simp only [if_neg hlt]
  · unfold CFFIndexOf.get
    rw [hc]
    simp only [if_neg hlt]

/-- The statement of `get_out_of_range` at index 5 of an INDEX of which only the
count field, holding 2, is in memory. -/
theorem get_out_of_range_witness :
    (CFFIndex.count .HBUINT16 [0, 2] 0 = some 2 ∧ 2 ≤ 5) ∧
    (CFFIndex.get .HBUINT16 [0, 2] 0 5 = some ByteStr.Null ∧
    CFFIndexOf.get .HBUINT16 [0, 2] 0 5 = some ByteStr.Null ∧
    ByteStr.Null.len = 0) :=
  ⟨by decide, get_out_of_range .HBUINT16 [0, 2] 0 2 5 (by decide) (by decide)⟩

/-! ## C8: size pre-pass -/

/-- C8: the size pre-pass agrees with serialization. The number of bytes a
successful `serialize (c, offSize_, byteArray)` appends equals
`calculate_serialized_size (offSize_, n, sum of the lengths)`, which is
`min_size + offSize_ * (n + 1) + sum` in `unsigned int` arithmetic, and exactly
that sum of naturals whenever `offSize_ * (n + 1)` fits in 32 bits. -/
theorem serialize_size_agrees (C : COUNT) (c c' : hb_serialize_context_t) (offSize_ : Nat)
    (mem : List Nat) (byteArray : List ByteStr)
    (hsize : c.size < 4294967296)
    (h : CFFIndex.serialize C c offSize_ mem byteArray = some c') :
    c'.data.length = c.data.length +
      CFFIndex.calculate_serialized_size C offSize_ byteArray.length (sumLen byteArray) ∧
    CFFIndex.calculate_serialized_size C offSize_ byteArray.length (sumLen byteArray) =
      (C.static_size + 1) + u32 (offSize_ * u32 (byteArray.length + 1)) + sumLen byteArray ∧
    (offSize_ * (byteArray.length + 1) < 4294967296 →
      CFFIndex.calculate_serialized_size C offSize_ byteArray.length (sumLen byteArray) =
        (C.static_size + 1) + offSize_ * (byteArray.length + 1) + sumLen byteArray) := by
  obtain ⟨hl, hle⟩ := serialize_length h
  have hcalc : CFFIndex.calculate_serialized_size C offSize_ byteArray.length
      (sumLen byteArray) =
      (C.static_size + 1) + u32 (offSize_ * u32 (byteArray.length + 1)) + sumLen byteArray := by
    unfold CFFIndex.calculate_serialized_size CFFIndex.calculate_offset_array_size
    rw [u32_of_lt]
    · rfl
    · simp only [CFFIndex.min_size] at hl ⊢
      omega
  refine ⟨?_, hcalc, ?_⟩
  · rw [hcalc, hl]
    simp only [CFFIndex.min_size]
  · intro hp
    rw [hcalc]
    rcases Nat.eq_zero_or_pos offSize_ with h0 | h0
    · subst h0; simp [u32]
    · have : byteArray.length + 1 ≤ offSize_ * (byteArray.length + 1) :=
        Nat.le_mul_of_pos_left _ h0
      rw [u32_of_lt (show byteArray.length + 1 < 4294967296 by omega), u32_of_lt hp]

/-- The statement of `serialize_size_agrees` for the two byte strings `exStrings`
written with a 16-bit count and width 1 into an empty output of 16 bytes. -/
theorem serialize_size_agrees_witness :
    (16 : Nat) < 4294967296 ∧
    CFFIndex.serialize .HBUINT16 ⟨[], 16⟩ 1 exMem exStrings =
      some ⟨[0, 2, 1, 1, 4, 6, 1, 2, 3, 4, 5], 16⟩ ∧
    ((11 : Nat) = 0 +
      CFFIndex.calculate_serialized_size .HBUINT16 1 exStrings.length (sumLen exStrings) ∧
    CFFIndex.calculate_serialized_size .HBUINT16 1 exStrings.length (sumLen exStrings) =
      (COUNT.HBUINT16.static_size + 1) + u32 (1 * u32 (exStrings.length + 1)) +
        sumLen exStrings ∧
    (1 * (exStrings.length + 1) < 4294967296 →
      CFFIndex.calculate_serialized_size .HBUINT16 1 exStrings.length (sumLen exStrings) =
        (COUNT.HBUINT16.static_size + 1) + 1 * (exStrings.length + 1) + sumLen exStrings)) :=
  ⟨by decide, by decide,
    serialize_size_agrees .HBUINT16 ⟨[], 16⟩ ⟨[0, 2, 1, 1, 4, 6, 1, 2, 3, 4, 5], 16⟩ 1
      exMem exStrings (by decide) (by decide)⟩

/-! ## C9: FDSelect3.get_fd -/

/-- C9 (evaluation at the failing input): on the table with ranges
`[(0, fd 0), (10, fd 1)]` and sentinel 20, `get_fd (9)` is 0, and `get_fd (10)`
and `get_fd (19)` run out of the loop and reach `assert (false)`. -/
theorem get_fd_last_range_asserts :
    FDSelect3.get_fd exFDSelect3 0 9 = some 0 ∧
    FDSelect3.get_fd exFDSelect3 0 10 = none ∧
    FDSelect3.get_fd exFDSelect3 0 19 = none ∧
    FDSelect3.sanitize ⟨exFDSelect3, 20⟩ 0 2 = some true := by
  decide

/-! ## C10: FDSelect3.sanitize -/

/-- C10 (counterexample): the table with ranges `[(0, fd 0), (30, fd 1)]` and
sentinel 20 lies inside its buffer and has `nRanges > 0`, `ranges[0].first == 0`,
`first` strictly increasing, every `fd` below the font-dict count 2 and the
sentinel equal to the glyph count 20, and `sanitize` rejects it. -/
theorem FDSelect3_sanitize_rejects_late_first :
    FDSelect3.nRanges exFDSelect3Late 0 = some 2 ∧
    FDSelect3_Range.first exFDSelect3Late (FDSelect3.ranges 0 0) = some 0 ∧
    FDSelect3_Range.first exFDSelect3Late (FDSelect3.ranges 0 1) = some 30 ∧
    FDSelect3_Range.fd exFDSelect3Late (FDSelect3.ranges 0 0) = some 0 ∧
    FDSelect3_Range.fd exFDSelect3Late (FDSelect3.ranges 0 1) = some 1 ∧
    readBE exFDSelect3Late 8 2 0 = some 20 ∧
    exFDSelect3Late.length = 10 ∧
    FDSelect3.sanitize ⟨exFDSelect3Late, 20⟩ 0 2 = some false := by
  decide

/-- C10 (amended): for a format-3 FDSelect table whose bytes lie inside the
buffer, `sanitize` accepts if and only if `nRanges > 0`, `ranges[0].first == 0`,
`first` is strictly increasing across the ranges, every range's `fd` is below the
font-dict count, every range's `first` is below the glyph count, and the trailing
sentinel equals the glyph count. -/
theorem FDSelect3_sanitize_iff (c : hb_sanitize_context_t) (this fdcount n : Nat)
    (first fd : Nat → Nat) (sent : Nat)
    (hfit : this + 2 + 3 * n + 2 ≤ c.buf.length)
    (hn : FDSelect3.nRanges c.buf this = some n)
    (hfirst : ∀ i, i < n → FDSelect3_Range.first c.buf (FDSelect3.ranges this i) = some (first i))
    (hfd : ∀ i, i < n → FDSelect3_Range.fd c.buf (FDSelect3.ranges this i) = some (fd i))
    (hsent : readBE c.buf (this + 2 + 3 * n) 2 0 = some sent) :
    FDSelect3.sanitize c this fdcount = some true ↔
      0 < n ∧ first 0 = 0 ∧ (∀ i, i + 1 < n → first i < first (i + 1)) ∧
      (∀ i, i < n → fd i < fdcount) ∧ (∀ i, i < n → first i < c.num_glyphs) ∧
      sent = c.num_glyphs := by
  have hr4 : c.check_range this FDSelect3.min_size = true := by
    rw [check_range_iff]
    simp only [FDSelect3.min_size]
    omega
  have hr2 : c.check_range (this + 2 + FDSelect3_Range.static_size * n) 2 = true := by
    rw [check_range_iff]
    simp only [FDSelect3_Range.static_size]
    omega
  unfold FDSelect3.sanitize
  rw [hr4, hn]
  simp only [if_true]
  by_cases hpos : 0 < n
  swap
  · rw [if_neg hpos]
    constructor
    · intro h; cases h
    · rintro ⟨h, _⟩; exact absurd h hpos
  rw [if_pos hpos, hfirst 0 hpos]
  simp only
  by_cases hf0 : first 0 = 0
  swap
  · rw [if_neg hf0]
    constructor
    · intro h; cases h
    · rintro ⟨_, h, _⟩; exact absurd h hf0
  rw [if_pos hf0]
  have hloop := FDSelect3_sanitize_loop_iff c this fdcount n first fd hfit hfirst hfd n 0
    (by omega)
  have hsent' : readBE c.buf (this + 2 + FDSelect3_Range.static_size * n) 2 0 = some sent := hsent
  constructor
  · intro h
    cases hl : FDSelect3.sanitize.loop c this fdcount n 0 with
    | none => rw [hl] at h; cases h
    | some b =>
      cases b with
      | false => rw [hl] at h; cases h
      | true =>
        rw [hl] at h
        simp only [hr2, if_true, hsent', Option.some.injEq, decide_eq_true_eq] at h
        have hall := hloop.1 hl
        refine ⟨hpos, hf0, ?_, ?_, ?_, h⟩
        · intro i hi
          have := (hall (i + 1) (Nat.zero_le _) (by omega)).2.2 (by omega)
          simpa using this
        · intro i hi
          exact (hall i (Nat.zero_le _) (by omega)).2.1
        · intro i hi
          exact (hall i (Nat.zero_le _) (by omega)).1
  · rintro ⟨_, _, hinc, hfdlt, hflt, hs⟩
    have hl : FDSelect3.sanitize.loop c this fdcount n 0 = some true := by
      apply hloop.2
      intro j _ hj
      refine ⟨hflt j (by omega), hfdlt j (by omega), ?_⟩
      intro hj0
      have := hinc (j - 1) (by omega)
      rw [Nat.sub_add_cancel hj0] at this
      exact this
    rw [hl]
    simp only [hr2, if_true, hsent', Option.some.injEq, decide_eq_true_eq]
    exact hs

/-- The statement of `FDSelect3_sanitize_iff` at the table `exFDSelect3` with 20
glyphs and 2 font dicts. -/
theorem FDSelect3_sanitize_iff_witness :
    (0 + 2 + 3 * 2 + 2 ≤ exFDSelect3.length ∧
      FDSelect3.nRanges exFDSelect3 0 = some 2 ∧
      (∀ i, i < 2 →
        FDSelect3_Range.first exFDSelect3 (FDSelect3.ranges 0 i) = some (exFirst i)) ∧
      (∀ i, i < 2 → FDSelect3_Range.fd exFDSelect3 (FDSelect3.ranges 0 i) = some (exFd i)) ∧
      readBE exFDSelect3 (0 + 2 + 3 * 2) 2 0 = some 20) ∧
    (FDSelect3.sanitize ⟨exFDSelect3, 20⟩ 0 2 = some true ↔
      0 < 2 ∧ exFirst 0 = 0 ∧ (∀ i, i + 1 < 2 → exFirst i < exFirst (i + 1)) ∧
      (∀ i, i < 2 → exFd i < 2) ∧ (∀ i, i < 2 → exFirst i < 20) ∧ 20 = 20) :=
  ⟨by decide, FDSelect3_sanitize_iff ⟨exFDSelect3, 20⟩ 0 2 2 exFirst exFd 20 (by decide)
    (by decide) (by decide) (by decide) (by decide)⟩

/-! ## C11: Subrs subsetting -/

/-- C11: Subrs subsetting keeps the indices stable. For a present Subrs INDEX
with `count > 0` whose referenced elements lie in memory, a non-empty set, a
placeholder string and an `offSize` in 1..4 wide enough for the resulting
offsets, `Subrs.serialize` produces an INDEX with the count of the input, whose
element `i` equals the input element `i` byte for byte when `i` is in the set
and the placeholder when it is not. Subsetting the 5-entry INDEX `exSubrs` to
`{1, 3}` with the empty placeholder gives 5 elements, of lengths 0, 2, 0, 3, 0,
where 2 and 3 are the lengths of the input elements 1 and 3. -/
theorem Subrs_serialize_stable (C : COUNT) (c : hb_serialize_context_t) (mem : List Nat)
    (p n offSize : Nat) (set : Finset Nat) (nullStr : ByteStr)
    (hcount : CFFIndex.count C mem p = some n) (hn : 0 < n) (hset : set.Nonempty)
    (hs1 : 1 ≤ offSize) (hs4 : offSize ≤ 4)
    (helems : ∀ i, i < n → i ∈ set →
      ∃ e, CFFIndex.get C mem p i = some e ∧ (e.bytes mem).isSome)
    (hnull : (nullStr.bytes mem).isSome)
    (hwide : 1 + ((List.range n).map (subsetLen C mem p set nullStr)).sum < 256 ^ offSize)
    (hsize : c.size < 4294967296)
    (hroom : c.data.length + (CFFIndex.min_size C + offSize * (n + 1) +
      ((List.range n).map (subsetLen C mem p set nullStr)).sum) ≤ c.size) :
    (∃ c', Subrs.serialize C c mem (.addr p) offSize (some set) nullStr = some c' ∧
      CFFIndex.count C c'.data c.data.length = some n ∧
      ∀ i, i < n → ∃ e', CFFIndex.get C c'.data c.data.length i = some e' ∧
        (i ∈ set → ∃ e, CFFIndex.get C mem p i = some e ∧ e'.len = e.len ∧
          e'.bytes c'.data = e.bytes mem) ∧
        (i ∉ set → e'.len = nullStr.len ∧ e'.bytes c'.data = nullStr.bytes mem)) ∧
    (Subrs.serialize .HBUINT16 ⟨[], 64⟩ exSubrs (.addr 0) 1 (some {1, 3}) ByteStr.Null =
        some ⟨[0, 5, 1, 1, 1, 3, 3, 6, 6, 22, 23, 25, 26, 27], 64⟩ ∧
      CFFIndex.count .HBUINT16 [0, 5, 1, 1, 1, 3, 3, 6, 6, 22, 23, 25, 26, 27] 0 = some 5 ∧
      (List.range 5).map (fun i => (CFFIndex.get .HBUINT16
        [0, 5, 1, 1, 1, 3, 3, 6, 6, 22, 23, 25, 26, 27] 0 i).map ByteStr.len) =
        [some 0, some 2, some 0, some 3, some 0] ∧
      (CFFIndex.get .HBUINT16 exSubrs 0 1).map ByteStr.len = some 2 ∧
      (CFFIndex.get .HBUINT16 exSubrs 0 3).map ByteStr.len = some 3) := by
  refine ⟨?_, by decide⟩
  obtain ⟨bs, hfill, hlen, hmem, hsum, hget⟩ := Subrs_fill_spec C mem p set nullStr hnull n 0
    (fun j _ h2 hj => helems j (by omega) hj)
  rw [← List.range_eq_range'] at hsum
  have hne : ¬ (n = 0 ∨ hb_set_is_empty set = true) := by
    rintro (h | h)
    · omega
    · simp only [hb_set_is_empty, decide_eq_true_eq] at h
      exact (Finset.nonempty_iff_ne_empty.mp hset) h
  obtain ⟨c', hser, hc', _, helem⟩ := serialize_readback C c offSize mem bs hs1 hs4
    (by rw [hlen]; exact count_lt_pow C mem p n hcount) (by rw [hsum]; exact hwide) hmem hsize
    (by rw [hlen, hsum]; exact hroom)
  refine ⟨c', ?_, by rw [← hlen]; exact hc', ?_⟩
  · simp only [Subrs.serialize, hcount, if_neg hne, hfill]
    exact hser
  · intro i hi
    have hi' : i < bs.length := by omega
    obtain ⟨e', he', hl, hb⟩ := helem i hi'
    have hg := hget i hi'
    rw [Nat.zero_add] at hg
    refine ⟨e', he', ?_, ?_⟩
    · intro hin
      exact ⟨bs[i], hg.1 hin, hl, hb⟩
    · intro hnin
      rw [hg.2 hnin] at hl hb
      exact ⟨hl, hb⟩

/-- The statement of `Subrs_serialize_stable` for the 5-entry INDEX `exSubrs`, the
set `{1, 3}` and the empty placeholder, with width 1 into an empty output of 64
bytes. -/
theorem Subrs_serialize_stable_witness :
    (CFFIndex.count .HBUINT16 exSubrs 0 = some 5 ∧ 0 < 5 ∧ ({1, 3} : Finset Nat).Nonempty ∧
      1 ≤ 1 ∧ 1 ≤ 4 ∧
      (∀ i, i < 5 → i ∈ ({1, 3} : Finset Nat) →
        ∃ e, CFFIndex.get .HBUINT16 exSubrs 0 i = some e ∧ (e.bytes exSubrs).isSome) ∧
      (ByteStr.Null.bytes exSubrs).isSome ∧
      1 + ((List.range 5).map (subsetLen .HBUINT16 exSubrs 0 {1, 3} ByteStr.Null)).sum
        < 256 ^ 1 ∧
      (64 : Nat) < 4294967296 ∧
      ([] : List Nat).length + (CFFIndex.min_size .HBUINT16 + 1 * (5 + 1) +
        ((List.range 5).map (subsetLen .HBUINT16 exSubrs 0 {1, 3} ByteStr.Null)).sum) ≤ 64) ∧
    ∃ c', Subrs.serialize .HBUINT16 ⟨[], 64⟩ exSubrs (.addr 0) 1 (some {1, 3}) ByteStr.Null =
        some c' ∧
      CFFIndex.count .HBUINT16 c'.data 0 = some 5 :=
  have helems : ∀ i, i < 5 → i ∈ ({1, 3} : Finset Nat) →
      ∃ e, CFFIndex.get .HBUINT16 exSubrs 0 i = some e ∧ (e.bytes exSubrs).isSome := by
    intro i _ hin
    simp only [Finset.mem_insert, Finset.mem_singleton] at hin
    rcases hin with rfl | rfl
    · exact ⟨⟨some 10, 2⟩, by decide, by decide⟩
    · exact ⟨⟨some 13, 3⟩, by decide, by decide⟩
  have hne : ({1, 3} : Finset Nat).Nonempty := ⟨1, by decide⟩
  ⟨⟨by decide, by decide, hne, by decide, by decide, helems, by decide, by decide, by decide,
      by decide⟩,
    let ⟨h, _⟩ := Subrs_serialize_stable .HBUINT16 ⟨[], 64⟩ exSubrs 0 5 1 {1, 3} ByteStr.Null
      (by decide) (by decide) hne (by decide) (by decide) helems (by decide) (by decide)
      (by decide) (by decide)
    let ⟨c', h1, h2, _⟩ := h
    ⟨c', h1, h2⟩⟩

/-! ## C12: the elided Subrs INDEX -/

/-- C12 (counterexample): `Subrs.serialize` of the absent (null) Subrs into an
empty output succeeds and leaves the output empty: it appends no count field. -/
theorem Subrs_serialize_null_appends_nothing :
    Subrs.serialize .HBUINT16 ⟨[], 8⟩ exIndex .null 1 (some {1}) ByteStr.Null = some ⟨[], 8⟩ ∧
    COUNT.HBUINT16.static_size = 2 := by
  decide

/-- C12 (amended): for a present Subrs index, when the referenced set is empty, the
set pointer is null or the index has `count == 0`, and the output has room for the
count field, `Subrs.serialize` succeeds and appends exactly `COUNT::static_size`
bytes, which read back as `count == 0`: no `offSize` byte, offset array or data.
For the absent (null) index it succeeds and appends nothing. -/
theorem Subrs_serialize_elided (C : COUNT) (c : hb_serialize_context_t) (mem : List Nat)
    (p n offSize : Nat) (set : Option (Finset Nat)) (nullStr : ByteStr)
    (hcount : CFFIndex.count C mem p = some n)
    (hempty : n = 0 ∨ set = none ∨ set = some ∅)
    (hroom : c.data.length + C.static_size ≤ c.size) :
    (∃ c', Subrs.serialize C c mem (.addr p) offSize set nullStr = some c' ∧
      c'.data = c.data ++ List.replicate C.static_size 0 ∧
      c'.data.length = c.data.length + C.static_size ∧
      CFFIndex.count C c'.data c.data.length = some 0) ∧
    Subrs.serialize C c mem .null offSize set nullStr = some c := by
  refine ⟨⟨⟨c.data ++ List.replicate C.static_size 0, c.size⟩, ?_, rfl, by simp, ?_⟩, rfl⟩
  · simp only [Subrs.serialize, hcount]
    cases set with
    | none => exact Subrs_serialize_empty_eq C c hroom
    | some s =>
      simp only
      have hcond : n = 0 ∨ hb_set_is_empty s = true := by
        rcases hempty with h | h | h
        · exact Or.inl h
        · cases h
        · right
          simp only [Option.some.injEq] at h
          simp [hb_set_is_empty, h]
      rw [if_pos hcond]
      exact Subrs_serialize_empty_eq C c hroom
  · have h := count_layout C c.data [] 0 (by positivity)
    rw [beBytes_zero, List.append_nil] at h
    exact h

/-- The statement of `Subrs_serialize_elided` for the 2-element INDEX `exIndex`
and the empty set. -/
theorem Subrs_serialize_elided_witness :
    (CFFIndex.count .HBUINT16 exIndex 0 = some 2 ∧
      ((2 : Nat) = 0 ∨ (some ∅ : Option (Finset Nat)) = none ∨
        (some ∅ : Option (Finset Nat)) = some ∅) ∧
      ([] : List Nat).length + COUNT.HBUINT16.static_size ≤ 8) ∧
    ((∃ c', Subrs.serialize .HBUINT16 ⟨[], 8⟩ exIndex (.addr 0) 1 (some ∅) ByteStr.Null = some c' ∧
      c'.data = [] ++ List.replicate COUNT.HBUINT16.static_size 0 ∧
      c'.data.length = ([] : List Nat).length + COUNT.HBUINT16.static_size ∧
      CFFIndex.count .HBUINT16 c'.data ([] : List Nat).length = some 0) ∧
    Subrs.serialize .HBUINT16 ⟨[], 8⟩ exIndex .null 1 (some ∅) ByteStr.Null = some ⟨[], 8⟩) :=
  ⟨⟨by decide, Or.inr (Or.inr rfl), by decide⟩,
    Subrs_serialize_elided .HBUINT16 ⟨[], 8⟩ exIndex 0 2 1 (some ∅) ByteStr.Null (by decide)
      (Or.inr (Or.inr rfl)) (by decide)⟩

/-! ## C13: the null index -/

/-- C13: serializing the absent (null) index is a no-op success. `get_size` of the
null index is 0 and `serialize (c, src)` appends nothing; `Subrs.serialize` of the
null Subrs returns true without appending a byte; and
`Subrs.calculate_serialized_size` of the null Subrs returns 0, leaving its
`offSize` parameter as it was. -/
theorem null_index_serializes_to_nothing (C : COUNT) (c : hb_serialize_context_t)
    (mem : List Nat) (offSize : Nat) (set : Option (Finset Nat)) (nullStr : ByteStr)
    (hc : c.data.length ≤ c.size) :
    CFFIndex.get_size C mem .null = some 0 ∧
    CFFIndex.serialize_copy C c mem .null = some c ∧
    Subrs.serialize C c mem .null offSize set nullStr = some c ∧
    Subrs.calculate_serialized_size C mem .null offSize set nullStr.len = some (0, offSize) := by
  refine ⟨rfl, ?_, rfl, rfl⟩
  unfold CFFIndex.serialize_copy
  simp only [CFFIndex.get_size, allocate_size_zero c hc, if_true]

/-- The statement of `null_index_serializes_to_nothing` for an output that holds
2 bytes of its 8. -/
theorem null_index_serializes_to_nothing_witness :
    (([7, 7] : List Nat).length ≤ 8) ∧
    (CFFIndex.get_size .HBUINT16 exIndex .null = some 0 ∧
    CFFIndex.serialize_copy .HBUINT16 ⟨[7, 7], 8⟩ exIndex .null = some ⟨[7, 7], 8⟩ ∧
    Subrs.serialize .HBUINT16 ⟨[7, 7], 8⟩ exIndex .null 1 (some {1}) ByteStr.Null =
      some ⟨[7, 7], 8⟩ ∧
    Subrs.calculate_serialized_size .HBUINT16 exIndex .null 1 (some {1}) ByteStr.Null.len =
      some (0, 1)) :=
  ⟨by decide, null_index_serializes_to_nothing .HBUINT16 ⟨[7, 7], 8⟩ exIndex 1 (some {1})
    ByteStr.Null (by decide)⟩

/-! ## C14: Subrs size pre-pass -/

/-- C15: FDMap identity. When no entry of an `FDMap` is the excluded marker
`HB_SET_VALUE_INVALID`, `fullset ()` is true and the read-only lookup `map[i]`
returns `i` for every `i`, whatever the entries hold. -/
theorem FDMap_identity (fdmap : List Nat) (h : ∀ e ∈ fdmap, e ≠ HB_SET_VALUE_INVALID) :
    FDMap.fullset fdmap = true ∧ ∀ i, FDMap.get fdmap i = i := by
  have hf : FDMap.fullset fdmap = true := fullset_loop_of_no_marker fdmap h
  refine ⟨hf, fun i => ?_⟩
  unfold FDMap.get
  rw [if_pos hf]

/-- The statement of `FDMap_identity` at the map with entries 5, 0, 2. -/
theorem FDMap_identity_witness :
    (∀ e ∈ [5, 0, 2], e ≠ HB_SET_VALUE_INVALID) ∧
    (FDMap.fullset [5, 0, 2] = true ∧ ∀ i, FDMap.get [5, 0, 2] i = i) :=
  ⟨by decide, FDMap_identity [5, 0, 2] (by decide)⟩

/-! ## C16: FDArray size pre-pass -/

/-- C16: `FDArray.calculate_serialized_size` returns
`min_size + offSize * (fdCount + 1) + S`, where `S` is the sum of the dict sizes
over the indices that `fdmap` does not exclude (with `S + 1` below `2^32`), in
`unsigned int` arithmetic, which is that sum of naturals whenever it fits in 32
bits; and the `offSize` it stores is the smallest width in 1..4 that can
represent `S + 1`, the largest offset the serializer writes. -/
theorem FDArray_calculate_serialized_size_spec {V PARAM : Type} (C : COUNT)
    (fontDicts : List (List V)) (fdCount : Nat) (fdmap : List Nat)
    (opszr : OP_SERIALIZER V PARAM)
    (hS : retainedSize fdmap opszr fontDicts 0 + 1 < 4294967296) :
    ∃ w, FDArray.calculate_serialized_size C fontDicts fdCount fdmap opszr =
        some (CFFIndex.calculate_serialized_size C w fdCount
          (retainedSize fdmap opszr fontDicts 0), w) ∧
      1 ≤ w ∧ w ≤ 4 ∧ retainedSize fdmap opszr fontDicts 0 + 1 < 256 ^ w ∧
      (∀ v, 1 ≤ v → v ≤ 4 → retainedSize fdmap opszr fontDicts 0 + 1 < 256 ^ v → w ≤ v) ∧
      CFFIndex.calculate_serialized_size C w fdCount (retainedSize fdmap opszr fontDicts 0) =
        u32 ((C.static_size + 1) + u32 (w * u32 (fdCount + 1)) +
          retainedSize fdmap opszr fontDicts 0) ∧
      ((C.static_size + 1) + w * (fdCount + 1) + retainedSize fdmap opszr fontDicts 0
          < 4294967296 →
        CFFIndex.calculate_serialized_size C w fdCount (retainedSize fdmap opszr fontDicts 0) =
          (C.static_size + 1) + w * (fdCount + 1) + retainedSize fdmap opszr fontDicts 0) := by
  obtain ⟨w, hw, h1, h4, hlt, hmin⟩ :=
    calcOffSize_least (retainedSize fdmap opszr fontDicts 0 + 1) hS
  refine ⟨w, ?_, h1, h4, hlt, hmin, rfl, ?_⟩
  · unfold FDArray.calculate_serialized_size
    simp only
    rw [FDArray_size_loop_eq fdmap opszr fontDicts 0 0 (by norm_num), Nat.zero_add,
      u32_of_lt (show retainedSize fdmap opszr fontDicts 0 < 4294967296 by omega),
      u32_of_lt hS, hw]
  · intro hfit
    unfold CFFIndex.calculate_serialized_size CFFIndex.calculate_offset_array_size
      CFFIndex.min_size
    have hle : fdCount + 1 ≤ w * (fdCount + 1) := Nat.le_mul_of_pos_left _ h1
    rw [u32_of_lt (show fdCount + 1 < 4294967296 by omega),
      u32_of_lt (show w * (fdCount + 1) < 4294967296 by omega), u32_of_lt hfit]

/-- The statement of `FDArray_calculate_serialized_size_spec` for the font dicts
`exFontDicts` with the map `exFDMap`, which retains two dicts of sizes 3 and 4. -/
theorem FDArray_calculate_serialized_size_spec_witness :
    (retainedSize exFDMap exOpszr exFontDicts 0 + 1 < 4294967296 ∧
      retainedSize exFDMap exOpszr exFontDicts 0 = 7) ∧
    ∃ w, FDArray.calculate_serialized_size .HBUINT16 exFontDicts 2 exFDMap exOpszr =
        some (CFFIndex.calculate_serialized_size .HBUINT16 w 2
          (retainedSize exFDMap exOpszr exFontDicts 0), w) ∧
      1 ≤ w ∧ w ≤ 4 :=
  ⟨by decide,
    let ⟨w, h1, h2, h3, _⟩ := FDArray_calculate_serialized_size_spec .HBUINT16 exFontDicts 2
      exFDMap exOpszr (by decide)
    ⟨w, h1, h2, h3⟩⟩

/-! ## C17: FDArray.serialize -/

/-- C17: with an operator serializer that appends, for each value, the bytes its
size function counts, with `fdCount` the number of font dicts that `fdmap` does
not exclude (representable in the count field), and with `offSize_` in 1..4 able
to represent 1 + the total size of the retained font dicts, `FDArray.serialize`
produces an INDEX of `fdCount` elements whose element `k` is the serialization of
the `k`-th non-excluded font dict, in ascending order of original index `i`, made
with the context `privateInfos[fdmap[i]]`; the bytes appended are the header, the
`fdCount + 1` offsets and the bytes of the retained font dicts, so an excluded
font dict adds no offset and no byte. -/
theorem FDArray_serialize_retained {V : Type} (C : COUNT) (c : hb_serialize_context_t)
    (offSize_ : Nat) (fontDicts : List (List V)) (fdCount : Nat) (fdmap : List Nat)
    (opszr : OP_SERIALIZER V TableInfo) (privateInfos : List TableInfo)
    (opB : V → TableInfo → List Nat)
    (hop : ∀ (c : hb_serialize_context_t) v p, opszr.serialize c v p =
      if c.data.length + (opB v p).length ≤ c.size then some ⟨c.data ++ opB v p, c.size⟩
      else none)
    (hopsize : ∀ v p, (opB v p).length = opszr.calculate_serialized_size v)
    (hcount : fdCount = (retained fdmap fontDicts 0).length)
    (hrep : fdCount < 256 ^ C.static_size)
    (hs1 : 1 ≤ offSize_) (hs4 : offSize_ ≤ 4)
    (hwide : 1 + (retainedBytes opB fdmap privateInfos fontDicts 0).flatten.length
      < 256 ^ offSize_)
    (hsize : c.size < 4294967296)
    (hroom : c.data.length + (CFFIndex.min_size C + offSize_ * (fdCount + 1) +
      (retainedBytes opB fdmap privateInfos fontDicts 0).flatten.length) ≤ c.size) :
    ∃ c', FDArray.serialize C c offSize_ fontDicts fdCount fdmap opszr privateInfos = some c' ∧
      CFFIndex.count C c'.data c.data.length = some fdCount ∧
      CFFIndex.offSize C c'.data c.data.length = some offSize_ ∧
      c'.data.length = c.data.length + (CFFIndex.min_size C + offSize_ * (fdCount + 1) +
        (retainedBytes opB fdmap privateInfos fontDicts 0).flatten.length) ∧
      ∀ k (hk : k < (retained fdmap fontDicts 0).length), ∃ e,
        CFFIndexOf.get C c'.data c.data.length k = some e ∧
        e.bytes c'.data = some (dictBytes opB (retained fdmap fontDicts 0)[k].2
          (privateInfos.getD (FDMap.get fdmap (retained fdmap fontDicts 0)[k].1)
            TableInfo.Null)) ∧
        ∀ c0 : hb_serialize_context_t,
          c0.data.length + (dictBytes opB (retained fdmap fontDicts 0)[k].2
            (privateInfos.getD (FDMap.get fdmap (retained fdmap fontDicts 0)[k].1)
              TableInfo.Null)).length ≤ c0.size →
          Dict.serialize c0 (retained fdmap fontDicts 0)[k].2 opszr
              (privateInfos.getD (FDMap.get fdmap (retained fdmap fontDicts 0)[k].1)
                TableInfo.Null) =
            some ⟨c0.data ++ dictBytes opB (retained fdmap fontDicts 0)[k].2
              (privateInfos.getD (FDMap.get fdmap (retained fdmap fontDicts 0)[k].1)
                TableInfo.Null), c0.size⟩ := by
  have hspl : (retainedSpans fdmap opszr fontDicts 0).length =
      (retained fdmap fontDicts 0).length := by simp [retainedSpans]
  have hbl : (retainedBytes opB fdmap privateInfos fontDicts 0).length =
      (retained fdmap fontDicts 0).length := by simp [retainedBytes]
  have hcount' : fdCount = (retainedSpans fdmap opszr fontDicts 0).length := by
    rw [hspl]; exact hcount
  have hlay := FDArray_serialize_layout C c offSize_ fontDicts fdCount fdmap opszr
    privateInfos opB hop hs1 (by omega) hcount' hsize hroom
  have hmap := retainedSpans_len_eq fdmap opszr opB hopsize privateInfos fontDicts 0
    (by omega)
  have hsumD : (retainedBytes opB fdmap privateInfos fontDicts 0).flatten.length =
      sumLen (retainedSpans fdmap opszr fontDicts 0) := by
    rw [List.length_flatten, sumLen, hmap]
  have hprod : offSize_ * ((retainedSpans fdmap opszr fontDicts 0).length + 1)
      < 4294967296 := by
    rw [← hcount']; omega
  have hn : (retainedSpans fdmap opszr fontDicts 0).length < 256 ^ C.static_size := by
    rw [← hcount']; exact hrep
  have hsum : 1 + sumLen (retainedSpans fdmap opszr fontDicts 0) < 256 ^ offSize_ := by
    rw [← hsumD]; exact hwide
  refine ⟨_, hlay, ?_, ?_, ?_, ?_⟩
  · have hc := count_layout C c.data ([offSize_] ++
      encOffsets offSize_ 1 (retainedSpans fdmap opszr fontDicts 0) ++
      (retainedBytes opB fdmap privateInfos fontDicts 0).flatten) fdCount hrep
    simpa using hc
  · have ho := offSize_layout C c.data (beBytes C.static_size fdCount) offSize_
      (encOffsets offSize_ 1 (retainedSpans fdmap opszr fontDicts 0) ++
        (retainedBytes opB fdmap privateInfos fontDicts 0).flatten)
      (beBytes_length _ _) (by omega)
    simpa using ho
  · simp only [List.length_append, beBytes_length, List.length_singleton, encOffsets_length,
      CFFIndex.min_size, ← hcount']
    omega
  · intro k hk
    have hk' : k < (retainedSpans fdmap opszr fontDicts 0).length := by rw [hspl]; exact hk
    have hkb : k < (retainedBytes opB fdmap privateInfos fontDicts 0).length := by
      rw [hbl]; exact hk
    obtain ⟨_, hget, hbytes⟩ := layout_get C c.data
      (retainedBytes opB fdmap privateInfos fontDicts 0).flatten offSize_
      (retainedSpans fdmap opszr fontDicts 0) k hs1 hs4 hn hsum hprod hk' hsumD
    rw [← hcount'] at hget hbytes
    refine ⟨_, hget, ?_, ?_⟩
    · rw [hbytes]
      have hlenk : ((retainedSpans fdmap opszr fontDicts 0)[k]).len =
          ((retainedBytes opB fdmap privateInfos fontDicts 0)[k]).length := by
        have h1 := congrArg (fun l => l[k]?) hmap
        simp only [List.getElem?_map, List.getElem?_eq_getElem hk',
          List.getElem?_eq_getElem hkb, Option.map_some', Option.some.injEq] at h1
        exact h1
      have htake : sumLen (List.take k (retainedSpans fdmap opszr fontDicts 0)) =
          ((List.take k (retainedBytes opB fdmap privateInfos fontDicts 0)).map
            List.length).sum := by
        rw [sumLen, List.map_take, hmap, ← List.map_take]
      rw [hlenk, htake, flatten_slice _ k hkb]
      simp [retainedBytes]
    · intro c0 hc0
      exact Dict_serialize_eq opszr opB hop _ _ c0 hc0

/-- The statement of `FDArray_serialize_retained` for the font dicts `exFontDicts`
with the map `exFDMap` and the operator serializer `exOpszr`, with width 1 into an
empty output of 64 bytes. -/
theorem FDArray_serialize_retained_witness :
    ((∀ (c : hb_serialize_context_t) v p, exOpszr.serialize c v p =
        if c.data.length + (exOpBytes v p).length ≤ c.size then
          some ⟨c.data ++ exOpBytes v p, c.size⟩
        else none) ∧
      (∀ v p, (exOpBytes v p).length = exOpszr.calculate_serialized_size v) ∧
      2 = (retained exFDMap exFontDicts 0).length ∧
      2 < 256 ^ COUNT.HBUINT16.static_size ∧ 1 ≤ 1 ∧ 1 ≤ 4 ∧
      1 + (retainedBytes exOpBytes exFDMap exPrivateInfos exFontDicts 0).flatten.length
        < 256 ^ 1 ∧
      (64 : Nat) < 4294967296 ∧
      ([] : List Nat).length + (CFFIndex.min_size .HBUINT16 + 1 * (2 + 1) +
        (retainedBytes exOpBytes exFDMap exPrivateInfos exFontDicts 0).flatten.length) ≤ 64) ∧
    (∃ c', FDArray.serialize .HBUINT16 ⟨[], 64⟩ 1 exFontDicts 2 exFDMap exOpszr
        exPrivateInfos = some c' ∧
      CFFIndex.count .HBUINT16 c'.data 0 = some 2 ∧
      CFFIndex.offSize .HBUINT16 c'.data 0 = some 1) ∧
    FDArray.serialize .HBUINT16 ⟨[], 64⟩ 1 exFontDicts 2 exFDMap exOpszr exPrivateInfos =
      some ⟨[0, 2, 1, 1, 4, 8, 10, 10, 10, 20, 20, 20, 20], 64⟩ :=
  have hop : ∀ (c : hb_serialize_context_t) v p, exOpszr.serialize c v p =
      if c.data.length + (exOpBytes v p).length ≤ c.size then
        some ⟨c.data ++ exOpBytes v p, c.size⟩
      else none := fun _ _ _ => rfl
  have hopsize : ∀ v p, (exOpBytes v p).length = exOpszr.calculate_serialized_size v :=
    fun v p => by simp [exOpBytes, exOpszr]
  ⟨⟨hop, hopsize, by decide, by decide, by decide, by decide, by decide, by decide,
      by decide⟩,
    (let ⟨c', h1, h2, h3, _⟩ := FDArray_serialize_retained .HBUINT16 ⟨[], 64⟩ 1 exFontDicts 2
      exFDMap exOpszr exPrivateInfos exOpBytes hop hopsize (by decide) (by decide) (by decide)
      (by decide) (by decide) (by decide) (by decide)
    ⟨c', h1, h2, h3⟩),
    by decide⟩

/-! ## C18: zero offsets of a DICT -/

/-- C18: for every operator code, `serialize_offset_op` (and with it
`serialize_offset2_op` and `serialize_offset4_op`) called with value 0 succeeds
and appends nothing; called with a non-zero value in range and room in the
output, it appends the integer operand and then the operator, which is one byte,
or the escape prefix byte and one byte for a two-byte operator, so that the output
is strictly longer than for the value 0. -/
theorem serialize_offset_op_spec (c : hb_serialize_context_t) (op : Nat) :
    (∀ (w : Nat) (minVal maxVal : Int) (intOp : Nat),
      Dict.serialize_offset_op w minVal maxVal c op 0 intOp = some c) ∧
    Dict.serialize_offset2_op c op 0 = some c ∧
    Dict.serialize_offset4_op c op 0 = some c ∧
    (∀ (w : Nat) (minVal maxVal : Int) (intOp : Nat) (value : Int),
      value ≠ 0 → minVal ≤ value → value ≤ maxVal →
      c.data.length + 1 + w + OpCode_Size op ≤ c.size →
      ∃ c1, UnsizedByteStr.serialize_int w minVal maxVal c intOp value = some c1 ∧
        c1.data = c.data ++ [intOp % 256] ++ beBytes w (value % 4294967296).toNat ∧
        Dict.serialize_offset_op w minVal maxVal c op value intOp =
          some ⟨c1.data ++ opBytes op, c.size⟩ ∧
        c.data.length < (c1.data ++ opBytes op).length) ∧
    (∀ value : Int, value ≠ 0 → 0 ≤ value → value ≤ 32767 →
      c.data.length + 1 + 2 + OpCode_Size op ≤ c.size →
      Dict.serialize_offset2_op c op value =
        some ⟨c.data ++ [OpCode_shortint] ++ beBytes 2 value.toNat ++ opBytes op, c.size⟩) ∧
    (∀ value : Int, value ≠ 0 → 0 ≤ value → value ≤ 2147483647 →
      c.data.length + 1 + 4 + OpCode_Size op ≤ c.size →
      Dict.serialize_offset4_op c op value =
        some ⟨c.data ++ [OpCode_longintdict] ++ beBytes 4 value.toNat ++ opBytes op, c.size⟩) ∧
    ((Is_OpCode_ESC op = false ∧ opBytes op = [op % 256]) ∨
      (Is_OpCode_ESC op = true ∧ opBytes op = [OpCode_escape, Unmake_OpCode_ESC op % 256])) := by
  have hgen : ∀ (w : Nat) (minVal maxVal : Int) (intOp : Nat) (value : Int),
      value ≠ 0 → minVal ≤ value → value ≤ maxVal →
      c.data.length + 1 + w + OpCode_Size op ≤ c.size →
      Dict.serialize_offset_op w minVal maxVal c op value intOp =
        some ⟨c.data ++ [intOp % 256] ++ beBytes w (value % 4294967296).toNat ++ opBytes op,
          c.size⟩ := by
    intro w minVal maxVal intOp value hv hmin hmax hroom
    have hint := serialize_int_eq w minVal maxVal c intOp value hmin hmax (by omega)
    exact serialize_offset_op_after_int w minVal maxVal c _ op value intOp hv hint
      (by simp only [List.length_append, List.length_singleton, beBytes_length]; omega)
  refine ⟨fun w minVal maxVal intOp => by simp [Dict.serialize_offset_op],
    by simp [Dict.serialize_offset2_op, Dict.serialize_offset_op],
    by simp [Dict.serialize_offset4_op, Dict.serialize_offset_op], ?_, ?_, ?_, ?_⟩
  · intro w minVal maxVal intOp value hv hmin hmax hroom
    refine ⟨_, serialize_int_eq w minVal maxVal c intOp value hmin hmax (by omega), rfl,
      hgen w minVal maxVal intOp value hv hmin hmax hroom, ?_⟩
    simp only [List.length_append, List.length_singleton, beBytes_length, opBytes_length]
    omega
  · intro value hv hmin hmax hroom
    have h := hgen 2 0 32767 OpCode_shortint value hv hmin hmax hroom
    rw [Int.emod_eq_of_lt hmin (by omega)] at h
    exact h
  · intro value hv hmin hmax hroom
    have h := hgen 4 0 2147483647 OpCode_longintdict value hv hmin hmax hroom
    rw [Int.emod_eq_of_lt hmin (by omega)] at h
    exact h
  · unfold opBytes
    cases h : Is_OpCode_ESC op
    · exact Or.inl ⟨rfl, by simp⟩
    · exact Or.inr ⟨rfl, by simp⟩

/-- The statement of `serialize_offset_op_spec` for the 2-byte offset 300 and the
two-byte operator 256 + 36, into an empty output of 8 bytes. -/
theorem serialize_offset_op_spec_witness :
    ((300 : Int) ≠ 0 ∧ (0 : Int) ≤ 300 ∧ (300 : Int) ≤ 32767 ∧
      ([] : List Nat).length + 1 + 2 + OpCode_Size 292 ≤ 8) ∧
    Dict.serialize_offset2_op ⟨[], 8⟩ 292 300 = some ⟨[28, 1, 44, 12, 36], 8⟩ ∧
    Dict.serialize_offset2_op ⟨[], 8⟩ 292 0 = some ⟨[], 8⟩ :=
  ⟨by decide,
    (serialize_offset_op_spec ⟨[], 8⟩ 292).2.2.2.2.1 300 (by decide) (by decide) (by decide)
      (by decide),
    (serialize_offset_op_spec ⟨[], 8⟩ 292).2.1⟩

/-! ## C19: the offset width of a subsetted Subrs -/

set_option maxRecDepth 100000 in
/-- C19 (evaluation at the failing input): for the Subrs INDEX `exSubrs255`, one
subroutine of 255 bytes, and the set `{0}`, the size pre-pass leaves `offSize` 1;
`serialize` with that width succeeds and stores the final offset `1 + 255 = 256`
in one byte, so that `offset_at (1)` of the serialized INDEX is 0. -/
theorem Subrs_offSize_too_narrow :
    CFFIndex.get .HBUINT16 exSubrs255 0 0 = some ⟨some 7, 255⟩ ∧
    Subrs.calculate_serialized_size .HBUINT16 exSubrs255 (.addr 0) 0 (some {0}) 0 =
      some (260, 1) ∧
    Subrs.serialize .HBUINT16 ⟨[], 300⟩ exSubrs255 (.addr 0) 1 (some {0}) ByteStr.Null =
      some ⟨[0, 1, 1, 1, 0] ++ List.replicate 255 7, 300⟩ ∧
    CFFIndex.offset_at .HBUINT16 ([0, 1, 1, 1, 0] ++ List.replicate 255 7) 0 0 = some 1 ∧
    CFFIndex.offset_at .HBUINT16 ([0, 1, 1, 1, 0] ++ List.replicate 255 7) 0 1 = some 0 ∧
    calcOffSize (255 + 1) = some 2 :=
  ⟨by decide, exSubrs255_calculate, by decide, by decide, by decide,
    by rw [calcOffSize_eq 256 (by norm_num)]; rfl⟩

/-! ## C20: FDSelect3.get_fd below the last range -/

/-- C20: for a format-3 FDSelect table with `nRanges >= 2`, `ranges[0].first == 0`
and `first` strictly increasing, and a glyph id `g` below the `first` of the last
range, `get_fd (g)` returns `ranges[k].fd` for the unique `k` with
`ranges[k].first <= g < ranges[k+1].first`, without reaching the assertion. -/
theorem get_fd_inner_ranges (mem : List Nat) (this g n : Nat) (first fd : Nat → Nat)
    (hn : FDSelect3.nRanges mem this = some n) (hn2 : 2 ≤ n)
    (hfirst : ∀ i, i < n → FDSelect3_Range.first mem (FDSelect3.ranges this i) = some (first i))
    (hfd : ∀ i, i < n → FDSelect3_Range.fd mem (FDSelect3.ranges this i) = some (fd i))
    (h0 : first 0 = 0) (hinc : ∀ i, i + 1 < n → first i < first (i + 1))
    (hlast : g < first (n - 1)) :
    ∃ k, k + 1 < n ∧ first k ≤ g ∧ g < first (k + 1) ∧
      FDSelect3.get_fd mem this g = some (fd k) ∧
      ∀ j, j + 1 < n → first j ≤ g → g < first (j + 1) → j = k := by
  obtain ⟨k, hk, hle, hlt, hget⟩ := get_fd_loop_spec mem this g n first fd hfirst hfd hlast
    (n - 1) 1 (le_refl _) (by omega) (by simp [h0])
  refine ⟨k, hk, hle, hlt, ?_, ?_⟩
  · unfold FDSelect3.get_fd
    rw [hn]
    exact hget
  · intro j hj hjle hjlt
    rcases Nat.lt_trichotomy j k with h | h | h
    · have := first_strictMono first n hinc (j + 1) (k + 1) (by omega) hk
      rcases Nat.eq_or_lt_of_le (Nat.succ_le_of_lt h) with e | e
      · have e' : j + 1 = k := e
        rw [e'] at hjlt
        omega
      · have := first_strictMono first n hinc (j + 1) k e (by omega)
        omega
    · exact h
    · rcases Nat.eq_or_lt_of_le (Nat.succ_le_of_lt h) with e | e
      · have e' : k + 1 = j := e
        rw [e'] at hlt
        omega
      · have := first_strictMono first n hinc (k + 1) j e (by omega)
        omega

/-- The statement of `get_fd_inner_ranges` at glyph 9 of the table `exFDSelect3`. -/
theorem get_fd_inner_ranges_witness :
    (FDSelect3.nRanges exFDSelect3 0 = some 2 ∧ 2 ≤ 2 ∧
      (∀ i, i < 2 →
        FDSelect3_Range.first exFDSelect3 (FDSelect3.ranges 0 i) = some (exFirst i)) ∧
      (∀ i, i < 2 → FDSelect3_Range.fd exFDSelect3 (FDSelect3.ranges 0 i) = some (exFd i)) ∧
      exFirst 0 = 0 ∧ (∀ i, i + 1 < 2 → exFirst i < exFirst (i + 1)) ∧ 9 < exFirst (2 - 1)) ∧
    ∃ k, k + 1 < 2 ∧ exFirst k ≤ 9 ∧ 9 < exFirst (k + 1) ∧
      FDSelect3.get_fd exFDSelect3 0 9 = some (exFd k) ∧
      ∀ j, j + 1 < 2 → exFirst j ≤ 9 → 9 < exFirst (j + 1) → j = k :=
  ⟨⟨by decide, by decide, by decide, by decide, by decide,
      fun i hi => by have h0 : i = 0 := by omega
                     subst h0; decide,
      by decide⟩,
    get_fd_inner_ranges exFDSelect3 0 9 2 exFirst exFd (by decide) (by decide)
      (by decide) (by decide) (by decide)
      (fun i hi => by have h0 : i = 0 := by omega
                      subst h0; decide)
      (by decide)⟩


/-! ## C21: the format dispatch of FDSelect.sanitize -/

/-- C21 (evaluation at the failing input): for an FDSelect table whose header is
inside the buffer, `FDSelect.sanitize` returns the result of the format-0
validation when `format == 0` and the result of the format-3 validation for every
other value of the format byte, 3 or not. The table `exFDSelect5`, format byte 5
followed by a valid format-3 body, is accepted with 20 glyphs and 2 font dicts. -/
theorem FDSelect_sanitize_accepts_other_format :
    (∀ (c : hb_sanitize_context_t) (this fdcount f : Nat),
      c.check_range this FDSelect.min_size = true → FDSelect.format c.buf this = some f →
      FDSelect.sanitize c this fdcount =
        if f = 0 then some (FDSelect0.sanitize c (this + 1) fdcount)
        else FDSelect3.sanitize c (this + 1) fdcount) ∧
    hb_sanitize_context_t.check_range ⟨exFDSelect5, 20⟩ 0 FDSelect.min_size = true ∧
    FDSelect.format exFDSelect5 0 = some 5 ∧
    FDSelect3.sanitize ⟨exFDSelect5, 20⟩ 1 2 = some true ∧
    FDSelect.sanitize ⟨exFDSelect5, 20⟩ 0 2 = some true := by
  refine ⟨?_, by decide, by decide, by decide, by decide⟩
  intro c this fdcount f hhdr hfmt
  simp only [FDSelect.sanitize, FDSelect.sanitize.cond, hhdr, hfmt, if_true, FDSelect.u]
  by_cases h0 : f = 0
  · simp [h0]
  · simp [h0]

/-- The statement of `FDSelect_sanitize_accepts_other_format` at the format-3
table `exFDSelectF3` and at the format-0 table `exFDSelectF0`. -/
theorem FDSelect_sanitize_accepts_other_format_witness :
    (hb_sanitize_context_t.check_range ⟨exFDSelectF3, 20⟩ 0 FDSelect.min_size = true ∧
      FDSelect.format exFDSelectF3 0 = some 3 ∧
      FDSelect.sanitize ⟨exFDSelectF3, 20⟩ 0 2 =
        if 3 = 0 then some (FDSelect0.sanitize ⟨exFDSelectF3, 20⟩ (0 + 1) 2)
        else FDSelect3.sanitize ⟨exFDSelectF3, 20⟩ (0 + 1) 2) ∧
    (hb_sanitize_context_t.check_range ⟨exFDSelectF0, 4⟩ 0 FDSelect.min_size = true ∧
      FDSelect.format exFDSelectF0 0 = some 0 ∧
      FDSelect.sanitize ⟨exFDSelectF0, 4⟩ 0 2 =
        if 0 = 0 then some (FDSelect0.sanitize ⟨exFDSelectF0, 4⟩ (0 + 1) 2)
        else FDSelect3.sanitize ⟨exFDSelectF0, 4⟩ (0 + 1) 2) ∧
    FDSelect.sanitize ⟨exFDSelectF3, 20⟩ 0 2 = some true ∧
    FDSelect.sanitize ⟨exFDSelectF0, 4⟩ 0 2 = some true ∧
    FDSelect.sanitize ⟨exFDSelectF0, 5⟩ 0 2 = some false :=
  ⟨⟨by decide, by decide,
      FDSelect_sanitize_accepts_other_format.1 ⟨exFDSelectF3, 20⟩ 0 2 3 (by decide) (by decide)⟩,
    ⟨by decide, by decide,
      FDSelect_sanitize_accepts_other_format.1 ⟨exFDSelectF0, 4⟩ 0 2 0 (by decide) (by decide)⟩,
    by decide, by decide, by decide⟩

end CFF
